import Mathlib

/-!
# limo: thread pool, dense matrix and fractions

A shallow embedding of `limo::thread_pool::ThreadPool` (ThreadPool.hpp, ThreadPool.cpp), of
`limo::numerics::Matrix` (Matrix.hpp) and of `limo::numerics::fraction::Fraction` (Fraction.hpp,
Fraction.cpp), with the properties proved about them.

## Thread pool model

Every block of `ThreadPool.cpp` that runs with `mutex` held is one atomic transition of the pool;
the threads (callers of `submit` and `shutdown`, and the worker threads) interleave these
transitions in any order.  A worker blocked in `cv.wait` is a worker whose transition is not
enabled: the wait predicate `stopping || !tasks.empty()` is re-evaluated each time the worker is
scheduled.  The invocation `task()` made outside the lock is a transition of its own; its effect on
the memory the callables share is taken as one atomic update (the tests use `std::atomic`).  A
callable acts on that memory only: it terminates and does not itself call into the pool.

`std::packaged_task`, `std::future`, `std::queue` and `std::thread` are modelled by what the C++
standard says of them: a packaged task stores the value or the exception of its callable in the
state it shares with its future, once; `std::future::get` hands that outcome over and gives up
the shared state.

## Matrix model

`Matrix<T>` is its three data members, the storage being a list in row-major order.  Loops are
folds over the index range, in the order of the source.  `size_t` is 64 bits wide: the
product `rows * cols` that sizes the storage in `resize` wraps.  The storage of a well-formed
matrix has at most `SIZE_MAX` elements, as every `std::vector` has, so that the index
computations within its bounds do not wrap.

## Fraction model

`Fraction` is its two `int` members, an `int` being 32 bits wide.  Every `int` operation is
checked: an operation whose exact value does not fit has no result (signed overflow is undefined
in C++), and so has the member function that runs it.  `/` and `%` truncate toward zero.

## Lock model

For the use of `mutex`, the three member functions `shutdown`, `enqueue` and `workerLoop` are
taken statement by statement, each thread having a program point, the mutex an owner.
-/

namespace Limo

/-! ## Data model of the thread pool -/

/-- Exceptions thrown by the library code. The message text is not modelled. -/
inductive Exception where
  | runtime_error
  | invalid_argument
  | out_of_range
  deriving DecidableEq, Repr

/-- What a `std::packaged_task` stores in the state it shares with its `std::future`: the value
returned by the callable, or the exception it raised. -/
inductive Outcome (ε α : Type) where
  | value (a : α)
  | failure (e : ε)
  deriving DecidableEq, Repr

/-- The bound callable `std::bind(f, args...)`: run on the memory `σ` shared by the callables, it
gives the new memory and either returns a value or raises an error. -/
abbrev Callable (σ ε α : Type) := σ → σ × Outcome ε α

/-- The closure `[task]() { (*task)(); }` stored in the queue. `handle` identifies the
`std::packaged_task` (and the shared state of its future) the closure points to. -/
structure Task (σ ε α : Type) where
  handle : Nat
  callable : Callable σ ε α

/-- Where one worker thread stands in `workerLoop`. -/
inductive Worker (σ ε α : Type) where
  /-- At the top of the loop, or blocked in `cv.wait`. -/
  | waiting
  /-- Past the critical section with a task moved out of the queue, about to call `task()`. -/
  | running (task : Task σ ε α)
  /-- Returned from `workerLoop`. -/
  | exited
  /-- An exception escaped `workerLoop`, or `front()` was evaluated on an empty queue. -/
  | aborted

/-- The data members of `ThreadPool` (`mutex` and `cv` are in the transition structure). -/
structure ThreadPool (σ ε α : Type) where
  workers : List (Worker σ ε α)
  tasks : List (Task σ ε α)
  stopping : Bool

/-- The pool together with what surrounds it: the shared states of the futures handed out so far
(indexed by handle; `none` while no outcome is stored), the memory the callables act on, and three
history lists that record what happened: handles in the order `enqueue` accepted them, pairs
(worker, handle) in the order workers took them from the queue, handles in the order their
invocation finished. -/
structure World (σ ε α : Type) where
  pool : ThreadPool σ ε α
  shared : List (Option (Outcome ε α))
  memory : σ
  accepted : List Nat
  dequeued : List (Nat × Nat)
  executed : List Nat

/-- The `std::future` returned by `submit`: the shared state it refers to and whether it still
refers to it (`valid()`). -/
structure Future where
  handle : Nat
  valid : Bool
  deriving DecidableEq, Repr

/-- What a call of `std::future::get` does. -/
inductive GetResult (ε α : Type) where
  /-- The shared state is not ready: the caller stays blocked. -/
  | blocked
  /-- The stored value is returned. -/
  | returned (a : α)
  /-- The stored exception is rethrown. -/
  | raised (e : ε)
  /-- The future is not `valid()`: there is no shared state to read (the standard leaves the call
  undefined; implementations throw `std::future_error`). -/
  | no_state
  deriving DecidableEq, Repr

/-- Result of the critical section of `workerLoop`. -/
inductive Acquire (σ ε α : Type) where
  /-- The wait predicate is false: the worker stays in `cv.wait`. -/
  | blocked
  /-- `stopping && tasks.empty()`: the worker returns. -/
  | finished
  /-- `tasks.front()` on an empty queue. -/
  | undefined
  /-- The head task was moved out and popped. -/
  | took (task : Task σ ε α) (pool : ThreadPool σ ε α)

/-- One scheduling decision. -/
inductive Action (σ ε α : Type) where
  /-- Some thread calls `submit` with this bound callable. -/
  | submit (f : Callable σ ε α)
  /-- Some thread calls `shutdown` and goes through its locked block. -/
  | shutdown
  /-- Worker thread `i` makes its next transition. -/
  | worker (i : Nat)

variable {σ ε α : Type}

/-! ## Operations of the thread pool -/

/-- The loop of the constructor: `count` times `workers.emplace_back(...)`. -/
def spawnWorkers : Nat → List (Worker σ ε α) → List (Worker σ ε α)
  | 0, workers => workers
  | count + 1, workers => spawnWorkers count (workers ++ [Worker.waiting])

/-- `ThreadPool::ThreadPool(threadCount)`. -/
def ThreadPool.new (threadCount : Nat) : ThreadPool σ ε α :=
  let threadCount := if threadCount = 0 then 1 else threadCount
  { workers := spawnWorkers threadCount [], tasks := [], stopping := false }

/-- `ThreadPool::size`. -/
def ThreadPool.size (p : ThreadPool σ ε α) : Nat :=
  p.workers.length

/-- The locked block of `ThreadPool::shutdown`. The flag returned tells whether the caller goes on
to `notify_all` and the joins (`true`) or has returned at once (`false`). -/
def ThreadPool.shutdown (p : ThreadPool σ ε α) : ThreadPool σ ε α × Bool :=
  if p.stopping then (p, false)
  else ({ p with stopping := true }, true)

/-- What the joins of `shutdown` wait for: every worker thread has returned from `workerLoop`. -/
def ThreadPool.joined (p : ThreadPool σ ε α) : Bool :=
  p.workers.all fun w => match w with
    | Worker.exited => true
    | _ => false

/-- `ThreadPool::enqueue`. -/
def ThreadPool.enqueue (p : ThreadPool σ ε α) (task : Task σ ε α) :
    Except Exception (ThreadPool σ ε α) :=
  if p.stopping then Except.error Exception.runtime_error
  else Except.ok { p with tasks := p.tasks ++ [task] }

/-- The critical section of `ThreadPool::workerLoop`: wait, exit check, `front`, `pop`. -/
def ThreadPool.workerLoopLocked (p : ThreadPool σ ε α) : Acquire σ ε α :=
  if !(p.stopping || !p.tasks.isEmpty) then Acquire.blocked
  else if p.stopping && p.tasks.isEmpty then Acquire.finished
  else
    match p.tasks with
    | [] => Acquire.undefined
    | task :: rest => Acquire.took task { p with tasks := rest }

/-- `std::packaged_task::operator()`: when the shared state already holds an outcome (or does not
exist) it throws `std::future_error` (result `none`); otherwise it calls the callable and stores
the value returned or the exception raised. -/
def Task.invoke (t : Task σ ε α) (shared : List (Option (Outcome ε α))) (memory : σ) :
    Option (List (Option (Outcome ε α)) × σ) :=
  match shared[t.handle]? with
  | some none => some (shared.set t.handle (some (t.callable memory).2), (t.callable memory).1)
  | _ => none

/-- `ThreadPool::submit`: a fresh packaged task and its future, then `enqueue`. -/
def World.submit (w : World σ ε α) (f : Callable σ ε α) : Except Exception (World σ ε α × Future) :=
  let handle := w.shared.length
  match w.pool.enqueue { handle := handle, callable := f } with
  | Except.error e => Except.error e
  | Except.ok p =>
    Except.ok ({ w with pool := p, shared := w.shared ++ [none], accepted := w.accepted ++ [handle] },
      { handle := handle, valid := true })

/-- Replace the position of worker `i`. -/
def World.setWorker (w : World σ ε α) (i : Nat) (s : Worker σ ε α) : World σ ε α :=
  { w with pool := { w.pool with workers := w.pool.workers.set i s } }

/-- The next transition of worker `i` in `workerLoop`. -/
def World.workerStep (w : World σ ε α) (i : Nat) : World σ ε α :=
  match w.pool.workers[i]? with
  | some Worker.waiting =>
    match w.pool.workerLoopLocked with
    | Acquire.blocked => w
    | Acquire.finished => w.setWorker i Worker.exited
    | Acquire.undefined => w.setWorker i Worker.aborted
    | Acquire.took task p =>
      { w with
        pool := { p with workers := p.workers.set i (Worker.running task) },
        dequeued := w.dequeued ++ [(i, task.handle)] }
  | some (Worker.running task) =>
    match task.invoke w.shared w.memory with
    | some (shared, memory) =>
      { w with
        pool := { w.pool with workers := w.pool.workers.set i Worker.waiting },
        shared := shared,
        memory := memory,
        executed := w.executed ++ [task.handle] }
    | none => w.setWorker i Worker.aborted
  | _ => w

/-- One transition of the whole system. -/
def World.step (w : World σ ε α) : Action σ ε α → World σ ε α
  | Action.submit f =>
    match w.submit f with
    | Except.ok (w', _) => w'
    | Except.error _ => w
  | Action.shutdown => { w with pool := w.pool.shutdown.1 }
  | Action.worker i => w.workerStep i

/-- Run a schedule. -/
def World.run (w : World σ ε α) : List (Action σ ε α) → World σ ε α
  | [] => w
  | a :: as => (w.step a).run as

/-- A freshly constructed pool of `threadCount` workers over the memory `memory`. -/
def World.init (threadCount : Nat) (memory : σ) : World σ ε α :=
  { pool := ThreadPool.new threadCount, shared := [], memory := memory,
    accepted := [], dequeued := [], executed := [] }

/-- `std::future::get`: blocks until the shared state is ready, then returns the value or rethrows
the exception, and releases the shared state (the future is no longer `valid()`). -/
def Future.get (fut : Future) (w : World σ ε α) : GetResult ε α × Future :=
  if !fut.valid then (GetResult.no_state, fut)
  else
    match w.shared[fut.handle]? with
    | some (some (Outcome.value a)) => (GetResult.returned a, { fut with valid := false })
    | some (some (Outcome.failure e)) => (GetResult.raised e, { fut with valid := false })
    | _ => (GetResult.blocked, fut)

/-! ## Callables of the tests -/

/-- The task of test ExecutesSubmittedTasks: a lambda returning 42. -/
def returns42 : Callable Unit Unit Int := fun m => (m, Outcome.value 42)

/-- The function object `add` of test SubmitsCallableWithArguments. -/
def add (a b : Int) : Int := a + b

/-- The bound call `std::bind(add, 3, 4)` of test SubmitsCallableWithArguments. -/
def boundAdd : Callable Unit Unit Int := fun m => (m, Outcome.value (add 3 4))

/-- The task of test SubmitsSharedPtrArgument: it doubles the payload the shared pointer refers
to; the memory is that payload. -/
def doublePayload : Callable Int Unit Int := fun m => (m, Outcome.value (m * 2))

/-- The task of tests RunsMultipleTasks and ShutdownProcessesQueuedTasks: `counter.fetch_add(1)`;
the memory is the counter. -/
def incrementCounter : Callable Int Unit Unit := fun m => (m + 1, Outcome.value ())

/-- A callable that raises `std::runtime_error` when invoked. -/
def throwsError : Callable Unit Exception Int :=
  fun m => (m, Outcome.failure Exception.runtime_error)

/-- The world of test ExecutesSubmittedTasks once worker 0 has taken and run the task. -/
def completedWorld : World Unit Unit Int :=
  (World.init 2 ()).run [Action.submit returns42, Action.worker 0, Action.worker 0]

/-- A schedule of test RunsMultipleTasks: three submissions, then the three workers take and run
one task each. -/
def runsMultipleTasks : List (Action Int Unit Unit) :=
  [Action.submit incrementCounter, Action.submit incrementCounter, Action.submit incrementCounter,
    Action.worker 0, Action.worker 1, Action.worker 2, Action.worker 2, Action.worker 0,
    Action.worker 1]

/-- Test ShutdownProcessesQueuedTasks up to the point where the single worker is about to leave
its loop: the task was submitted, `shutdown` was called, the worker took and ran the task. -/
def beforeExit : List (Action Int Unit Unit) :=
  [Action.submit incrementCounter, Action.shutdown, Action.worker 0, Action.worker 0]

/-- Test ShutdownProcessesQueuedTasks to its end: the worker then finds the queue empty and the
pool stopping, and leaves its loop. -/
def shutdownProcessesQueuedTasks : List (Action Int Unit Unit) :=
  [Action.submit incrementCounter, Action.shutdown, Action.worker 0, Action.worker 0,
    Action.worker 0]

/-- Two submissions to a pool of one worker, which then takes the first task. -/
def twoQueued : List (Action Unit Unit Int) :=
  [Action.submit returns42, Action.submit boundAdd, Action.worker 0]

/-! ## Properties of reachable states -/

/-- The `get` result that hands an outcome to the caller. -/
def GetResult.ofOutcome : Outcome ε α → GetResult ε α
  | Outcome.value a => GetResult.returned a
  | Outcome.failure e => GetResult.raised e

/-- What holds in every state the system can reach from a freshly constructed pool. -/
structure World.Inv (w : World σ ε α) : Prop where
  /-- Handles are given out in order: the accepted handles are `0 .. shared.length - 1`. -/
  accepted_eq : w.accepted = List.range w.shared.length
  /-- The tasks taken so far, followed by the queue, are the accepted tasks in order. -/
  fifo : w.dequeued.map Prod.snd ++ w.pool.tasks.map Task.handle = w.accepted
  /-- A queued task has not stored an outcome. -/
  queued_unset : ∀ t ∈ w.pool.tasks, w.shared[t.handle]? = some none
  /-- A task held by a worker was taken by that worker and has not stored an outcome. -/
  running_dequeued : ∀ (i : Nat) (t : Task σ ε α), w.pool.workers[i]? = some (Worker.running t) →
    (i, t.handle) ∈ w.dequeued ∧ w.shared[t.handle]? = some none
  /-- A task that was taken and has not stored an outcome is held by the worker that took it. -/
  dequeued_status : ∀ (i h : Nat), (i, h) ∈ w.dequeued → w.shared[h]? = some none →
    ∃ t, w.pool.workers[i]? = some (Worker.running t) ∧ t.handle = h
  /-- No invocation finished twice. -/
  executed_nodup : w.executed.Nodup
  /-- The finished invocations are the handles whose shared state holds an outcome. -/
  executed_iff : ∀ (h : Nat), h ∈ w.executed ↔ ∃ o, w.shared[h]? = some (some o)
  /-- Once a worker has returned, the pool is stopping and the queue is empty. -/
  exited_drained : ∀ (i : Nat), w.pool.workers[i]? = some Worker.exited →
    w.pool.stopping = true ∧ w.pool.tasks = []
  /-- No worker was terminated by an exception or an undefined `front()`. -/
  not_aborted : ∀ (i : Nat), w.pool.workers[i]? ≠ some Worker.aborted
  /-- There is at least one worker. -/
  has_worker : 0 < w.pool.workers.length

/-- The state after the first `t` transitions of an infinite schedule. -/
def World.runN (w : World σ ε α) (sched : Nat → Action σ ε α) : Nat → World σ ε α
  | 0 => w
  | t + 1 => (w.runN sched t).step (sched t)

/-- The schedule lets each of the `n` worker threads make a transition again and again. -/
def Fair (n : Nat) (sched : Nat → Action σ ε α) : Prop :=
  ∀ i, i < n → ∀ t, ∃ d, sched (t + d) = Action.worker i

/-- The task `tk` is in the queue, and twice the number of tasks ahead of it, plus one when
worker 0 is busy with a task, is at most `μ`. -/
def World.QueuedWithin (w : World σ ε α) (tk : Task σ ε α) (μ : Nat) : Prop :=
  ∃ (pre post : List (Task σ ε α)) (b : Nat),
    w.pool.tasks = pre ++ tk :: post ∧
    ((w.pool.workers[0]? = some Worker.waiting ∧ b = 0) ∨
      ((∃ t0, w.pool.workers[0]? = some (Worker.running t0)) ∧ b = 1)) ∧
    2 * pre.length + b ≤ μ

/-- The schedule in which the `n` workers make a transition in turn, for ever. -/
def roundRobin (n : Nat) : Nat → Action σ ε α :=
  fun t => Action.worker (t % n)

/-- The task with handle `h` and callable `f` is in the queue, is held by a worker, or has left
its outcome in the shared state. -/
def World.Tracked (w : World σ ε α) (h : Nat) (f : Callable σ ε α) : Prop :=
  (∃ t ∈ w.pool.tasks, t.handle = h ∧ t.callable = f) ∨
  (∃ (i : Nat) (t : Task σ ε α),
    w.pool.workers[i]? = some (Worker.running t) ∧ t.handle = h ∧ t.callable = f) ∨
  (∃ m : σ, w.shared[h]? = some (some (f m).2))

/-- Every callable still to be run adds one to the counter read off the memory by `counter`, and
the counter stands at its initial value plus the number of finished invocations. -/
def World.Counting (w : World σ ε α) (counter : σ → Int) (c0 : Int) : Prop :=
  (∀ t ∈ w.pool.tasks, ∀ m, counter (t.callable m).1 = counter m + 1) ∧
  (∀ (i : Nat) (t : Task σ ε α), w.pool.workers[i]? = some (Worker.running t) →
    ∀ m, counter (t.callable m).1 = counter m + 1) ∧
  counter w.memory = c0 + w.executed.length

/-! ## Dense matrix (Matrix.hpp) -/

namespace Numerics

/-- The data members of `Matrix<T>`: row-major storage. -/
structure Matrix (T : Type) where
  rows_ : Nat
  cols_ : Nat
  data_ : List T
  deriving DecidableEq, Repr

namespace Matrix

variable {T : Type}

/-- `Matrix() = default`: the members as their initializers leave them. -/
def mkDefault : Matrix T := { rows_ := 0, cols_ := 0, data_ := [] }

/-- `rows()`. -/
def rows (m : Matrix T) : Nat := m.rows_

/-- `cols()`. -/
def cols (m : Matrix T) : Nat := m.cols_

/-- `size()`. -/
def size (m : Matrix T) : Nat := m.data_.length

/-- `empty()`. -/
def empty (m : Matrix T) : Bool := m.data_.isEmpty

/-- The greatest value of a `size_t`, taken as 64 bits wide. -/
def SIZE_MAX : Nat := 18446744073709551615

/-- `resize(rows, cols, value)`: the element count `rows_ * cols_` is computed in `size_t` and
wraps. -/
def resize (_m : Matrix T) (rows cols : Nat) (value : T) : Matrix T :=
  { rows_ := rows, cols_ := cols,
    data_ := List.replicate ((rows * cols) % (SIZE_MAX + 1)) value }

/-- `Matrix(rows, cols, value)`. -/
def create (rows cols : Nat) (value : T) : Matrix T :=
  (mkDefault : Matrix T).resize rows cols value

/-- `index(row, col)`. For `row < rows_` and `col < cols_` of a well-formed matrix the value is
below the size of the storage, so the `size_t` computation does not wrap. -/
def index (m : Matrix T) (row col : Nat) : Nat := row * m.cols_ + col

/-- Reading through the unchecked `operator()(row, col)`. An index outside the storage, which the
source leaves undefined, reads `T{}`. -/
def get [Zero T] (m : Matrix T) (row col : Nat) : T := m.data_.getD (m.index row col) 0

/-- Writing through the unchecked `operator()(row, col)`. An index outside the storage, which the
source leaves undefined, writes nothing. -/
def set (m : Matrix T) (row col : Nat) (value : T) : Matrix T :=
  { m with data_ := m.data_.set (m.index row col) value }

/-- `identity(size)`. -/
def identity [Zero T] [One T] (size : Nat) : Matrix T :=
  (List.range size).foldl (fun result i => result.set i i 1) (create size size 0)

/-- `swap_rows(left, right)`. -/
def swap_rows [Zero T] (m : Matrix T) (left right : Nat) : Except Exception (Matrix T) :=
  if left ≥ m.rows_ ∨ right ≥ m.rows_ then Except.error Exception.out_of_range
  else if left = right then Except.ok m
  else Except.ok ((List.range m.cols_).foldl
    (fun m col => (m.set left col (m.get right col)).set right col (m.get left col)) m)

/-- The pivot search of `inverse`: `while (pivotRow < n && work(pivotRow, i) == T{}) ++pivotRow;`
run for at most `fuel` iterations. The search starts at row `i` and stops at `n` at the latest, so
`n - i` iterations let it run to its end. -/
def findPivot [Zero T] [DecidableEq T] (work : Matrix T) (n i : Nat) : Nat → Nat → Nat
  | 0, pivotRow => pivotRow
  | fuel + 1, pivotRow =>
    if pivotRow < n ∧ work.get pivotRow i = 0 then findPivot work n i fuel (pivotRow + 1)
    else pivotRow

/-- The loop `for col` of `inverse` that divides row `i` of both matrices by the pivot. -/
def normalizeRow [Zero T] [Div T] (n i : Nat) (pivot : T) (work inv : Matrix T) :
    Matrix T × Matrix T :=
  (List.range n).foldl
    (fun (s : Matrix T × Matrix T) col =>
      (s.1.set i col (s.1.get i col / pivot), s.2.set i col (s.2.get i col / pivot)))
    (work, inv)

/-- The innermost loop `for col` of `inverse`: subtract `factor` times row `i` from row `row`. -/
def eliminateRow [Zero T] [Sub T] [Mul T] (n i row : Nat) (factor : T) (work inv : Matrix T) :
    Matrix T × Matrix T :=
  (List.range n).foldl
    (fun (s : Matrix T × Matrix T) col =>
      (s.1.set row col (s.1.get row col - factor * s.1.get i col),
        s.2.set row col (s.2.get row col - factor * s.2.get i col)))
    (work, inv)

/-- The loop `for row` of `inverse`. -/
def eliminateColumn [Zero T] [Sub T] [Mul T] [DecidableEq T] (n i : Nat) (work inv : Matrix T) :
    Matrix T × Matrix T :=
  (List.range n).foldl
    (fun (s : Matrix T × Matrix T) row =>
      if row = i then s
      else
        let factor := s.1.get row i
        if factor = 0 then s
        else eliminateRow n i row factor s.1 s.2)
    (work, inv)

/-- The body of the loop `for i` of `inverse`. -/
def inverseStep [Zero T] [Sub T] [Mul T] [Div T] [DecidableEq T] (n : Nat)
    (s : Matrix T × Matrix T) (i : Nat) : Except Exception (Matrix T × Matrix T) :=
  let pivotRow := findPivot s.1 n i (n - i) i
  if pivotRow = n then Except.error Exception.invalid_argument
  else do
    let swapped ←
      if pivotRow ≠ i then do
        let work ← s.1.swap_rows pivotRow i
        let inv ← s.2.swap_rows pivotRow i
        pure (work, inv)
      else pure s
    let pivot := swapped.1.get i i
    if pivot = 0 then Except.error Exception.invalid_argument
    else
      let normalized := normalizeRow n i pivot swapped.1 swapped.2
      pure (eliminateColumn n i normalized.1 normalized.2)

/-- `inverse()`. -/
def inverse [Zero T] [One T] [Sub T] [Mul T] [Div T] [DecidableEq T] (m : Matrix T) :
    Except Exception (Matrix T) :=
  if m.rows_ ≠ m.cols_ then Except.error Exception.invalid_argument
  else
    let n := m.rows_
    match (List.range n).foldlM (inverseStep n) (m, identity n) with
    | Except.error e => Except.error e
    | Except.ok s => Except.ok s.2

/-! ### Element access, transpose, sum, difference and product -/

/-- `ensure_in_range(row, col)`. -/
def ensure_in_range (m : Matrix T) (row col : Nat) : Except Exception Unit :=
  if row ≥ m.rows_ ∨ col ≥ m.cols_ then Except.error Exception.out_of_range
  else Except.ok ()

/-- `ensure_same_size(other, message)`. -/
def ensure_same_size (m other : Matrix T) : Except Exception Unit :=
  if m.rows_ ≠ other.rows_ ∨ m.cols_ ≠ other.cols_ then Except.error Exception.invalid_argument
  else Except.ok ()

/-- `at(row, col)`: the range check, then the element at `index(row, col)`. -/
def at_ [Zero T] (m : Matrix T) (row col : Nat) : Except Exception T := do
  m.ensure_in_range row col
  pure (m.get row col)

/-- `row(rowIndex)`: the span of `cols_` elements that starts at `rowIndex * cols_`. -/
def row (m : Matrix T) (rowIndex : Nat) : Except Exception (List T) :=
  if rowIndex ≥ m.rows_ then Except.error Exception.out_of_range
  else Except.ok ((m.data_.drop (rowIndex * m.cols_)).take m.cols_)

/-- `transpose()`. -/
def transpose [Zero T] (m : Matrix T) : Matrix T :=
  (List.range m.rows_).foldl
    (fun result rowIndex =>
      (List.range m.cols_).foldl
        (fun result colIndex => result.set colIndex rowIndex (m.get rowIndex colIndex))
        result)
    (create m.cols_ m.rows_ 0)

/-- `operator+`. The loop reads both storages through the unchecked `data_[i]`. -/
def add [Zero T] [Add T] (m other : Matrix T) : Except Exception (Matrix T) := do
  m.ensure_same_size other
  pure ((List.range m.data_.length).foldl
    (fun result i =>
      { result with data_ := result.data_.set i (m.data_.getD i 0 + other.data_.getD i 0) })
    (create m.rows_ m.cols_ 0))

/-- `operator-`. The loop reads both storages through the unchecked `data_[i]`. -/
def sub [Zero T] [Sub T] (m other : Matrix T) : Except Exception (Matrix T) := do
  m.ensure_same_size other
  pure ((List.range m.data_.length).foldl
    (fun result i =>
      { result with data_ := result.data_.set i (m.data_.getD i 0 - other.data_.getD i 0) })
    (create m.rows_ m.cols_ 0))

/-- `operator*`. -/
def mul [Zero T] [Add T] [Mul T] (m other : Matrix T) : Except Exception (Matrix T) :=
  if m.cols_ ≠ other.rows_ then Except.error Exception.invalid_argument
  else
    Except.ok ((List.range m.rows_).foldl
      (fun result rowIndex =>
        (List.range m.cols_).foldl
          (fun result k =>
            let left := m.get rowIndex k
            (List.range other.cols_).foldl
              (fun result colIndex =>
                result.set rowIndex colIndex
                  (result.get rowIndex colIndex + left * other.get k colIndex))
              result)
          result)
      (create m.rows_ other.cols_ 0))

/-- The stored matrix is a well-formed `r x c` matrix: `rows() = r`, `cols() = c` and the storage
has `r * c` elements, a number that is the size of a `std::vector` and so a `size_t`. -/
def IsShape (r c : Nat) (m : Matrix T) : Prop :=
  m.rows_ = r ∧ m.cols_ = c ∧ m.data_.length = r * c ∧ r * c ≤ SIZE_MAX

/-! ### State changes and row operations -/

/-- `clear()`. -/
def clear (_m : Matrix T) : Matrix T := { rows_ := 0, cols_ := 0, data_ := [] }

/-- `add_scaled_row(targetRow, sourceRow, factor)`, with its early return on `factor == T{}`. -/
def add_scaled_row [Zero T] [Add T] [Mul T] [DecidableEq T] (m : Matrix T)
    (targetRow sourceRow : Nat) (factor : T) : Except Exception (Matrix T) :=
  if targetRow ≥ m.rows_ ∨ sourceRow ≥ m.rows_ then Except.error Exception.out_of_range
  else if factor = 0 then Except.ok m
  else Except.ok ((List.range m.cols_).foldl
    (fun m col => m.set targetRow col (m.get targetRow col + m.get sourceRow col * factor)) m)

/-- The general update of `add_scaled_row` as the specification words it, without the early
return: after the range check, `target(col) := target(col) + source(col) * factor` for every
column, whatever the factor. -/
def add_scaled_row_general [Zero T] [Add T] [Mul T] (m : Matrix T)
    (targetRow sourceRow : Nat) (factor : T) : Except Exception (Matrix T) :=
  if targetRow ≥ m.rows_ ∨ sourceRow ≥ m.rows_ then Except.error Exception.out_of_range
  else Except.ok ((List.range m.cols_).foldl
    (fun m col => m.set targetRow col (m.get targetRow col + m.get sourceRow col * factor)) m)

end Matrix
end Numerics

/-- The mathematical matrix of the entries of an `n x n` stored matrix. -/
def toSquare {K : Type} [Zero K] (n : Nat) (m : Numerics.Matrix K) : Matrix (Fin n) (Fin n) K :=
  Matrix.of fun i j => m.get i.val j.val

/-- The stored matrix is a well-formed `n x n` matrix: its storage has `n * n` elements, a number
that is the size of a `std::vector` and so a `size_t`. -/
def Numerics.Matrix.IsSquare {T : Type} (n : Nat) (m : Numerics.Matrix T) : Prop :=
  m.rows_ = n ∧ m.cols_ = n ∧ m.data_.length = n * n ∧ n * n ≤ Numerics.Matrix.SIZE_MAX

/-- The state of the loop `for i` of `inverse` on the matrix `m` once the columns before `j` are
done: both matrices are `n x n`, `inv * m = work`, and these columns of `work` are those of the
identity. -/
def Numerics.Matrix.GaussJordan {K : Type} [Field K] (n : Nat) (m : Numerics.Matrix K) (j : Nat)
    (s : Numerics.Matrix K × Numerics.Matrix K) : Prop :=
  s.1.IsSquare n ∧ s.2.IsSquare n ∧
  (∀ r c, r < n → c < n → (∑ k in Finset.range n, s.2.get r k * m.get k c) = s.1.get r c) ∧
  ∀ r c, r < n → c < j → s.1.get r c = if r = c then 1 else 0

/-- Every vector that the working matrix `s.1` sends to zero is sent to zero by `m`. -/
def Numerics.Matrix.KernelIn {K : Type} [Field K] (n : Nat) (m : Numerics.Matrix K)
    (s : Numerics.Matrix K × Numerics.Matrix K) : Prop :=
  ∀ v : Nat → K,
    (∀ r, r < n → (∑ c in Finset.range n, s.1.get r c * v c) = 0) →
    ∀ r, r < n → (∑ c in Finset.range n, m.get r c * v c) = 0

namespace Numerics

/-! ## Exact fractions (Fraction.hpp, Fraction.cpp) -/

/-- The least value of an `int`, taken as 32 bits wide. -/
def INT_MIN : Int := -2147483648

/-- The greatest value of an `int`, taken as 32 bits wide. -/
def INT_MAX : Int := 2147483647

/-- The result of an `int` operation whose exact value is `x`: that value when an `int` can hold
it. Otherwise the operation overflows, which C++ leaves undefined: there is no result. -/
def checkedInt (x : Int) : Option Int :=
  if INT_MIN ≤ x ∧ x ≤ INT_MAX then some x else none

/-- The data members of `Fraction`. -/
structure Fraction where
  num : Int
  denom : Int
  deriving DecidableEq, Repr

namespace Fraction

/-- The loop of `normalize`: `while (b != 0) { temp = b; b = a % b; a = temp; }`, run for at most
`fuel` iterations; the result is the final `a`. Both variables are non-negative and `b` decreases
in every iteration, so as many iterations as the first `b` let the loop run to its end. -/
def gcdLoop : Nat → Int → Int → Int
  | 0, a, _ => a
  | fuel + 1, a, b => if b ≠ 0 then gcdLoop fuel b (a.tmod b) else a

/-- `Fraction::normalize`. Division by zero, like overflow, gives no result. -/
def normalize (f : Fraction) : Option Fraction := do
  let signed ←
    if f.denom < 0 then do
      let num ← checkedInt (-f.num)
      let denom ← checkedInt (-f.denom)
      pure (num, denom)
    else pure (f.num, f.denom)
  let a ← checkedInt |signed.1|
  let b ← checkedInt |signed.2|
  let a := gcdLoop b.toNat a b
  if a = 0 then none
  else do
    let num ← checkedInt (signed.1.tdiv a)
    let denom ← checkedInt (signed.2.tdiv a)
    pure { num := num, denom := denom }

/-- `Fraction::operator+`. -/
def add (a b : Fraction) : Option Fraction := do
  let left ← checkedInt (a.num * b.denom)
  let right ← checkedInt (b.num * a.denom)
  let num ← checkedInt (left + right)
  let denom ← checkedInt (a.denom * b.denom)
  pure { num := num, denom := denom }

/-- `Fraction::operator-`. -/
def sub (a b : Fraction) : Option Fraction := do
  let left ← checkedInt (a.num * b.denom)
  let right ← checkedInt (b.num * a.denom)
  let num ← checkedInt (left - right)
  let denom ← checkedInt (a.denom * b.denom)
  pure { num := num, denom := denom }

/-- `Fraction::operator*`. -/
def mul (a b : Fraction) : Option Fraction := do
  let num ← checkedInt (a.num * b.num)
  let denom ← checkedInt (a.denom * b.denom)
  pure { num := num, denom := denom }

/-- `Fraction::operator/`. -/
def div (a b : Fraction) : Option Fraction := do
  let num ← checkedInt (a.num * b.denom)
  let denom ← checkedInt (a.denom * b.num)
  pure { num := num, denom := denom }

/-- `Fraction::operator==`. -/
def eq (a b : Fraction) : Option Bool := do
  let left ← checkedInt (a.num * b.denom)
  let right ← checkedInt (b.num * a.denom)
  pure (decide (left = right))

/-- `Fraction::operator!=`. -/
def ne (a b : Fraction) : Option Bool := do
  let equal ← a.eq b
  pure (!equal)

/-- `Fraction::operator<`. -/
def lt (a b : Fraction) : Option Bool := do
  let left ← checkedInt (a.num * b.denom)
  let right ← checkedInt (b.num * a.denom)
  pure (decide (left < right))

/-- `Fraction::operator<=`: `*this < other || *this == other`. -/
def le (a b : Fraction) : Option Bool := do
  let less ← a.lt b
  if less then pure true else a.eq b

/-- `Fraction::operator>`. -/
def gt (a b : Fraction) : Option Bool := do
  let lessEq ← a.le b
  pure (!lessEq)

/-- `Fraction::operator>=`. -/
def ge (a b : Fraction) : Option Bool := do
  let less ← a.lt b
  pure (!less)

/-- The rational number a fraction with a non-zero denominator represents. -/
def toRat (f : Fraction) : ℚ := (f.num : ℚ) / (f.denom : ℚ)

end Fraction
end Numerics

namespace Locking

/-! ## Statement-level model of `shutdown`, `enqueue` and `workerLoop` (ThreadPool.cpp)

Each statement of the three member functions is one step of the thread that runs it, so that the
places where `mutex` is taken and released are explicit. -/

/-- Where a thread stands: the statement it runs next. -/
inductive Pc where
  /-- A caller thread outside the pool's member functions. -/
  | idle
  /-- `shutdown`: about to construct the `unique_lock` (line 26). -/
  | shutdownLock
  /-- `shutdown`: about to evaluate `if (stopping)` (line 27). -/
  | shutdownTest
  /-- `shutdown`: about to run `stopping = true` (line 30). -/
  | shutdownSet
  /-- `shutdown`: leaving the block, the `unique_lock` is destroyed; `early` on `return` (line
  28), otherwise at the closing brace (line 31). -/
  | shutdownUnlock (early : Bool)
  /-- `shutdown`: about to run `cv.notify_all()` (line 32). -/
  | shutdownNotify
  /-- `shutdown`: in the loop of `worker.join()` (lines 34 to 36). -/
  | shutdownJoin
  /-- `enqueue`: about to construct the `unique_lock` (line 41). -/
  | enqueueLock
  /-- `enqueue`: about to evaluate `if (stopping)` (line 42). -/
  | enqueueTest
  /-- `enqueue`: about to run `tasks.push(...)` (line 45). -/
  | enqueuePush
  /-- `enqueue`: leaving the block, the `unique_lock` is destroyed; `thrown` when the block is
  left by the `throw` (line 43), otherwise at the closing brace (line 46). -/
  | enqueueUnlock (thrown : Bool)
  /-- `enqueue`: about to run `cv.notify_one()` (line 47). -/
  | enqueueNotify
  /-- `workerLoop`: about to construct the `unique_lock` (line 54). -/
  | workerLock
  /-- `workerLoop`: inside `cv.wait`, about to evaluate the predicate
  `stopping || !tasks.empty()` (line 55). -/
  | workerPredicate
  /-- `workerLoop`: inside `cv.wait`, the predicate was false: about to release the mutex and
  sleep. -/
  | workerRelease
  /-- `workerLoop`: asleep inside `cv.wait`, the mutex released; waking up takes it again. -/
  | workerAsleep
  /-- `workerLoop`: about to evaluate `if (stopping && tasks.empty())` (line 56). -/
  | workerExitTest
  /-- `workerLoop`: about to run `tasks.front()` and `tasks.pop()` (lines 59 and 60). -/
  | workerTake
  /-- `workerLoop`: leaving the block, the `unique_lock` is destroyed; `returning` on `return`
  (line 57), otherwise at the closing brace (line 61). -/
  | workerUnlock (returning : Bool)
  /-- `workerLoop`: about to run `task()` (line 62). -/
  | workerInvoke
  /-- `workerLoop` has returned. -/
  | workerDone
  deriving DecidableEq, Repr

/-- The mutex, the two data it guards, and the program point of every thread. Of the queue only
the number of tasks is kept. -/
structure LockState where
  /-- The thread that holds `mutex`, if any. -/
  owner : Option Nat
  stopping : Bool
  /-- The number of elements of `tasks`. -/
  queued : Nat
  pcs : List Pc
  deriving DecidableEq, Repr

/-- What a step does to the mutex. -/
inductive MutexEffect where
  | keep
  | acquire
  | release
  deriving DecidableEq, Repr

/-- The outcome of one step of a thread: its next program point, what happens to the mutex, and
the values of the flag and of the queue length after the step. -/
structure Micro where
  next : Pc
  mutex : MutexEffect
  stopping : Bool
  queued : Nat
  deriving DecidableEq, Repr

/-- The program point is a statement that reads or writes `stopping` or `tasks`. -/
def touches : Pc → Bool
  | Pc.shutdownTest => true
  | Pc.shutdownSet => true
  | Pc.enqueueTest => true
  | Pc.enqueuePush => true
  | Pc.workerPredicate => true
  | Pc.workerExitTest => true
  | Pc.workerTake => true
  | _ => false

/-- The program point lies in the scope of a `unique_lock` that holds the mutex. -/
def holds : Pc → Bool
  | Pc.shutdownTest => true
  | Pc.shutdownSet => true
  | Pc.shutdownUnlock _ => true
  | Pc.enqueueTest => true
  | Pc.enqueuePush => true
  | Pc.enqueueUnlock _ => true
  | Pc.workerPredicate => true
  | Pc.workerRelease => true
  | Pc.workerExitTest => true
  | Pc.workerTake => true
  | Pc.workerUnlock _ => true
  | _ => false

/-- The program point belongs to a worker thread that has not returned from `workerLoop`. -/
def workerRunning : Pc → Bool
  | Pc.workerLock => true
  | Pc.workerPredicate => true
  | Pc.workerRelease => true
  | Pc.workerAsleep => true
  | Pc.workerExitTest => true
  | Pc.workerTake => true
  | Pc.workerUnlock _ => true
  | Pc.workerInvoke => true
  | _ => false

/-- The statement at program point `pc`, run in state `s`; `none` when the thread cannot move
(it waits for the mutex or for the workers to finish, or it has nothing to run). -/
def micro (s : LockState) : Pc → Option Micro
  | Pc.idle => none
  | Pc.shutdownLock =>
    if s.owner = none then some ⟨Pc.shutdownTest, MutexEffect.acquire, s.stopping, s.queued⟩
    else none
  | Pc.shutdownTest =>
    if s.stopping then some ⟨Pc.shutdownUnlock true, MutexEffect.keep, s.stopping, s.queued⟩
    else some ⟨Pc.shutdownSet, MutexEffect.keep, s.stopping, s.queued⟩
  | Pc.shutdownSet => some ⟨Pc.shutdownUnlock false, MutexEffect.keep, true, s.queued⟩
  | Pc.shutdownUnlock early =>
    some ⟨if early then Pc.idle else Pc.shutdownNotify, MutexEffect.release, s.stopping, s.queued⟩
  | Pc.shutdownNotify => some ⟨Pc.shutdownJoin, MutexEffect.keep, s.stopping, s.queued⟩
  | Pc.shutdownJoin =>
    if s.pcs.any workerRunning then none
    else some ⟨Pc.idle, MutexEffect.keep, s.stopping, s.queued⟩
  | Pc.enqueueLock =>
    if s.owner = none then some ⟨Pc.enqueueTest, MutexEffect.acquire, s.stopping, s.queued⟩
    else none
  | Pc.enqueueTest =>
    if s.stopping then some ⟨Pc.enqueueUnlock true, MutexEffect.keep, s.stopping, s.queued⟩
    else some ⟨Pc.enqueuePush, MutexEffect.keep, s.stopping, s.queued⟩
  | Pc.enqueuePush => some ⟨Pc.enqueueUnlock false, MutexEffect.keep, s.stopping, s.queued + 1⟩
  | Pc.enqueueUnlock thrown =>
    some ⟨if thrown then Pc.idle else Pc.enqueueNotify, MutexEffect.release, s.stopping, s.queued⟩
  | Pc.enqueueNotify => some ⟨Pc.idle, MutexEffect.keep, s.stopping, s.queued⟩
  | Pc.workerLock =>
    if s.owner = none then some ⟨Pc.workerPredicate, MutexEffect.acquire, s.stopping, s.queued⟩
    else none
  | Pc.workerPredicate =>
    if s.stopping || !(s.queued == 0) then
      some ⟨Pc.workerExitTest, MutexEffect.keep, s.stopping, s.queued⟩
    else some ⟨Pc.workerRelease, MutexEffect.keep, s.stopping, s.queued⟩
  | Pc.workerRelease => some ⟨Pc.workerAsleep, MutexEffect.release, s.stopping, s.queued⟩
  | Pc.workerAsleep =>
    if s.owner = none then some ⟨Pc.workerPredicate, MutexEffect.acquire, s.stopping, s.queued⟩
    else none
  | Pc.workerExitTest =>
    if s.stopping && (s.queued == 0) then
      some ⟨Pc.workerUnlock true, MutexEffect.keep, s.stopping, s.queued⟩
    else some ⟨Pc.workerTake, MutexEffect.keep, s.stopping, s.queued⟩
  | Pc.workerTake => some ⟨Pc.workerUnlock false, MutexEffect.keep, s.stopping, s.queued - 1⟩
  | Pc.workerUnlock returning =>
    some ⟨if returning then Pc.workerDone else Pc.workerInvoke, MutexEffect.release,
      s.stopping, s.queued⟩
  | Pc.workerInvoke => some ⟨Pc.workerLock, MutexEffect.keep, s.stopping, s.queued⟩
  | Pc.workerDone => none

/-- The owner of the mutex after a step of thread `tid`. -/
def MutexEffect.apply (e : MutexEffect) (owner : Option Nat) (tid : Nat) : Option Nat :=
  match e with
  | MutexEffect.keep => owner
  | MutexEffect.acquire => some tid
  | MutexEffect.release => none

/-- What the scheduler or a caller does next. -/
inductive Move where
  /-- Thread `tid` runs its next statement. -/
  | step (tid : Nat)
  /-- The idle caller thread `tid` calls `shutdown()` (also through the destructor). -/
  | callShutdown (tid : Nat)
  /-- The idle caller thread `tid` calls `enqueue(task)` (through `submit`). -/
  | callEnqueue (tid : Nat)
  deriving DecidableEq, Repr

/-- Thread `tid` enters a member function at program point `entry`, if it is idle. -/
def LockState.call (s : LockState) (tid : Nat) (entry : Pc) : LockState :=
  match s.pcs[tid]? with
  | some Pc.idle => { s with pcs := s.pcs.set tid entry }
  | _ => s

/-- One move. -/
def LockState.move (s : LockState) : Move → LockState
  | Move.step tid =>
    match s.pcs[tid]? with
    | some pc =>
      match micro s pc with
      | some m =>
        { owner := m.mutex.apply s.owner tid, stopping := m.stopping, queued := m.queued,
          pcs := s.pcs.set tid m.next }
      | none => s
    | none => s
  | Move.callShutdown tid => s.call tid Pc.shutdownLock
  | Move.callEnqueue tid => s.call tid Pc.enqueueLock

/-- A sequence of moves. -/
def LockState.run (s : LockState) : List Move → LockState
  | [] => s
  | m :: ms => (s.move m).run ms

/-- The state once the constructor has started `workers` worker threads, with `callers` further
threads that may call `enqueue` and `shutdown`. -/
def LockState.initial (workers callers : Nat) : LockState :=
  { owner := none, stopping := false, queued := 0,
    pcs := List.replicate workers Pc.workerLock ++ List.replicate callers Pc.idle }

/-- A thread is inside a lock scope exactly when it is the owner of the mutex. -/
def LockState.Disciplined (s : LockState) : Prop :=
  ∀ (tid : Nat) (pc : Pc), s.pcs[tid]? = some pc → (holds pc = true ↔ s.owner = some tid)

/-- A worker that has left `cv.wait` has seen the wait predicate true, and a worker about to run
`tasks.front()` and `tasks.pop()` finds a task in the queue. -/
def LockState.HeadAvailable (s : LockState) : Prop :=
  ∀ (tid : Nat),
    (s.pcs[tid]? = some Pc.workerExitTest → s.stopping = true ∨ 0 < s.queued) ∧
    (s.pcs[tid]? = some Pc.workerTake → 0 < s.queued)

end Locking

/-! ## Theorems: thread pool -/

section ThreadPoolTheorems

variable {σ ε α : Type}

theorem spawnWorkers_spec (count : Nat) (ws : List (Worker σ ε α)) :
    spawnWorkers count ws = ws ++ List.replicate count Worker.waiting := by
  induction count generalizing ws with
  | zero => simp [spawnWorkers]
  | succ n ih =>
    simp [spawnWorkers, ih, List.replicate_succ]

theorem new_workers (n : Nat) :
    (ThreadPool.new n : ThreadPool σ ε α).workers
      = List.replicate (if n = 0 then 1 else n) Worker.waiting := by
  simp [ThreadPool.new, spawnWorkers_spec]

theorem getElem?_replicate_waiting {n i : Nat} {s : Worker σ ε α}
    (h : (List.replicate n (Worker.waiting : Worker σ ε α))[i]? = some s) : s = Worker.waiting := by
  rw [List.getElem?_eq_some_iff] at h
  obtain ⟨_, h⟩ := h
  simpa using h.symm

theorem inv_init (n : Nat) (m : σ) : (World.init n m : World σ ε α).Inv := by
  constructor
  · simp [World.init]
  · simp [World.init, ThreadPool.new]
  · simp [World.init, ThreadPool.new]
  · intro i t h
    simp only [World.init, new_workers] at h
    cases getElem?_replicate_waiting h
  · simp [World.init]
  · simp [World.init]
  · simp [World.init]
  · intro i h
    simp only [World.init, new_workers] at h
    cases getElem?_replicate_waiting h
  · intro i h
    simp only [World.init, new_workers] at h
    cases getElem?_replicate_waiting h
  · simp only [World.init, new_workers, List.length_replicate]
    split <;> omega

theorem getElem?_set_of_some {β : Type} {l : List β} {i j : Nat} {x a : β}
    (h : l[i]? = some x) : (l.set i a)[j]? = if i = j then some a else l[j]? := by
  have hi : i < l.length := (List.getElem?_eq_some_iff.mp h).1
  rw [List.getElem?_set, if_pos hi]

theorem getElem?_snoc_of_some {β : Type} {l : List β} {i : Nat} {x b : β}
    (h : l[i]? = some x) : (l ++ [b])[i]? = some x := by
  have hi : i < l.length := (List.getElem?_eq_some_iff.mp h).1
  rw [List.getElem?_append_left hi, h]

theorem getElem?_snoc_none_iff {β : Type} {l : List (Option β)} {i : Nat} {o : β} :
    (l ++ [none])[i]? = some (some o) ↔ l[i]? = some (some o) := by
  rcases Nat.lt_trichotomy i l.length with h | h | h
  · rw [List.getElem?_append_left h]
  · subst h
    simp
  · rw [List.getElem?_eq_none (by simp; omega), List.getElem?_eq_none (by omega)]

theorem fst_unique_of_nodup_snd {l : List (Nat × Nat)} (hn : (l.map Prod.snd).Nodup)
    {a b c : Nat} (ha : (a, c) ∈ l) (hb : (b, c) ∈ l) : a = b := by
  have hinj := List.inj_on_of_nodup_map hn ha hb rfl
  exact congrArg Prod.fst hinj

theorem workerLoopLocked_took {p p' : ThreadPool σ ε α} {t : Task σ ε α}
    (h : p.workerLoopLocked = Acquire.took t p') :
    p.tasks = t :: p'.tasks ∧ p'.workers = p.workers ∧ p'.stopping = p.stopping := by
  unfold ThreadPool.workerLoopLocked at h
  split at h
  · cases h
  · split at h
    · cases h
    · split at h
      · cases h
      · rename_i task rest hq
        injection h with h1 h2
        subst h1 h2
        exact ⟨hq, rfl, rfl⟩

theorem workerLoopLocked_finished {p : ThreadPool σ ε α}
    (h : p.workerLoopLocked = Acquire.finished) : p.stopping = true ∧ p.tasks = [] := by
  unfold ThreadPool.workerLoopLocked at h
  split at h
  · cases h
  · split at h
    · rename_i h2
      simpa using h2
    · split at h <;> cases h

theorem workerLoopLocked_defined (p : ThreadPool σ ε α) :
    p.workerLoopLocked ≠ Acquire.undefined := by
  obtain ⟨ws, ts, st⟩ := p
  cases st <;> cases ts <;> simp [ThreadPool.workerLoopLocked]

theorem submit_stopping {w : World σ ε α} (f : Callable σ ε α) (h : w.pool.stopping = true) :
    w.submit f = Except.error Exception.runtime_error := by
  simp [World.submit, ThreadPool.enqueue, h]

theorem submit_running {w : World σ ε α} (f : Callable σ ε α) (h : w.pool.stopping = false) :
    w.submit f = Except.ok
      ({ w with
          pool := { w.pool with tasks := w.pool.tasks ++ [{ handle := w.shared.length, callable := f }] },
          shared := w.shared ++ [none],
          accepted := w.accepted ++ [w.shared.length] },
        { handle := w.shared.length, valid := true }) := by
  simp [World.submit, ThreadPool.enqueue, h]

theorem World.Inv.dequeued_lt {w : World σ ε α} (hw : w.Inv) {i h : Nat} (hm : (i, h) ∈ w.dequeued) :
    h < w.shared.length := by
  have : h ∈ w.accepted := by
    rw [← hw.fifo]
    exact List.mem_append_left _ (List.mem_map.mpr ⟨(i, h), hm, rfl⟩)
  rw [hw.accepted_eq] at this
  exact List.mem_range.mp this

theorem World.Inv.nodup_handles {w : World σ ε α} (hw : w.Inv) :
    (w.dequeued.map Prod.snd ++ w.pool.tasks.map Task.handle).Nodup := by
  rw [hw.fifo, hw.accepted_eq]
  exact List.nodup_range _

theorem World.Inv.queued_not_dequeued {w : World σ ε α} (hw : w.Inv) {i h : Nat} {t : Task σ ε α}
    (hm : (i, h) ∈ w.dequeued) (ht : t ∈ w.pool.tasks) : t.handle ≠ h := by
  have hd := (List.nodup_append.mp hw.nodup_handles).2.2
  intro he
  exact hd (List.mem_map.mpr ⟨(i, h), hm, rfl⟩) (he ▸ List.mem_map.mpr ⟨t, ht, rfl⟩)

theorem inv_submit {w : World σ ε α} (hw : w.Inv) (f : Callable σ ε α) :
    (w.step (Action.submit f)).Inv := by
  cases hs : w.pool.stopping with
  | true => simpa [World.step, submit_stopping f hs] using hw
  | false =>
    simp only [World.step, submit_running f hs]
    constructor
    · simp [hw.accepted_eq, List.range_succ]
    · simp [← hw.fifo]
    · intro t ht
      simp only [List.mem_append, List.mem_singleton] at ht
      rcases ht with ht | rfl
      · exact getElem?_snoc_of_some (hw.queued_unset t ht)
      · simp
    · intro i t hi
      obtain ⟨h1, h2⟩ := hw.running_dequeued i t hi
      exact ⟨h1, getElem?_snoc_of_some h2⟩
    · intro i h hm hu
      have hlt := hw.dequeued_lt hm
      simp only [List.getElem?_append_left hlt] at hu
      exact hw.dequeued_status i h hm hu
    · exact hw.executed_nodup
    · intro h
      simp only [getElem?_snoc_none_iff]
      exact hw.executed_iff h
    · intro i hi
      have := (hw.exited_drained i hi).1
      simp [hs] at this
    · exact hw.not_aborted
    · exact hw.has_worker

theorem inv_shutdown {w : World σ ε α} (hw : w.Inv) : (w.step Action.shutdown).Inv := by
  cases hs : w.pool.stopping with
  | true => simpa [World.step, ThreadPool.shutdown, hs] using hw
  | false =>
    simp only [World.step, ThreadPool.shutdown, hs]
    exact
      { accepted_eq := hw.accepted_eq
        fifo := hw.fifo
        queued_unset := hw.queued_unset
        running_dequeued := hw.running_dequeued
        dequeued_status := hw.dequeued_status
        executed_nodup := hw.executed_nodup
        executed_iff := hw.executed_iff
        exited_drained := fun i hi => ⟨rfl, (hw.exited_drained i hi).2⟩
        not_aborted := hw.not_aborted
        has_worker := hw.has_worker }

theorem invoke_unset {t : Task σ ε α} {shared : List (Option (Outcome ε α))} (m : σ)
    (h : shared[t.handle]? = some none) :
    t.invoke shared m = some (shared.set t.handle (some (t.callable m).2), (t.callable m).1) := by
  simp [Task.invoke, h]

theorem workerStep_waiting_took {w : World σ ε α} {i : Nat} {t : Task σ ε α} {rest : List (Task σ ε α)}
    (hi : w.pool.workers[i]? = some Worker.waiting) (hq : w.pool.tasks = t :: rest) :
    w.workerStep i =
      { w with
        pool := { w.pool with tasks := rest, workers := w.pool.workers.set i (Worker.running t) },
        dequeued := w.dequeued ++ [(i, t.handle)] } := by
  obtain ⟨⟨ws, ts, st⟩, sh, m, a, d, e⟩ := w
  simp only at hi hq
  subst hq
  cases st <;> simp [World.workerStep, hi, ThreadPool.workerLoopLocked]

theorem workerStep_waiting_empty_stopping {w : World σ ε α} {i : Nat}
    (hi : w.pool.workers[i]? = some Worker.waiting) (hq : w.pool.tasks = [])
    (hs : w.pool.stopping = true) :
    w.workerStep i = w.setWorker i Worker.exited := by
  simp [World.workerStep, hi, ThreadPool.workerLoopLocked, hq, hs]

theorem workerStep_waiting_empty_running {w : World σ ε α} {i : Nat}
    (hi : w.pool.workers[i]? = some Worker.waiting) (hq : w.pool.tasks = [])
    (hs : w.pool.stopping = false) :
    w.workerStep i = w := by
  simp [World.workerStep, hi, ThreadPool.workerLoopLocked, hq, hs]

theorem workerStep_running {w : World σ ε α} {i : Nat} {t : Task σ ε α}
    (hi : w.pool.workers[i]? = some (Worker.running t)) (hu : w.shared[t.handle]? = some none) :
    w.workerStep i =
      { w with
        pool := { w.pool with workers := w.pool.workers.set i Worker.waiting },
        shared := w.shared.set t.handle (some (t.callable w.memory).2),
        memory := (t.callable w.memory).1,
        executed := w.executed ++ [t.handle] } := by
  simp [World.workerStep, hi, invoke_unset _ hu]

theorem workerStep_idle {w : World σ ε α} {i : Nat}
    (hi : w.pool.workers[i]? = none ∨ w.pool.workers[i]? = some Worker.exited
      ∨ w.pool.workers[i]? = some Worker.aborted) :
    w.workerStep i = w := by
  rcases hi with hi | hi | hi <;> simp [World.workerStep, hi]

theorem inv_took {w : World σ ε α} (hw : w.Inv) {i : Nat} {t : Task σ ε α}
    {rest : List (Task σ ε α)}
    (hi : w.pool.workers[i]? = some Worker.waiting) (hq : w.pool.tasks = t :: rest) :
    (w.workerStep i).Inv := by
  rw [workerStep_waiting_took hi hq]
  have hfifo := hw.fifo
  rw [hq] at hfifo
  constructor
  · exact hw.accepted_eq
  · simp [← hfifo]
  · intro t' ht'
    exact hw.queued_unset t' (by rw [hq]; exact List.mem_cons_of_mem _ ht')
  · intro j t' hj
    simp only [getElem?_set_of_some hi] at hj
    split at hj
    · rename_i hij
      subst hij
      injection hj with hj
      injection hj with hj
      subst hj
      exact ⟨by simp, hw.queued_unset t (by rw [hq]; exact List.mem_cons_self _ _)⟩
    · obtain ⟨h1, h2⟩ := hw.running_dequeued j t' hj
      exact ⟨List.mem_append_left _ h1, h2⟩
  · intro j h hm hu
    simp only [List.mem_append, List.mem_singleton, Prod.mk.injEq] at hm
    simp only [getElem?_set_of_some hi]
    rcases hm with hm | ⟨rfl, rfl⟩
    · obtain ⟨t', h1, h2⟩ := hw.dequeued_status j h hm hu
      have hne : i ≠ j := by
        rintro rfl
        rw [hi] at h1
        cases h1
      exact ⟨t', by rw [if_neg hne]; exact h1, h2⟩
    · exact ⟨t, by simp, rfl⟩
  · exact hw.executed_nodup
  · exact hw.executed_iff
  · intro j hj
    simp only [getElem?_set_of_some hi] at hj
    split at hj
    · cases hj
    · have := (hw.exited_drained j hj).2
      rw [hq] at this
      cases this
  · intro j hj
    simp only [getElem?_set_of_some hi] at hj
    split at hj
    · cases hj
    · exact hw.not_aborted j hj
  · simpa [World.setWorker] using hw.has_worker

theorem inv_exit {w : World σ ε α} (hw : w.Inv) {i : Nat}
    (hi : w.pool.workers[i]? = some Worker.waiting) (hq : w.pool.tasks = [])
    (hs : w.pool.stopping = true) :
    (w.workerStep i).Inv := by
  rw [workerStep_waiting_empty_stopping hi hq hs]
  constructor
  · exact hw.accepted_eq
  · exact hw.fifo
  · exact hw.queued_unset
  · intro j t' hj
    simp only [World.setWorker, getElem?_set_of_some hi] at hj
    split at hj
    · cases hj
    · exact hw.running_dequeued j t' hj
  · intro j h hm hu
    obtain ⟨t', h1, h2⟩ := hw.dequeued_status j h hm hu
    have hne : i ≠ j := by
      rintro rfl
      rw [hi] at h1
      cases h1
    exact ⟨t', by simp only [World.setWorker, getElem?_set_of_some hi, if_neg hne]; exact h1, h2⟩
  · exact hw.executed_nodup
  · exact hw.executed_iff
  · intro j _
    exact ⟨hs, hq⟩
  · intro j hj
    simp only [World.setWorker, getElem?_set_of_some hi] at hj
    split at hj
    · cases hj
    · exact hw.not_aborted j hj
  · simpa [World.setWorker] using hw.has_worker

theorem inv_ran {w : World σ ε α} (hw : w.Inv) {i : Nat} {t : Task σ ε α}
    (hi : w.pool.workers[i]? = some (Worker.running t)) :
    (w.workerStep i).Inv := by
  obtain ⟨hdeq, hu⟩ := hw.running_dequeued i t hi
  rw [workerStep_running hi hu]
  have hnd : (w.dequeued.map Prod.snd).Nodup := (List.nodup_append.mp hw.nodup_handles).1
  constructor
  · simp [hw.accepted_eq]
  · exact hw.fifo
  · intro t' ht'
    have hne : t.handle ≠ t'.handle := fun he => hw.queued_not_dequeued hdeq ht' he.symm
    simp only [getElem?_set_of_some hu, if_neg hne]
    exact hw.queued_unset t' ht'
  · intro j t' hj
    simp only [getElem?_set_of_some hi] at hj
    split at hj
    · cases hj
    · rename_i hij
      obtain ⟨h1, h2⟩ := hw.running_dequeued j t' hj
      have hne : t.handle ≠ t'.handle := by
        intro he
        rw [← he] at h1
        exact hij (fst_unique_of_nodup_snd hnd hdeq h1)
      refine ⟨h1, ?_⟩
      simp only [getElem?_set_of_some hu, if_neg hne]
      exact h2
  · intro j h hm hu'
    simp only [getElem?_set_of_some hu] at hu'
    split at hu'
    · cases hu'
    · rename_i hne
      obtain ⟨t', h1, h2⟩ := hw.dequeued_status j h hm hu'
      have hij : i ≠ j := by
        rintro rfl
        rw [hi] at h1
        injection h1 with h1
        injection h1 with h1
        subst h1
        exact hne h2
      exact ⟨t', by simp only [getElem?_set_of_some hi, if_neg hij]; exact h1, h2⟩
  · have hnot : t.handle ∉ w.executed := by
      intro hm
      obtain ⟨o, ho⟩ := (hw.executed_iff _).mp hm
      rw [hu] at ho
      cases ho
    exact List.nodup_append.mpr ⟨hw.executed_nodup, List.nodup_singleton _, by
      intro a ha hb
      rw [List.mem_singleton] at hb
      exact hnot (hb ▸ ha)⟩
  · intro h
    simp only [List.mem_append, List.mem_singleton, getElem?_set_of_some hu]
    by_cases he : t.handle = h
    · simp [he]
    · rw [if_neg he, ← hw.executed_iff h]
      constructor
      · rintro (h1 | h1)
        · exact h1
        · exact absurd h1.symm he
      · exact Or.inl
  · intro j hj
    simp only [getElem?_set_of_some hi] at hj
    split at hj
    · cases hj
    · exact hw.exited_drained j hj
  · intro j hj
    simp only [getElem?_set_of_some hi] at hj
    split at hj
    · cases hj
    · exact hw.not_aborted j hj
  · simpa [World.setWorker] using hw.has_worker

theorem inv_workerStep {w : World σ ε α} (hw : w.Inv) (i : Nat) : (w.workerStep i).Inv := by
  cases hi : w.pool.workers[i]? with
  | none => rw [workerStep_idle (Or.inl hi)]; exact hw
  | some s =>
    cases s with
    | waiting =>
      cases hq : w.pool.tasks with
      | nil =>
        cases hs : w.pool.stopping with
        | true => exact inv_exit hw hi hq hs
        | false => rw [workerStep_waiting_empty_running hi hq hs]; exact hw
      | cons t rest => exact inv_took hw hi hq
    | running t => exact inv_ran hw hi
    | exited => rw [workerStep_idle (Or.inr (Or.inl hi))]; exact hw
    | aborted => rw [workerStep_idle (Or.inr (Or.inr hi))]; exact hw

theorem inv_step {w : World σ ε α} (hw : w.Inv) (a : Action σ ε α) : (w.step a).Inv := by
  cases a with
  | submit f => exact inv_submit hw f
  | shutdown => exact inv_shutdown hw
  | worker i => exact inv_workerStep hw i

theorem inv_run {w : World σ ε α} (hw : w.Inv) (as : List (Action σ ε α)) : (w.run as).Inv := by
  induction as generalizing w with
  | nil => exact hw
  | cons a as ih => exact ih (inv_step hw a)

theorem run_append (w : World σ ε α) (as bs : List (Action σ ε α)) :
    w.run (as ++ bs) = (w.run as).run bs := by
  induction as generalizing w with
  | nil => rfl
  | cons a as ih => exact ih _

theorem shared_stable_workerStep {w : World σ ε α} (hw : w.Inv) (i h : Nat) (o : Outcome ε α)
    (ho : w.shared[h]? = some (some o)) : (w.workerStep i).shared[h]? = some (some o) := by
  cases hi : w.pool.workers[i]? with
  | none => rw [workerStep_idle (Or.inl hi)]; exact ho
  | some s =>
    cases s with
    | waiting =>
      cases hq : w.pool.tasks with
      | nil =>
        cases hs : w.pool.stopping with
        | true => rw [workerStep_waiting_empty_stopping hi hq hs]; exact ho
        | false => rw [workerStep_waiting_empty_running hi hq hs]; exact ho
      | cons t rest => rw [workerStep_waiting_took hi hq]; exact ho
    | running t =>
      obtain ⟨_, hu⟩ := hw.running_dequeued i t hi
      rw [workerStep_running hi hu]
      have hne : t.handle ≠ h := by
        rintro rfl
        rw [hu] at ho
        cases ho
      simp only [getElem?_set_of_some hu, if_neg hne]
      exact ho
    | exited => rw [workerStep_idle (Or.inr (Or.inl hi))]; exact ho
    | aborted => rw [workerStep_idle (Or.inr (Or.inr hi))]; exact ho

theorem shared_stable_step {w : World σ ε α} (hw : w.Inv) (a : Action σ ε α) (h : Nat)
    (o : Outcome ε α) (ho : w.shared[h]? = some (some o)) :
    (w.step a).shared[h]? = some (some o) := by
  cases a with
  | submit f =>
    cases hs : w.pool.stopping with
    | true => simpa [World.step, submit_stopping f hs] using ho
    | false =>
      simp only [World.step, submit_running f hs]
      exact getElem?_snoc_of_some ho
  | shutdown => exact ho
  | worker i => exact shared_stable_workerStep hw i h o ho

theorem shared_stable_run {w : World σ ε α} (hw : w.Inv) (as : List (Action σ ε α)) (h : Nat)
    (o : Outcome ε α) (ho : w.shared[h]? = some (some o)) :
    (w.run as).shared[h]? = some (some o) := by
  induction as generalizing w with
  | nil => exact ho
  | cons a as ih => exact ih (inv_step hw a) (shared_stable_step hw a h o ho)

theorem tracked_workerStep {w : World σ ε α} (hw : w.Inv) (i : Nat) {h : Nat} {f : Callable σ ε α}
    (ht : w.Tracked h f) : (w.workerStep i).Tracked h f := by
  cases hi : w.pool.workers[i]? with
  | none => rw [workerStep_idle (Or.inl hi)]; exact ht
  | some s =>
    cases s with
    | waiting =>
      cases hq : w.pool.tasks with
      | nil =>
        cases hs : w.pool.stopping with
        | true =>
          rw [workerStep_waiting_empty_stopping hi hq hs]
          rcases ht with ⟨t, hm, _⟩ | ⟨j, t, hj, h1, h2⟩ | hd
          · rw [hq] at hm
            cases hm
          · refine Or.inr (Or.inl ⟨j, t, ?_, h1, h2⟩)
            have hne : i ≠ j := by
              rintro rfl
              rw [hi] at hj
              cases hj
            simp only [World.setWorker, getElem?_set_of_some hi, if_neg hne]
            exact hj
          · exact Or.inr (Or.inr hd)
        | false => rw [workerStep_waiting_empty_running hi hq hs]; exact ht
      | cons t' rest =>
        rw [workerStep_waiting_took hi hq]
        rcases ht with ⟨t, hm, h1, h2⟩ | ⟨j, t, hj, h1, h2⟩ | hd
        · rw [hq] at hm
          rcases List.mem_cons.mp hm with rfl | hm
          · exact Or.inr (Or.inl ⟨i, t, by simp [getElem?_set_of_some hi], h1, h2⟩)
          · exact Or.inl ⟨t, hm, h1, h2⟩
        · refine Or.inr (Or.inl ⟨j, t, ?_, h1, h2⟩)
          have hne : i ≠ j := by
            rintro rfl
            rw [hi] at hj
            cases hj
          simp only [getElem?_set_of_some hi, if_neg hne]
          exact hj
        · exact Or.inr (Or.inr hd)
    | running t' =>
      obtain ⟨_, hu⟩ := hw.running_dequeued i t' hi
      rcases ht with ⟨t, hm, h1, h2⟩ | ⟨j, t, hj, h1, h2⟩ | ⟨m, hd⟩
      · rw [workerStep_running hi hu]
        exact Or.inl ⟨t, hm, h1, h2⟩
      · by_cases hij : i = j
        · subst hij
          rw [hi] at hj
          injection hj with hj
          injection hj with hj
          subst hj
          rw [workerStep_running hi hu]
          refine Or.inr (Or.inr ⟨w.memory, ?_⟩)
          subst h1 h2
          simp [getElem?_set_of_some hu]
        · rw [workerStep_running hi hu]
          refine Or.inr (Or.inl ⟨j, t, ?_, h1, h2⟩)
          simp only [getElem?_set_of_some hi, if_neg hij]
          exact hj
      · exact Or.inr (Or.inr ⟨m, shared_stable_workerStep hw i h _ hd⟩)
    | exited => rw [workerStep_idle (Or.inr (Or.inl hi))]; exact ht
    | aborted => rw [workerStep_idle (Or.inr (Or.inr hi))]; exact ht

theorem tracked_step {w : World σ ε α} (hw : w.Inv) (a : Action σ ε α) {h : Nat}
    {f : Callable σ ε α} (ht : w.Tracked h f) : (w.step a).Tracked h f := by
  cases a with
  | submit g =>
    cases hs : w.pool.stopping with
    | true => simpa [World.step, submit_stopping g hs] using ht
    | false =>
      simp only [World.step, submit_running g hs]
      rcases ht with ⟨t, hm, h1, h2⟩ | ⟨j, t, hj, h1, h2⟩ | ⟨m, hd⟩
      · exact Or.inl ⟨t, List.mem_append_left _ hm, h1, h2⟩
      · exact Or.inr (Or.inl ⟨j, t, hj, h1, h2⟩)
      · exact Or.inr (Or.inr ⟨m, getElem?_snoc_of_some hd⟩)
  | shutdown =>
    have e1 : (w.step Action.shutdown).pool.tasks = w.pool.tasks := by
      simp only [World.step, ThreadPool.shutdown]
      split <;> rfl
    have e2 : (w.step Action.shutdown).pool.workers = w.pool.workers := by
      simp only [World.step, ThreadPool.shutdown]
      split <;> rfl
    rcases ht with ⟨t, hm, h1, h2⟩ | ⟨j, t, hj, h1, h2⟩ | ⟨m, hd⟩
    · exact Or.inl ⟨t, e1 ▸ hm, h1, h2⟩
    · exact Or.inr (Or.inl ⟨j, t, e2 ▸ hj, h1, h2⟩)
    · exact Or.inr (Or.inr ⟨m, hd⟩)
  | worker i => exact tracked_workerStep hw i ht

theorem tracked_run {w : World σ ε α} (hw : w.Inv) (as : List (Action σ ε α)) {h : Nat}
    {f : Callable σ ε α} (ht : w.Tracked h f) : (w.run as).Tracked h f := by
  induction as generalizing w with
  | nil => exact ht
  | cons a as ih => exact ih (inv_step hw a) (tracked_step hw a ht)

theorem tracked_submit {w : World σ ε α} (f : Callable σ ε α) (hs : w.pool.stopping = false) :
    ∃ w1, w.submit f = Except.ok (w1, { handle := w.shared.length, valid := true }) ∧
      w1 = w.step (Action.submit f) ∧ w1.Tracked w.shared.length f := by
  refine ⟨_, submit_running f hs, ?_, ?_⟩
  · simp [World.step, submit_running f hs]
  · exact Or.inl ⟨_, List.mem_append_right _ (List.mem_singleton_self _), rfl, rfl⟩

theorem took_facts {w : World σ ε α} {i : Nat} {t : Task σ ε α} {rest : List (Task σ ε α)}
    (hi : w.pool.workers[i]? = some Worker.waiting) (hq : w.pool.tasks = t :: rest) :
    (w.workerStep i).pool.tasks = rest ∧
      (w.workerStep i).pool.workers[i]? = some (Worker.running t) ∧
      (w.workerStep i).shared = w.shared ∧ (w.workerStep i).memory = w.memory := by
  rw [workerStep_waiting_took hi hq]
  exact ⟨rfl, by simp [getElem?_set_of_some hi], rfl, rfl⟩

theorem ran_facts {w : World σ ε α} (hw : w.Inv) {i : Nat} {t : Task σ ε α}
    (hi : w.pool.workers[i]? = some (Worker.running t)) :
    (w.workerStep i).pool.tasks = w.pool.tasks ∧
      (w.workerStep i).pool.workers[i]? = some Worker.waiting ∧
      (w.workerStep i).shared = w.shared.set t.handle (some (t.callable w.memory).2) ∧
      (w.workerStep i).shared[t.handle]? = some (some (t.callable w.memory).2) ∧
      (w.workerStep i).memory = (t.callable w.memory).1 := by
  obtain ⟨_, hu⟩ := hw.running_dequeued i t hi
  rw [workerStep_running hi hu]
  exact ⟨rfl, by simp [getElem?_set_of_some hi], rfl, by simp [getElem?_set_of_some hu], rfl⟩

theorem drain_waiting (pre : List (Task σ ε α)) :
    ∀ (w : World σ ε α), w.Inv → ∀ (t : Task σ ε α) (post : List (Task σ ε α)),
      w.pool.workers[0]? = some Worker.waiting → w.pool.tasks = pre ++ t :: post →
      ∃ (cs : List Nat) (m : σ),
        (w.run (cs.map Action.worker)).shared[t.handle]? = some (some (t.callable m).2) := by
  induction pre with
  | nil =>
    intro w hw t post h0 hq
    obtain ⟨_, h1, _, _⟩ := took_facts h0 (by simpa using hq)
    have hw1 := inv_workerStep hw 0
    obtain ⟨_, _, _, h2, _⟩ := ran_facts hw1 h1
    exact ⟨[0, 0], _, h2⟩
  | cons q pre ih =>
    intro w hw t post h0 hq
    obtain ⟨hq1, h1, _, _⟩ := took_facts h0 (by simpa using hq)
    have hw1 := inv_workerStep hw 0
    obtain ⟨hq2, h2, _, _, _⟩ := ran_facts hw1 h1
    have hw2 := inv_workerStep hw1 0
    obtain ⟨cs, m, hcs⟩ := ih _ hw2 t post h2 (hq2.trans hq1)
    exact ⟨0 :: 0 :: cs, m, hcs⟩

theorem drain_queue {w : World σ ε α} (hw : w.Inv) {t : Task σ ε α} (ht : t ∈ w.pool.tasks) :
    ∃ (cs : List Nat) (m : σ),
      (w.run (cs.map Action.worker)).shared[t.handle]? = some (some (t.callable m).2) := by
  obtain ⟨pre, post, hq⟩ := List.append_of_mem ht
  have hlen := hw.has_worker
  cases h0 : w.pool.workers[0]? with
  | none =>
    rw [List.getElem?_eq_none_iff] at h0
    omega
  | some s =>
    cases s with
    | waiting => exact drain_waiting pre w hw t post h0 hq
    | running t0 =>
      obtain ⟨hq1, h1, _, _, _⟩ := ran_facts hw h0
      obtain ⟨cs, m, hcs⟩ := drain_waiting pre _ (inv_workerStep hw 0) t post h1 (hq1.trans hq)
      exact ⟨0 :: cs, m, hcs⟩
    | exited =>
      have := (hw.exited_drained 0 h0).2
      rw [hq] at this
      simp at this
    | aborted => exact absurd h0 (hw.not_aborted 0)

theorem tracked_completes {w : World σ ε α} (hw : w.Inv) {h : Nat} {f : Callable σ ε α}
    (ht : w.Tracked h f) :
    ∃ (cs : List Nat) (m : σ),
      (w.run (cs.map Action.worker)).shared[h]? = some (some (f m).2) := by
  rcases ht with ⟨t, hm, rfl, rfl⟩ | ⟨i, t, hi, rfl, rfl⟩ | ⟨m, hd⟩
  · exact drain_queue hw hm
  · obtain ⟨_, _, _, h2, _⟩ := ran_facts hw hi
    exact ⟨[i], _, h2⟩
  · exact ⟨[], m, hd⟩

theorem tracked_pending_or_done {w : World σ ε α} (hw : w.Inv) {h : Nat} {f : Callable σ ε α}
    (ht : w.Tracked h f) :
    w.shared[h]? = some none ∨ ∃ m : σ, w.shared[h]? = some (some (f m).2) := by
  rcases ht with ⟨t, hm, rfl, rfl⟩ | ⟨i, t, hi, rfl, rfl⟩ | hd
  · exact Or.inl (hw.queued_unset t hm)
  · exact Or.inl (hw.running_dequeued i t hi).2
  · exact Or.inr hd

theorem get_valid_unset {w : World σ ε α} {h : Nat} (hu : w.shared[h]? = some none) :
    (Future.get { handle := h, valid := true } w).1 = GetResult.blocked := by
  simp [Future.get, hu]

theorem get_valid_value {w : World σ ε α} {h : Nat} {v : α}
    (hu : w.shared[h]? = some (some (Outcome.value v))) :
    (Future.get { handle := h, valid := true } w) =
      (GetResult.returned v, { handle := h, valid := false }) := by
  simp [Future.get, hu]

theorem get_valid_failure {w : World σ ε α} {h : Nat} {e : ε}
    (hu : w.shared[h]? = some (some (Outcome.failure e))) :
    (Future.get { handle := h, valid := true } w) =
      (GetResult.raised e, { handle := h, valid := false }) := by
  simp [Future.get, hu]

theorem step_submit_stopping {w : World σ ε α} (f : Callable σ ε α)
    (h : w.pool.stopping = true) : w.step (Action.submit f) = w := by
  simp [World.step, submit_stopping f h]

theorem run_stopping {w : World σ ε α} (as : List (Action σ ε α)) (h : w.pool.stopping = true) :
    (w.run as).pool.stopping = true := by
  induction as generalizing w with
  | nil => exact h
  | cons a as ih =>
    apply ih
    cases a with
    | submit f => simpa [World.step, submit_stopping f h] using h
    | shutdown => simp [World.step, ThreadPool.shutdown, h]
    | worker i =>
      show (w.workerStep i).pool.stopping = true
      cases hi : w.pool.workers[i]? with
      | none => rw [workerStep_idle (Or.inl hi)]; exact h
      | some s =>
        cases s with
        | waiting =>
          cases hq : w.pool.tasks with
          | nil => rw [workerStep_waiting_empty_stopping hi hq h]; exact h
          | cons t rest => rw [workerStep_waiting_took hi hq]; exact h
        | running t =>
          simp only [World.workerStep, hi]
          split
          · exact h
          · exact h
        | exited => rw [workerStep_idle (Or.inr (Or.inl hi))]; exact h
        | aborted => rw [workerStep_idle (Or.inr (Or.inr hi))]; exact h

theorem step_shutdown_stopping (w : World σ ε α) : (w.step Action.shutdown).pool.stopping = true := by
  simp only [World.step, ThreadPool.shutdown]
  split
  · assumption
  · rfl

/-- C2: in every state reached after the locked block of `shutdown` has run, whatever transitions
follow, the stopping flag is still set, `submit` and `enqueue` fail with `std::runtime_error`, and
the failed `submit` leaves the whole state, the task queue included, unchanged. -/
theorem submit_after_shutdown_fails (w : World σ ε α) (as : List (Action σ ε α))
    (f : Callable σ ε α) (task : Task σ ε α) :
    ((w.step Action.shutdown).run as).pool.stopping = true ∧
    ((w.step Action.shutdown).run as).submit f = Except.error Exception.runtime_error ∧
    ((w.step Action.shutdown).run as).pool.enqueue task = Except.error Exception.runtime_error ∧
    ((w.step Action.shutdown).run as).step (Action.submit f) = (w.step Action.shutdown).run as := by
  have h := run_stopping as (step_shutdown_stopping w)
  refine ⟨h, submit_stopping f h, ?_, ?_⟩
  · simp [ThreadPool.enqueue, h]
  · exact step_submit_stopping f h

theorem joined_iff (p : ThreadPool σ ε α) :
    p.joined = true ↔ ∀ s ∈ p.workers, s = Worker.exited := by
  unfold ThreadPool.joined
  rw [List.all_eq_true]
  constructor
  · intro h s hs
    have := h s hs
    cases s <;> simp_all
  · intro h s hs
    rw [h s hs]

theorem exit_only_when_drained {w : World σ ε α} (hw : w.Inv) (a : Action σ ε α) (i : Nat)
    (hb : w.pool.workers[i]? ≠ some Worker.exited)
    (ha : (w.step a).pool.workers[i]? = some Worker.exited) :
    w.pool.stopping = true ∧ w.pool.tasks = [] := by
  cases a with
  | submit f =>
    exfalso
    cases hs : w.pool.stopping with
    | true => rw [step_submit_stopping f hs] at ha; exact hb ha
    | false => simp only [World.step, submit_running f hs] at ha; exact hb ha
  | shutdown =>
    exfalso
    apply hb
    have e2 : (w.step Action.shutdown).pool.workers = w.pool.workers := by
      simp only [World.step, ThreadPool.shutdown]
      split <;> rfl
    rw [← e2]
    exact ha
  | worker j =>
    change (w.workerStep j).pool.workers[i]? = some Worker.exited at ha
    cases hj : w.pool.workers[j]? with
    | none => rw [workerStep_idle (Or.inl hj)] at ha; exact absurd ha hb
    | some s =>
      cases s with
      | waiting =>
        cases hq : w.pool.tasks with
        | nil =>
          cases hs : w.pool.stopping with
          | true => exact ⟨rfl, rfl⟩
          | false => rw [workerStep_waiting_empty_running hj hq hs] at ha; exact absurd ha hb
        | cons t rest =>
          exfalso
          rw [workerStep_waiting_took hj hq] at ha
          simp only [getElem?_set_of_some hj] at ha
          split at ha
          · cases ha
          · exact hb ha
      | running t =>
        exfalso
        obtain ⟨_, hu⟩ := hw.running_dequeued j t hj
        rw [workerStep_running hj hu] at ha
        simp only [getElem?_set_of_some hj] at ha
        split at ha
        · cases ha
        · exact hb ha
      | exited => rw [workerStep_idle (Or.inr (Or.inl hj))] at ha; exact absurd ha hb
      | aborted => rw [workerStep_idle (Or.inr (Or.inr hj))] at ha; exact absurd ha hb

theorem joined_drained {w : World σ ε α} (hw : w.Inv) (hj : w.pool.joined = true) :
    w.pool.stopping = true ∧ w.pool.tasks = [] ∧ w.dequeued.map Prod.snd = w.accepted ∧
      ∀ h ∈ w.accepted, h ∈ w.executed ∧ ∃ o, w.shared[h]? = some (some o) := by
  rw [joined_iff] at hj
  have hlen := hw.has_worker
  have h0 : w.pool.workers[0]? = some Worker.exited := by
    rw [List.getElem?_eq_getElem hlen, hj _ (List.getElem_mem hlen)]
  obtain ⟨hs, hq⟩ := hw.exited_drained 0 h0
  have hfifo := hw.fifo
  rw [hq] at hfifo
  simp only [List.map_nil, List.append_nil] at hfifo
  refine ⟨hs, hq, hfifo, ?_⟩
  intro h hh
  have hdone : ∃ o, w.shared[h]? = some (some o) := by
    rw [← hfifo] at hh
    obtain ⟨⟨i, h'⟩, hm, rfl⟩ := List.mem_map.mp hh
    have hlt := hw.dequeued_lt hm
    cases hx : w.shared[h'] with
    | some o => exact ⟨o, by rw [List.getElem?_eq_getElem hlt, hx]⟩
    | none =>
      exfalso
      obtain ⟨t, ht, _⟩ := hw.dequeued_status i h' hm (by rw [List.getElem?_eq_getElem hlt, hx])
      have := hj _ (List.getElem?_mem ht)
      cases this
  exact ⟨(hw.executed_iff h).mpr hdone, hdone⟩

/-- C3: in every reachable state, a transition that makes a worker leave its loop starts from a
state where the stopping flag is set and the queue is empty; and when all workers have exited (the
joins of `shutdown` return) the flag is set, the queue is empty, every accepted task was taken from
the queue, in acceptance order, and every accepted task has finished and stored its outcome. -/
theorem shutdown_drains_queue (N : Nat) (m0 : σ) (as : List (Action σ ε α)) :
    (∀ (a : Action σ ε α) (i : Nat),
      ((World.init N m0).run as).pool.workers[i]? ≠ some Worker.exited →
      (((World.init N m0).run as).step a).pool.workers[i]? = some Worker.exited →
      ((World.init N m0).run as).pool.stopping = true ∧
        ((World.init N m0).run as).pool.tasks = []) ∧
    (((World.init N m0).run as).pool.joined = true →
      ((World.init N m0).run as).pool.stopping = true ∧
      ((World.init N m0).run as).pool.tasks = [] ∧
      ((World.init N m0).run as).dequeued.map Prod.snd = ((World.init N m0).run as).accepted ∧
      ∀ h ∈ ((World.init N m0).run as).accepted,
        h ∈ ((World.init N m0).run as).executed ∧
        ∃ o, ((World.init N m0).run as).shared[h]? = some (some o)) := by
  have hw := inv_run (inv_init N m0 : (World.init N m0 : World σ ε α).Inv) as
  exact ⟨fun a i => exit_only_when_drained hw a i, joined_drained hw⟩

/-- Witness of C3 on test ShutdownProcessesQueuedTasks: one task is submitted, `shutdown` is
called, and the single worker runs the task before it exits; the counter ends at 1. -/
theorem shutdown_drains_queue_witness :
    (((World.init 1 (0 : Int)).run beforeExit).pool.workers[0]? ≠ some Worker.exited ∧
      (((World.init 1 (0 : Int)).run beforeExit).step (Action.worker 0)).pool.workers[0]?
        = some Worker.exited ∧
      ((World.init 1 (0 : Int)).run beforeExit).pool.stopping = true ∧
      ((World.init 1 (0 : Int)).run beforeExit).pool.tasks = []) ∧
    ((World.init 1 (0 : Int)).run shutdownProcessesQueuedTasks).pool.joined = true ∧
    (((World.init 1 (0 : Int)).run shutdownProcessesQueuedTasks).pool.stopping = true ∧
      ((World.init 1 (0 : Int)).run shutdownProcessesQueuedTasks).pool.tasks = [] ∧
      ((World.init 1 (0 : Int)).run shutdownProcessesQueuedTasks).dequeued.map Prod.snd
        = ((World.init 1 (0 : Int)).run shutdownProcessesQueuedTasks).accepted ∧
      ∀ h ∈ ((World.init 1 (0 : Int)).run shutdownProcessesQueuedTasks).accepted,
        h ∈ ((World.init 1 (0 : Int)).run shutdownProcessesQueuedTasks).executed ∧
        ∃ o, ((World.init 1 (0 : Int)).run shutdownProcessesQueuedTasks).shared[h]?
          = some (some o)) ∧
    ((World.init 1 (0 : Int)).run shutdownProcessesQueuedTasks).accepted = [0] ∧
    ((World.init 1 (0 : Int)).run shutdownProcessesQueuedTasks).memory = 1 :=
  ⟨⟨(fun h => by cases h), rfl,
      (shutdown_drains_queue 1 (0 : Int) beforeExit).1 (Action.worker 0) 0
        (fun h => by cases h) rfl⟩,
    by decide,
    (shutdown_drains_queue 1 (0 : Int) shutdownProcessesQueuedTasks).2 (by decide),
    by decide, by decide⟩

theorem counting_workerStep {w : World σ ε α} (hw : w.Inv) {counter : σ → Int} {c0 : Int}
    (hc : w.Counting counter c0) (i : Nat) : (w.workerStep i).Counting counter c0 := by
  obtain ⟨hq', hr, hm⟩ := hc
  cases hi : w.pool.workers[i]? with
  | none => rw [workerStep_idle (Or.inl hi)]; exact ⟨hq', hr, hm⟩
  | some s =>
    cases s with
    | waiting =>
      cases hq : w.pool.tasks with
      | nil =>
        cases hs : w.pool.stopping with
        | true =>
          rw [workerStep_waiting_empty_stopping hi hq hs]
          refine ⟨hq', ?_, hm⟩
          intro j t hj
          simp only [World.setWorker, getElem?_set_of_some hi] at hj
          split at hj
          · cases hj
          · exact hr j t hj
        | false => rw [workerStep_waiting_empty_running hi hq hs]; exact ⟨hq', hr, hm⟩
      | cons t' rest =>
        rw [workerStep_waiting_took hi hq]
        refine ⟨?_, ?_, hm⟩
        · intro t ht
          exact hq' t (by rw [hq]; exact List.mem_cons_of_mem _ ht)
        · intro j t hj
          simp only [getElem?_set_of_some hi] at hj
          split at hj
          · injection hj with hj
            injection hj with hj
            subst hj
            exact hq' t' (by rw [hq]; exact List.mem_cons_self _ _)
          · exact hr j t hj
    | running t' =>
      obtain ⟨_, hu⟩ := hw.running_dequeued i t' hi
      rw [workerStep_running hi hu]
      refine ⟨hq', ?_, ?_⟩
      · intro j t hj
        simp only [getElem?_set_of_some hi] at hj
        split at hj
        · cases hj
        · exact hr j t hj
      · simp only [List.length_append, List.length_singleton]
        rw [hr i t' hi, hm]
        push_cast
        ring
    | exited => rw [workerStep_idle (Or.inr (Or.inl hi))]; exact ⟨hq', hr, hm⟩
    | aborted => rw [workerStep_idle (Or.inr (Or.inr hi))]; exact ⟨hq', hr, hm⟩

theorem counting_step {w : World σ ε α} (hw : w.Inv) {counter : σ → Int} {c0 : Int}
    (hc : w.Counting counter c0) (a : Action σ ε α)
    (ha : ∀ f, a = Action.submit f → ∀ m, counter (f m).1 = counter m + 1) :
    (w.step a).Counting counter c0 := by
  cases a with
  | submit f =>
    cases hs : w.pool.stopping with
    | true => rw [step_submit_stopping f hs]; exact hc
    | false =>
      simp only [World.step, submit_running f hs]
      obtain ⟨hq', hr, hm⟩ := hc
      refine ⟨?_, hr, hm⟩
      intro t ht
      rcases List.mem_append.mp ht with ht | ht
      · exact hq' t ht
      · rw [List.mem_singleton] at ht
        subst ht
        exact ha f rfl
  | shutdown =>
    have e1 : (w.step Action.shutdown).pool.tasks = w.pool.tasks := by
      simp only [World.step, ThreadPool.shutdown]
      split <;> rfl
    have e2 : (w.step Action.shutdown).pool.workers = w.pool.workers := by
      simp only [World.step, ThreadPool.shutdown]
      split <;> rfl
    obtain ⟨hq', hr, hm⟩ := hc
    exact ⟨e1 ▸ hq', e2 ▸ hr, hm⟩
  | worker i => exact counting_workerStep hw hc i

theorem counting_run {w : World σ ε α} (hw : w.Inv) {counter : σ → Int} {c0 : Int}
    (hc : w.Counting counter c0) (as : List (Action σ ε α))
    (ha : ∀ f, Action.submit f ∈ as → ∀ m, counter (f m).1 = counter m + 1) :
    (w.run as).Counting counter c0 := by
  induction as generalizing w with
  | nil => exact hc
  | cons a as ih =>
    refine ih (inv_step hw a) (counting_step hw hc a ?_) ?_
    · intro f hf
      exact ha f (hf ▸ List.mem_cons_self _ _)
    · intro f hf
      exact ha f (List.mem_cons_of_mem _ hf)

theorem World.Inv.executed_accepted {w : World σ ε α} (hw : w.Inv) {h : Nat}
    (hh : h ∈ w.executed) : h ∈ w.accepted := by
  obtain ⟨o, ho⟩ := (hw.executed_iff h).mp hh
  rw [hw.accepted_eq, List.mem_range]
  exact (List.getElem?_eq_some_iff.mp ho).1

theorem World.Inv.executed_length {w : World σ ε α} (hw : w.Inv)
    (hall : ∀ h ∈ w.accepted, h ∈ w.executed) : w.executed.length = w.accepted.length := by
  have hnd : w.accepted.Nodup := by
    rw [hw.accepted_eq]
    exact List.nodup_range _
  have hperm : w.executed.Perm w.accepted :=
    (List.perm_ext_iff_of_nodup hw.executed_nodup hnd).mpr
      fun h => ⟨hw.executed_accepted, hall h⟩
  exact hperm.length_eq

/-- C4: in every reachable state, for any worker count, the accepted handles are pairwise
distinct and are exactly the handles taken by workers followed by the handles still queued, this
list has no duplicates, a handle was taken by one worker only, no invocation finished twice and
only taken tasks finish. Hence when every submitted callable adds one to a counter, the counter
stands at its initial value plus the number of accepted tasks once all of them have run. -/
theorem exactly_once_delivery (N : Nat) (m0 : σ) (as : List (Action σ ε α)) (counter : σ → Int) :
    ((World.init N m0).run as).accepted.Nodup ∧
    (((World.init N m0).run as).dequeued.map Prod.snd
      ++ ((World.init N m0).run as).pool.tasks.map Task.handle
        = ((World.init N m0).run as).accepted) ∧
    (((World.init N m0).run as).dequeued.map Prod.snd
      ++ ((World.init N m0).run as).pool.tasks.map Task.handle).Nodup ∧
    (∀ i j h, (i, h) ∈ ((World.init N m0).run as).dequeued →
      (j, h) ∈ ((World.init N m0).run as).dequeued → i = j) ∧
    ((World.init N m0).run as).executed.Nodup ∧
    (∀ h ∈ ((World.init N m0).run as).executed,
      h ∈ ((World.init N m0).run as).dequeued.map Prod.snd) ∧
    ((∀ f, Action.submit f ∈ as → ∀ m, counter (f m).1 = counter m + 1) →
      (∀ h ∈ ((World.init N m0).run as).accepted, h ∈ ((World.init N m0).run as).executed) →
      counter ((World.init N m0).run as).memory
        = counter m0 + ((World.init N m0).run as).accepted.length) := by
  have hw := inv_run (inv_init N m0 : (World.init N m0 : World σ ε α).Inv) as
  have hnd := hw.nodup_handles
  refine ⟨?_, hw.fifo, hnd, ?_, hw.executed_nodup, ?_, ?_⟩
  · rw [hw.accepted_eq]
    exact List.nodup_range _
  · intro i j h hi hj
    exact fst_unique_of_nodup_snd (List.nodup_append.mp hnd).1 hi hj
  · intro h hh
    have hacc := hw.executed_accepted hh
    rw [← hw.fifo] at hacc
    rcases List.mem_append.mp hacc with hd | hq
    · exact hd
    · exfalso
      obtain ⟨t, ht, rfl⟩ := List.mem_map.mp hq
      obtain ⟨o, ho⟩ := (hw.executed_iff _).mp hh
      rw [hw.queued_unset t ht] at ho
      cases ho
  · intro hf hall
    have hc : (World.init N m0 : World σ ε α).Counting counter (counter m0) := by
      refine ⟨?_, ?_, ?_⟩
      · intro t ht
        simp [World.init, ThreadPool.new] at ht
      · intro i t hi
        simp only [World.init, new_workers] at hi
        cases getElem?_replicate_waiting hi
      · simp [World.init]
    have := (counting_run (inv_init N m0) hc as hf).2.2
    rw [this, hw.executed_length hall]

/-- Witness of C4 on test RunsMultipleTasks: three increments on three workers leave the
counter at 3. -/
theorem exactly_once_delivery_witness :
    (∀ f, Action.submit f ∈ runsMultipleTasks → ∀ m, id (f m).1 = id m + 1) ∧
    (∀ h ∈ ((World.init 3 (0 : Int)).run runsMultipleTasks).accepted,
      h ∈ ((World.init 3 (0 : Int)).run runsMultipleTasks).executed) ∧
    id ((World.init 3 (0 : Int)).run runsMultipleTasks).memory
      = id (0 : Int) + ((World.init 3 (0 : Int)).run runsMultipleTasks).accepted.length ∧
    ((World.init 3 (0 : Int)).run runsMultipleTasks).memory = 3 ∧
    ((World.init 3 (0 : Int)).run runsMultipleTasks).dequeued = [(0, 0), (1, 1), (2, 2)] ∧
    ((World.init 3 (0 : Int)).run runsMultipleTasks).executed = [2, 0, 1] :=
  have hf : ∀ f, Action.submit f ∈ runsMultipleTasks → ∀ m, id (f m).1 = id m + 1 := by
    intro f hf m
    simp [runsMultipleTasks] at hf
    subst hf
    rfl
  ⟨hf, by decide,
    (exactly_once_delivery 3 (0 : Int) runsMultipleTasks id).2.2.2.2.2.2 hf (by decide),
    by decide, by decide, by decide⟩

/-- C5: in every reachable state, `enqueue` on a pool that is not stopping appends the task at the
tail of the queue, the critical section of the worker loop removes and returns the head, and the
handles taken so far followed by the queued handles are the accepted handles in acceptance order:
tasks are dequeued in the order in which they were accepted. -/
theorem fifo_order (N : Nat) (m0 : σ) (as : List (Action σ ε α)) :
    (∀ task : Task σ ε α, ((World.init N m0).run as).pool.stopping = false →
      ((World.init N m0).run as).pool.enqueue task = Except.ok
        { ((World.init N m0).run as).pool with
          tasks := ((World.init N m0).run as).pool.tasks ++ [task] }) ∧
    (∀ (task : Task σ ε α) (p : ThreadPool σ ε α),
      ((World.init N m0).run as).pool.workerLoopLocked = Acquire.took task p →
      ((World.init N m0).run as).pool.tasks = task :: p.tasks) ∧
    (((World.init N m0).run as).dequeued.map Prod.snd
      ++ ((World.init N m0).run as).pool.tasks.map Task.handle
        = ((World.init N m0).run as).accepted) ∧
    (((World.init N m0).run as).dequeued.map Prod.snd <+: ((World.init N m0).run as).accepted) := by
  have hw := inv_run (inv_init N m0 : (World.init N m0 : World σ ε α).Inv) as
  refine ⟨?_, ?_, hw.fifo, ?_⟩
  · intro task hs
    simp [ThreadPool.enqueue, hs]
  · intro task p h
    exact (workerLoopLocked_took h).1
  · exact ⟨_, hw.fifo⟩

/-- Witness of C5: with two tasks accepted and the first taken, a third is appended at the tail
and the next one taken is the second. -/
theorem fifo_order_witness :
    ((World.init 1 ()).run twoQueued).pool.stopping = false ∧
    ((World.init 1 ()).run twoQueued).pool.enqueue (Task.mk 2 returns42)
      = Except.ok
        { ((World.init 1 ()).run twoQueued).pool with
          tasks := ((World.init 1 ()).run twoQueued).pool.tasks ++ [Task.mk 2 returns42] } ∧
    ((World.init 1 ()).run twoQueued).pool.workerLoopLocked
      = Acquire.took (Task.mk 1 boundAdd)
        (ThreadPool.mk [Worker.running (Task.mk 0 returns42)] [] false) ∧
    ((World.init 1 ()).run twoQueued).pool.tasks
      = Task.mk 1 boundAdd ::
        (ThreadPool.mk [Worker.running (Task.mk 0 returns42)] [] false).tasks ∧
    ((World.init 1 ()).run twoQueued).accepted = [0, 1] ∧
    ((World.init 1 ()).run twoQueued).dequeued = [(0, 0)] :=
  ⟨rfl,
    (fifo_order 1 () twoQueued).1 (Task.mk 2 returns42) rfl,
    rfl,
    (fifo_order 1 () twoQueued).2.1 (Task.mk 1 boundAdd)
      (ThreadPool.mk [Worker.running (Task.mk 0 returns42)] [] false) rfl,
    by decide, by decide⟩

theorem workers_length_step (w : World σ ε α) (a : Action σ ε α) :
    (w.step a).pool.workers.length = w.pool.workers.length := by
  cases a with
  | submit f =>
    cases hs : w.pool.stopping with
    | true => rw [step_submit_stopping f hs]
    | false => simp only [World.step, submit_running f hs]
  | shutdown =>
    simp only [World.step, ThreadPool.shutdown]
    split <;> rfl
  | worker i =>
    show (w.workerStep i).pool.workers.length = _
    unfold World.workerStep
    split
    · split
      · rfl
      · simp [World.setWorker]
      · simp [World.setWorker]
      · rename_i h
        simp [(workerLoopLocked_took h).2.1]
    · split
      · simp
      · simp [World.setWorker]
    · rfl

theorem workers_length_run (w : World σ ε α) (as : List (Action σ ε α)) :
    (w.run as).pool.workers.length = w.pool.workers.length := by
  induction as generalizing w with
  | nil => rfl
  | cons a as ih => exact (ih _).trans (workers_length_step w a)

/-- C8: a pool constructed with `N` reports size 1 when `N = 0` and `N` otherwise, so at least
1, and `size` keeps that value after any sequence of transitions. -/
theorem size_fixed_at_construction (N : Nat) (m0 : σ) (as : List (Action σ ε α)) :
    (ThreadPool.new N : ThreadPool σ ε α).size = (if N = 0 then 1 else N) ∧
    1 ≤ (ThreadPool.new N : ThreadPool σ ε α).size ∧
    ((World.init N m0 : World σ ε α).run as).pool.size
      = (ThreadPool.new N : ThreadPool σ ε α).size := by
  have h1 : (ThreadPool.new N : ThreadPool σ ε α).size = (if N = 0 then 1 else N) := by
    simp [ThreadPool.size, new_workers]
  refine ⟨h1, ?_, ?_⟩
  · rw [h1]
    split <;> omega
  · exact workers_length_run _ as

/-- C7: in every state reached after `shutdown` has been performed, a further `shutdown` takes
the early return (no notify, no join, no error) and leaves the whole state unchanged; in particular
`shutdown` followed by `shutdown` equals a single `shutdown`. -/
theorem shutdown_idempotent (w : World σ ε α) (as : List (Action σ ε α)) :
    ((w.step Action.shutdown).run as).pool.shutdown
      = (((w.step Action.shutdown).run as).pool, false) ∧
    ((w.step Action.shutdown).run as).step Action.shutdown = (w.step Action.shutdown).run as ∧
    (w.step Action.shutdown).step Action.shutdown = w.step Action.shutdown := by
  have key : ∀ v : World σ ε α, v.pool.stopping = true →
      v.pool.shutdown = (v.pool, false) ∧ v.step Action.shutdown = v := by
    intro v hv
    simp [World.step, ThreadPool.shutdown, hv]
  have h := run_stopping as (step_shutdown_stopping w)
  exact ⟨(key _ h).1, (key _ h).2, (key _ (step_shutdown_stopping w)).2⟩

theorem inv_runN {w : World σ ε α} (hw : w.Inv) (sched : Nat → Action σ ε α) (t : Nat) :
    (w.runN sched t).Inv := by
  induction t with
  | zero => exact hw
  | succ t ih => exact inv_step ih _

theorem workerStep_other (w : World σ ε α) {i j : Nat} (hij : i ≠ j) :
    (w.workerStep i).pool.workers[j]? = w.pool.workers[j]? := by
  unfold World.workerStep
  split
  · split
    · rfl
    · simp [World.setWorker, List.getElem?_set_ne hij]
    · simp [World.setWorker, List.getElem?_set_ne hij]
    · rename_i h
      simp [(workerLoopLocked_took h).2.1, List.getElem?_set_ne hij]
  · split
    · simp [List.getElem?_set_ne hij]
    · simp [World.setWorker, List.getElem?_set_ne hij]
  · rfl

theorem step_workers_submit (w : World σ ε α) (f : Callable σ ε α) :
    (w.step (Action.submit f)).pool.workers = w.pool.workers := by
  cases hs : w.pool.stopping with
  | true => rw [step_submit_stopping f hs]
  | false => simp only [World.step, submit_running f hs]

theorem step_workers_shutdown (w : World σ ε α) :
    (w.step Action.shutdown).pool.workers = w.pool.workers := by
  simp only [World.step, ThreadPool.shutdown]
  split <;> rfl

theorem step_tasks_shutdown (w : World σ ε α) :
    (w.step Action.shutdown).pool.tasks = w.pool.tasks := by
  simp only [World.step, ThreadPool.shutdown]
  split <;> rfl

theorem step_other (w : World σ ε α) (a : Action σ ε α) {j : Nat} (ha : a ≠ Action.worker j) :
    (w.step a).pool.workers[j]? = w.pool.workers[j]? := by
  cases a with
  | submit f => rw [step_workers_submit]
  | shutdown => rw [step_workers_shutdown]
  | worker i =>
    have hij : i ≠ j := fun h => ha (h ▸ rfl)
    exact workerStep_other w hij

theorem running_step_completes {w : World σ ε α} (hw : w.Inv) (sched : Nat → Action σ ε α)
    {j : Nat} {tk : Task σ ε α} (t : Nat) (hs : sched t = Action.worker j)
    (hj : (w.runN sched t).pool.workers[j]? = some (Worker.running tk)) :
    ∃ (T : Nat) (m : σ), (w.runN sched T).shared[tk.handle]? = some (some (tk.callable m).2) := by
  refine ⟨t + 1, (w.runN sched t).memory, ?_⟩
  have := (ran_facts (inv_runN hw sched t) hj).2.2.2.1
  simpa [World.runN, hs, World.step] using this

/-- Once a worker holds the task, the next transition of that worker stores the outcome. -/
theorem fair_running {w : World σ ε α} (hw : w.Inv) (sched : Nat → Action σ ε α) {j : Nat}
    {tk : Task σ ε α} (d : Nat) :
    ∀ t, sched (t + d) = Action.worker j →
      (w.runN sched t).pool.workers[j]? = some (Worker.running tk) →
      ∃ (T : Nat) (m : σ), (w.runN sched T).shared[tk.handle]? = some (some (tk.callable m).2) := by
  induction d with
  | zero =>
    intro t hs hj
    exact running_step_completes hw sched t hs hj
  | succ d ih =>
    intro t hs hj
    by_cases ha : sched t = Action.worker j
    · exact running_step_completes hw sched t ha hj
    · refine ih (t + 1) (by rw [← hs]; congr 1; omega) ?_
      show ((w.runN sched t).step (sched t)).pool.workers[j]? = _
      rw [step_other _ _ ha]
      exact hj

theorem queuedWithin_other {w : World σ ε α} (hw : w.Inv) {tk : Task σ ε α} {μ : Nat}
    (hq : w.QueuedWithin tk μ) (a : Action σ ε α) (ha : a ≠ Action.worker 0) :
    (w.step a).QueuedWithin tk μ ∨
      ∃ j : Nat, (w.step a).pool.workers[j]? = some (Worker.running tk) := by
  obtain ⟨pre, post, b, htasks, hzero, hμ⟩ := hq
  have h0 := step_other w a ha
  cases a with
  | submit f =>
    left
    cases hs : w.pool.stopping with
    | true =>
      rw [step_submit_stopping f hs]
      exact ⟨pre, post, b, htasks, hzero, hμ⟩
    | false =>
      refine ⟨pre, post ++ [Task.mk w.shared.length f], b, ?_, ?_, hμ⟩
      · simp only [World.step, submit_running f hs, htasks]
        simp
      · rw [h0]
        exact hzero
  | shutdown =>
    left
    refine ⟨pre, post, b, ?_, ?_, hμ⟩
    · rw [step_tasks_shutdown, htasks]
    · rw [h0]
      exact hzero
  | worker i =>
    change (w.workerStep i).pool.workers[0]? = _ at h0
    change (w.workerStep i).QueuedWithin tk μ ∨
      ∃ j : Nat, (w.workerStep i).pool.workers[j]? = some (Worker.running tk)
    cases hi : w.pool.workers[i]? with
    | none =>
      rw [workerStep_idle (Or.inl hi)]
      exact Or.inl ⟨pre, post, b, htasks, hzero, hμ⟩
    | some s =>
      cases s with
      | waiting =>
        cases pre with
        | nil =>
          right
          exact ⟨i, (took_facts hi (by simpa using htasks)).2.1⟩
        | cons q pre =>
          left
          have hcons : w.pool.tasks = q :: (pre ++ tk :: post) := by simpa using htasks
          obtain ⟨h1, -, -, -⟩ := took_facts hi hcons
          refine ⟨pre, post, b, h1, ?_, ?_⟩
          · rw [h0]
            exact hzero
          · simp only [List.length_cons] at hμ
            omega
      | running t' =>
        left
        obtain ⟨h1, -, -, -, -⟩ := ran_facts hw hi
        refine ⟨pre, post, b, h1.trans htasks, ?_, hμ⟩
        rw [h0]
        exact hzero
      | exited =>
        rw [workerStep_idle (Or.inr (Or.inl hi))]
        exact Or.inl ⟨pre, post, b, htasks, hzero, hμ⟩
      | aborted =>
        rw [workerStep_idle (Or.inr (Or.inr hi))]
        exact Or.inl ⟨pre, post, b, htasks, hzero, hμ⟩

theorem queuedWithin_zero {w : World σ ε α} (hw : w.Inv) {tk : Task σ ε α} {μ : Nat}
    (hq : w.QueuedWithin tk μ) :
    (0 < μ ∧ (w.workerStep 0).QueuedWithin tk (μ - 1)) ∨
      (w.workerStep 0).pool.workers[0]? = some (Worker.running tk) := by
  obtain ⟨pre, post, b, htasks, hzero, hμ⟩ := hq
  rcases hzero with ⟨hwait, rfl⟩ | ⟨⟨t0, hrun⟩, rfl⟩
  · cases pre with
    | nil =>
      right
      exact (took_facts hwait (by simpa using htasks)).2.1
    | cons q pre =>
      left
      have hcons : w.pool.tasks = q :: (pre ++ tk :: post) := by simpa using htasks
      obtain ⟨h1, h2, -, -⟩ := took_facts hwait hcons
      simp only [List.length_cons] at hμ
      exact ⟨by omega, pre, post, 1, h1, Or.inr ⟨⟨q, h2⟩, rfl⟩, by omega⟩
  · left
    obtain ⟨h1, h2, -, -, -⟩ := ran_facts hw hrun
    exact ⟨by omega, pre, post, 0, h1.trans htasks, Or.inl ⟨h2, rfl⟩, by omega⟩

theorem workers_length_runN (w : World σ ε α) (sched : Nat → Action σ ε α) (t : Nat) :
    (w.runN sched t).pool.workers.length = w.pool.workers.length := by
  induction t with
  | zero => rfl
  | succ t ih => exact (workers_length_step _ _).trans ih

theorem fair_running_any {w : World σ ε α} (hw : w.Inv) {sched : Nat → Action σ ε α}
    (hfair : Fair w.pool.workers.length sched) {j t : Nat} {tk : Task σ ε α}
    (hj : (w.runN sched t).pool.workers[j]? = some (Worker.running tk)) :
    ∃ (T : Nat) (m : σ), (w.runN sched T).shared[tk.handle]? = some (some (tk.callable m).2) := by
  have hlt : j < w.pool.workers.length := by
    rw [← workers_length_runN w sched t]
    exact (List.getElem?_eq_some_iff.mp hj).1
  obtain ⟨d, hd⟩ := hfair j hlt t
  exact fair_running hw sched d t hd hj

/-- While the task is queued, each transition of worker 0 brings it closer to the head. -/
theorem fair_queued {w : World σ ε α} (hw : w.Inv) {sched : Nat → Action σ ε α}
    (hfair : Fair w.pool.workers.length sched) {tk : Task σ ε α} (μ : Nat) :
    ∀ d t, sched (t + d) = Action.worker 0 → (w.runN sched t).QueuedWithin tk μ →
      ∃ (T : Nat) (m : σ), (w.runN sched T).shared[tk.handle]? = some (some (tk.callable m).2) := by
  induction μ with
  | zero =>
    have hturn : ∀ t, sched t = Action.worker 0 → (w.runN sched t).QueuedWithin tk 0 →
        ∃ (T : Nat) (m : σ),
          (w.runN sched T).shared[tk.handle]? = some (some (tk.callable m).2) := by
      intro t hs hq
      rcases queuedWithin_zero (inv_runN hw sched t) hq with ⟨hpos, -⟩ | hrun
      · exact absurd hpos (lt_irrefl 0)
      · exact fair_running_any hw hfair (t := t + 1)
          (by simpa [World.runN, hs, World.step] using hrun)
    intro d
    induction d with
    | zero => exact fun t hs hq => hturn t hs hq
    | succ d ih =>
      intro t hs hq
      by_cases ha : sched t = Action.worker 0
      · exact hturn t ha hq
      · rcases queuedWithin_other (inv_runN hw sched t) hq (sched t) ha with hq' | ⟨j, hj⟩
        · exact ih (t + 1) (by rw [← hs]; congr 1; omega) hq'
        · exact fair_running_any hw hfair (t := t + 1) hj
  | succ μ ihμ =>
    have hturn : ∀ t, sched t = Action.worker 0 → (w.runN sched t).QueuedWithin tk (μ + 1) →
        ∃ (T : Nat) (m : σ),
          (w.runN sched T).shared[tk.handle]? = some (some (tk.callable m).2) := by
      intro t hs hq
      rcases queuedWithin_zero (inv_runN hw sched t) hq with ⟨-, hq'⟩ | hrun
      · obtain ⟨d, hd⟩ := hfair 0 hw.has_worker (t + 1)
        exact ihμ d (t + 1) hd (by simpa [World.runN, hs, World.step] using hq')
      · exact fair_running_any hw hfair (t := t + 1)
          (by simpa [World.runN, hs, World.step] using hrun)
    intro d
    induction d with
    | zero => exact fun t hs hq => hturn t hs hq
    | succ d ih =>
      intro t hs hq
      by_cases ha : sched t = Action.worker 0
      · exact hturn t ha hq
      · rcases queuedWithin_other (inv_runN hw sched t) hq (sched t) ha with hq' | ⟨j, hj⟩
        · exact ih (t + 1) (by rw [← hs]; congr 1; omega) hq'
        · exact fair_running_any hw hfair (t := t + 1) hj

/-- Under a fair schedule every tracked task stores its outcome after finitely many
transitions. -/
theorem fair_completes {w : World σ ε α} (hw : w.Inv) {sched : Nat → Action σ ε α}
    (hfair : Fair w.pool.workers.length sched) {h : Nat} {f : Callable σ ε α}
    (ht : w.Tracked h f) :
    ∃ (T : Nat) (m : σ), (w.runN sched T).shared[h]? = some (some (f m).2) := by
  rcases ht with ⟨tk, hm, rfl, rfl⟩ | ⟨i, tk, hi, rfl, rfl⟩ | ⟨m, hd⟩
  · obtain ⟨pre, post, htasks⟩ := List.append_of_mem hm
    have hlen := hw.has_worker
    obtain ⟨d, hd⟩ := hfair 0 hlen 0
    have h0 : ∃ b, (w.pool.workers[0]? = some Worker.waiting ∧ b = 0) ∨
        ((∃ t0, w.pool.workers[0]? = some (Worker.running t0)) ∧ b = 1) := by
      cases h0 : w.pool.workers[0]? with
      | none =>
        rw [List.getElem?_eq_none_iff] at h0
        omega
      | some s =>
        cases s with
        | waiting => exact ⟨0, Or.inl ⟨rfl, rfl⟩⟩
        | running t0 => exact ⟨1, Or.inr ⟨⟨t0, rfl⟩, rfl⟩⟩
        | exited =>
          have := (hw.exited_drained 0 h0).2
          rw [htasks] at this
          simp at this
        | aborted => exact absurd h0 (hw.not_aborted 0)
    obtain ⟨b, hb⟩ := h0
    exact fair_queued hw hfair (2 * pre.length + b) d 0 hd ⟨pre, post, b, htasks, hb, le_rfl⟩
  · exact fair_running_any hw hfair (t := 0) hi
  · exact ⟨0, m, hd⟩

theorem roundRobin_fair (n : Nat) : Fair n (roundRobin n : Nat → Action σ ε α) := by
  intro i hi t
  refine ⟨n * (t + 1) - t + i, ?_⟩
  have hle : t ≤ n * (t + 1) := by
    calc t ≤ 1 * (t + 1) := by omega
      _ ≤ n * (t + 1) := Nat.mul_le_mul_right _ (by omega)
  have e : t + (n * (t + 1) - t + i) = i + n * (t + 1) := by omega
  simp only [roundRobin]
  rw [e, Nat.add_mul_mod_self_left, Nat.mod_eq_of_lt hi]

theorem workers_length_reachable (N : Nat) (m0 : σ) (as : List (Action σ ε α))
    (a : Action σ ε α) :
    (((World.init N m0).run as).step a).pool.workers.length
      = (ThreadPool.new N : ThreadPool σ ε α).size :=
  (workers_length_step _ a).trans (workers_length_run _ as)

theorem get_valid_outcome {w : World σ ε α} {h : Nat} {o : Outcome ε α}
    (hu : w.shared[h]? = some (some o)) :
    (Future.get { handle := h, valid := true } w).1 = GetResult.ofOutcome o := by
  cases o with
  | value v => rw [get_valid_value hu]; rfl
  | failure e => rw [get_valid_failure hu]; rfl

theorem running_callable {w : World σ ε α} (hw : w.Inv) {h : Nat} {f : Callable σ ε α}
    (ht : w.Tracked h f) {i : Nat} {t : Task σ ε α}
    (hi : w.pool.workers[i]? = some (Worker.running t)) (hh : t.handle = h) :
    t.callable = f := by
  obtain ⟨hdeq, hu⟩ := hw.running_dequeued i t hi
  rcases ht with ⟨t', hm, h1, _⟩ | ⟨j, t', hj, h1, h2⟩ | ⟨m, hd⟩
  · exact absurd (h1.trans hh.symm) (hw.queued_not_dequeued hdeq hm)
  · obtain ⟨hdeq', _⟩ := hw.running_dequeued j t' hj
    rw [h1, ← hh] at hdeq'
    have hij := fst_unique_of_nodup_snd (List.nodup_append.mp hw.nodup_handles).1 hdeq hdeq'
    subst hij
    rw [hi] at hj
    injection hj with hj
    injection hj with hj
    rw [hj]
    exact h2
  · rw [← hh, hu] at hd
    cases hd

theorem step_writes {w : World σ ε α} (hw : w.Inv) {h : Nat} {f : Callable σ ε α}
    (ht : w.Tracked h f) (hu : w.shared[h]? = some none) (a : Action σ ε α) :
    (w.step a).shared[h]? = some none ∨
    ∃ (i : Nat) (t : Task σ ε α), a = Action.worker i ∧
      w.pool.workers[i]? = some (Worker.running t) ∧ t.handle = h ∧ t.callable = f ∧
      (w.step a).shared[h]? = some (some (f w.memory).2) := by
  cases a with
  | submit g =>
    left
    cases hs : w.pool.stopping with
    | true => simpa [World.step, submit_stopping g hs] using hu
    | false =>
      simp only [World.step, submit_running g hs]
      exact getElem?_snoc_of_some hu
  | shutdown => exact Or.inl hu
  | worker i =>
    have e : w.step (Action.worker i) = w.workerStep i := rfl
    rw [e]
    cases hi : w.pool.workers[i]? with
    | none => rw [workerStep_idle (Or.inl hi)]; exact Or.inl hu
    | some s =>
      cases s with
      | waiting =>
        cases hq : w.pool.tasks with
        | nil =>
          cases hs : w.pool.stopping with
          | true => rw [workerStep_waiting_empty_stopping hi hq hs]; exact Or.inl hu
          | false => rw [workerStep_waiting_empty_running hi hq hs]; exact Or.inl hu
        | cons t rest => rw [workerStep_waiting_took hi hq]; exact Or.inl hu
      | running t =>
        obtain ⟨_, hut⟩ := hw.running_dequeued i t hi
        rw [workerStep_running hi hut]
        by_cases hh : t.handle = h
        · right
          have hc := running_callable hw ht hi hh
          refine ⟨i, t, rfl, hi, hh, hc, ?_⟩
          subst hh
          rw [← hc]
          simp [getElem?_set_of_some hut]
        · left
          simp only [getElem?_set_of_some hut, if_neg hh]
          exact hu
      | exited => rw [workerStep_idle (Or.inr (Or.inl hi))]; exact Or.inl hu
      | aborted => rw [workerStep_idle (Or.inr (Or.inr hi))]; exact Or.inl hu

theorem origin_run (bs : List (Action σ ε α)) :
    ∀ {w : World σ ε α}, w.Inv → ∀ {h : Nat} {f : Callable σ ε α}, w.Tracked h f →
      w.shared[h]? = some none →
      (w.run bs).shared[h]? = some none ∨
      ∃ (bs1 : List (Action σ ε α)) (i : Nat) (bs2 : List (Action σ ε α)) (t : Task σ ε α),
        bs = bs1 ++ Action.worker i :: bs2 ∧
        (w.run bs1).pool.workers[i]? = some (Worker.running t) ∧ t.handle = h ∧
        t.callable = f ∧
        (w.run bs).shared[h]? = some (some (f (w.run bs1).memory).2) := by
  induction bs with
  | nil => intro w _ h f _ hu; exact Or.inl hu
  | cons a bs ih =>
    intro w hw h f ht hu
    rcases step_writes hw ht hu a with hp | ⟨i, t, rfl, hi, hh, hc, hd⟩
    · rcases ih (inv_step hw a) (tracked_step hw a ht) hp with hq | ⟨bs1, i, bs2, t, e, r⟩
      · exact Or.inl hq
      · exact Or.inr ⟨a :: bs1, i, bs2, t, by rw [e]; rfl, r⟩
    · exact Or.inr ⟨[], i, bs, t, rfl, hi, hh, hc,
        shared_stable_run (inv_step hw _) bs h _ hd⟩

theorem origin_runN {w : World σ ε α} (hw : w.Inv) {h : Nat} {f : Callable σ ε α}
    (ht : w.Tracked h f) (hu : w.shared[h]? = some none) (sched : Nat → Action σ ε α)
    (T : Nat) :
    (w.runN sched T).shared[h]? = some none ∨
    ∃ (T' i : Nat) (t : Task σ ε α), T' < T ∧ sched T' = Action.worker i ∧
      (w.runN sched T').pool.workers[i]? = some (Worker.running t) ∧ t.handle = h ∧
      t.callable = f ∧
      (w.runN sched T).shared[h]? = some (some (f (w.runN sched T').memory).2) := by
  induction T with
  | zero => exact Or.inl hu
  | succ T ih =>
    have hT := inv_runN hw sched T
    rcases ih with hp | ⟨T', i, t, hlt, hs, hi, hh, hc, hd⟩
    · have htT : (w.runN sched T).Tracked h f := by
        clear hp
        induction T with
        | zero => exact ht
        | succ T ih2 => exact tracked_step (inv_runN hw sched T) _ (ih2 (inv_runN hw sched T))
      rcases step_writes hT htT hp (sched T) with hq | ⟨i, t, hs, hi, hh, hc, hd⟩
      · exact Or.inl hq
      · exact Or.inr ⟨T, i, t, Nat.lt_succ_self T, hs, hi, hh, hc, hd⟩
    · exact Or.inr ⟨T', i, t, Nat.lt_succ_of_lt hlt, hs, hi, hh, hc,
        shared_stable_step hT _ h _ hd⟩

theorem submit_pending {w : World σ ε α} (f : Callable σ ε α)
    (hs : w.pool.stopping = false) :
    (w.step (Action.submit f)).shared[w.shared.length]? = some none := by
  simp [World.step, submit_running f hs]

/-- C1: on a pool that is not stopping, `submit` of any callable succeeds and returns a valid
future. In every later state `get` on that future is either still blocked or hands over the
outcome of the one invocation a worker made of the callable, in the memory of that moment: the
value the call returned, when it returned a value. From every later state the workers alone can
bring the pool to a state in which `get` hands over such an outcome, and under every schedule that
keeps letting each worker make transitions, whatever else it contains, `get` hands over the outcome
of the invocation after finitely many transitions. In particular, for a callable that returns the
value `v` whatever the memory, `get` is blocked or returns exactly `v`, and does return `v`. -/
theorem submit_get_returns_value (N : Nat) (m0 : σ) (as : List (Action σ ε α))
    (f : Callable σ ε α) (hs : ((World.init N m0).run as).pool.stopping = false) :
    ∃ (w1 : World σ ε α) (fut : Future),
      ((World.init N m0).run as).submit f = Except.ok (w1, fut) ∧ fut.valid = true ∧
      (∀ bs, (fut.get (w1.run bs)).1 = GetResult.blocked ∨
        ∃ (bs1 : List (Action σ ε α)) (i : Nat) (bs2 : List (Action σ ε α)) (t : Task σ ε α),
          bs = bs1 ++ Action.worker i :: bs2 ∧
          (w1.run bs1).pool.workers[i]? = some (Worker.running t) ∧
          t.handle = fut.handle ∧ t.callable = f ∧
          (fut.get (w1.run bs)).1 = GetResult.ofOutcome (f (w1.run bs1).memory).2) ∧
      (∀ bs, ∃ (cs : List Nat) (m : σ),
        (fut.get ((w1.run bs).run (cs.map Action.worker))).1 = GetResult.ofOutcome (f m).2) ∧
      (∀ sched : Nat → Action σ ε α, Fair (ThreadPool.new N : ThreadPool σ ε α).size sched →
        ∃ (T T' i : Nat) (t : Task σ ε α), T' < T ∧ sched T' = Action.worker i ∧
          (w1.runN sched T').pool.workers[i]? = some (Worker.running t) ∧
          t.handle = fut.handle ∧ t.callable = f ∧
          (fut.get (w1.runN sched T)).1
            = GetResult.ofOutcome (f (w1.runN sched T').memory).2) ∧
      (∀ v : α, (∀ m, (f m).2 = Outcome.value v) →
        (∀ bs, (fut.get (w1.run bs)).1 = GetResult.blocked ∨
          (fut.get (w1.run bs)).1 = GetResult.returned v) ∧
        (∀ bs, ∃ cs : List Nat,
          (fut.get ((w1.run bs).run (cs.map Action.worker))).1 = GetResult.returned v) ∧
        (∀ sched : Nat → Action σ ε α, Fair (ThreadPool.new N : ThreadPool σ ε α).size sched →
          ∃ T, (fut.get (w1.runN sched T)).1 = GetResult.returned v)) := by
  have hw := inv_run (inv_init N m0 : (World.init N m0 : World σ ε α).Inv) as
  obtain ⟨w1, hsub, hw1, ht⟩ := tracked_submit f hs
  have hinv1 : w1.Inv := hw1 ▸ inv_step hw _
  have hpend : w1.shared[((World.init N m0).run as).shared.length]? = some none :=
    hw1 ▸ submit_pending f hs
  have hlen : w1.pool.workers.length = (ThreadPool.new N : ThreadPool σ ε α).size :=
    hw1 ▸ workers_length_reachable N m0 as _
  refine ⟨w1, _, hsub, rfl, ?_, ?_, ?_, ?_⟩
  · intro bs
    rcases origin_run bs hinv1 ht hpend with hu | ⟨bs1, i, bs2, t, e, hi, hh, hc, hd⟩
    · exact Or.inl (get_valid_unset hu)
    · exact Or.inr ⟨bs1, i, bs2, t, e, hi, hh, hc, get_valid_outcome hd⟩
  · intro bs
    obtain ⟨cs, m, hd⟩ := tracked_completes (inv_run hinv1 bs) (tracked_run hinv1 bs ht)
    exact ⟨cs, m, get_valid_outcome hd⟩
  · intro sched hfair
    obtain ⟨T, m, hd⟩ := fair_completes hinv1 (hlen ▸ hfair) ht
    rcases origin_runN hinv1 ht hpend sched T with hu | ⟨T', i, t, hlt, hsc, hi, hh, hc, hd'⟩
    · rw [hu] at hd
      cases hd
    · exact ⟨T, T', i, t, hlt, hsc, hi, hh, hc, get_valid_outcome hd'⟩
  · intro v hf
    refine ⟨?_, ?_, ?_⟩
    · intro bs
      rcases tracked_pending_or_done (inv_run hinv1 bs) (tracked_run hinv1 bs ht)
        with hu | ⟨m, hd⟩
      · exact Or.inl (get_valid_unset hu)
      · rw [hf] at hd
        exact Or.inr (by rw [get_valid_value hd])
    · intro bs
      obtain ⟨cs, m, hd⟩ := tracked_completes (inv_run hinv1 bs) (tracked_run hinv1 bs ht)
      rw [hf] at hd
      exact ⟨cs, by rw [get_valid_value hd]⟩
    · intro sched hfair
      obtain ⟨T, m, hd⟩ := fair_completes hinv1 (hlen ▸ hfair) ht
      rw [hf] at hd
      exact ⟨T, by rw [get_valid_value hd]⟩

/-- Witness of C1 on the tasks of tests ExecutesSubmittedTasks, SubmitsCallableWithArguments
and SubmitsSharedPtrArgument: the futures return 42, 7 and 10, the last being twice the payload
5 that the memory holds when the worker invokes the task. -/
theorem submit_get_returns_value_witness :
    ((World.init 1 (5 : Int) : World Int Unit Int).run []).pool.stopping = false ∧
    (∃ (w1 : World Int Unit Int) (fut : Future),
      ((World.init 1 (5 : Int)).run []).submit doublePayload = Except.ok (w1, fut) ∧
      fut.valid = true ∧
      ∃ (T T' : Nat), T' < T ∧
        (fut.get (w1.runN (roundRobin 1) T)).1
          = GetResult.ofOutcome (doublePayload (w1.runN (roundRobin 1) T').memory).2) ∧
    (∃ (w1 : World Unit Unit Int) (fut : Future),
      ((World.init 2 ()).run []).submit returns42 = Except.ok (w1, fut) ∧ fut.valid = true ∧
      (∀ bs, (fut.get (w1.run bs)).1 = GetResult.blocked ∨
        (fut.get (w1.run bs)).1 = GetResult.returned 42) ∧
      (∀ bs, ∃ cs : List Nat,
        (fut.get ((w1.run bs).run (cs.map Action.worker))).1 = GetResult.returned 42) ∧
      ∃ T, (fut.get (w1.runN (roundRobin 2) T)).1 = GetResult.returned 42) ∧
    (Future.get { handle := 0, valid := true }
      ((World.init 2 () : World Unit Unit Int).run
        [Action.submit returns42, Action.worker 1, Action.worker 1])).1 = GetResult.returned 42 ∧
    (Future.get { handle := 0, valid := true }
      ((World.init 2 () : World Unit Unit Int).run
        [Action.submit boundAdd, Action.worker 0, Action.worker 0])).1 = GetResult.returned 7 ∧
    (Future.get { handle := 0, valid := true }
      ((World.init 1 (5 : Int) : World Int Unit Int).run
        [Action.submit doublePayload, Action.worker 0, Action.worker 0])).1
      = GetResult.returned 10 :=
  ⟨rfl,
    match submit_get_returns_value 1 (5 : Int) [] doublePayload rfl with
    | ⟨w1, fut, h1, h2, _, _, h5, _⟩ =>
      match h5 (roundRobin 1) (roundRobin_fair 1) with
      | ⟨T, T', _, _, hlt, _, _, _, _, hget⟩ => ⟨w1, fut, h1, h2, T, T', hlt, hget⟩,
    match submit_get_returns_value 2 () [] returns42 rfl with
    | ⟨w1, fut, h1, h2, _, _, _, h6⟩ =>
      ⟨w1, fut, h1, h2, (h6 42 (fun _ => rfl)).1, (h6 42 (fun _ => rfl)).2.1,
        (h6 42 (fun _ => rfl)).2.2 (roundRobin 2) (roundRobin_fair 2)⟩,
    by decide, by decide, by decide⟩

theorem map_worker_append (cs ds : List Nat) :
    ((cs ++ ds).map Action.worker : List (Action σ ε α))
      = cs.map Action.worker ++ ds.map Action.worker := List.map_append _ _ _

/-- C6: on a pool that is not stopping, `submit` of any callable succeeds. `get` on its future
is blocked or hands over the outcome of the one invocation a worker made of the callable, in the
memory of that moment: when that call raised an error, `get` rethrows it; the workers alone can
bring it about, and it comes about after finitely many transitions of any schedule that is fair
to the workers. No worker is ever terminated: the worker that runs the task stores the outcome,
a failure included, in that task's shared state only and is back at the top of its loop, and any
task submitted afterwards can still be run to completion, its future handing over the outcome of
its own call while the first future hands over that of the first. In particular, for a callable
that raises `e` whatever the memory, `get` is blocked or rethrows `e`, and does rethrow `e`, also
after later tasks that return a value, whose futures return that value. -/
theorem failure_captured_in_handle (N : Nat) (m0 : σ) (as : List (Action σ ε α))
    (f : Callable σ ε α) (hs : ((World.init N m0).run as).pool.stopping = false) :
    ∃ (w1 : World σ ε α) (fut : Future),
      ((World.init N m0).run as).submit f = Except.ok (w1, fut) ∧ fut.valid = true ∧
      (∀ bs, (fut.get (w1.run bs)).1 = GetResult.blocked ∨
        ∃ (bs1 : List (Action σ ε α)) (i : Nat) (bs2 : List (Action σ ε α)) (t : Task σ ε α),
          bs = bs1 ++ Action.worker i :: bs2 ∧
          (w1.run bs1).pool.workers[i]? = some (Worker.running t) ∧
          t.handle = fut.handle ∧ t.callable = f ∧
          (fut.get (w1.run bs)).1 = GetResult.ofOutcome (f (w1.run bs1).memory).2) ∧
      (∀ bs, ∃ (cs : List Nat) (m : σ),
        (fut.get ((w1.run bs).run (cs.map Action.worker))).1 = GetResult.ofOutcome (f m).2) ∧
      (∀ sched : Nat → Action σ ε α, Fair (ThreadPool.new N : ThreadPool σ ε α).size sched →
        ∃ (T T' i : Nat) (t : Task σ ε α), T' < T ∧ sched T' = Action.worker i ∧
          (w1.runN sched T').pool.workers[i]? = some (Worker.running t) ∧
          t.handle = fut.handle ∧ t.callable = f ∧
          (fut.get (w1.runN sched T)).1
            = GetResult.ofOutcome (f (w1.runN sched T').memory).2) ∧
      (∀ bs (i : Nat), (w1.run bs).pool.workers[i]? ≠ some Worker.aborted) ∧
      (∀ bs (i : Nat) (t : Task σ ε α),
        (w1.run bs).pool.workers[i]? = some (Worker.running t) → t.handle = fut.handle →
        ((w1.run bs).workerStep i).pool.workers[i]? = some Worker.waiting ∧
        ((w1.run bs).workerStep i).shared[fut.handle]?
          = some (some (f (w1.run bs).memory).2) ∧
        ∀ h, h ≠ fut.handle → ((w1.run bs).workerStep i).shared[h]? = (w1.run bs).shared[h]?) ∧
      (∀ bs (g : Callable σ ε α), (w1.run bs).pool.stopping = false →
        ∃ (w2 : World σ ε α) (fut2 : Future),
          (w1.run bs).submit g = Except.ok (w2, fut2) ∧
          ∀ ds, ∃ (cs : List Nat) (m2 m1 : σ),
            (fut2.get ((w2.run ds).run (cs.map Action.worker))).1
              = GetResult.ofOutcome (g m2).2 ∧
            (fut.get ((w2.run ds).run (cs.map Action.worker))).1
              = GetResult.ofOutcome (f m1).2) ∧
      (∀ e : ε, (∀ m, (f m).2 = Outcome.failure e) →
        (∀ bs, (fut.get (w1.run bs)).1 = GetResult.blocked ∨
          (fut.get (w1.run bs)).1 = GetResult.raised e) ∧
        (∀ bs, ∃ cs : List Nat,
          (fut.get ((w1.run bs).run (cs.map Action.worker))).1 = GetResult.raised e) ∧
        (∀ sched : Nat → Action σ ε α, Fair (ThreadPool.new N : ThreadPool σ ε α).size sched →
          ∃ T, (fut.get (w1.runN sched T)).1 = GetResult.raised e) ∧
        (∀ bs (i : Nat) (t : Task σ ε α),
          (w1.run bs).pool.workers[i]? = some (Worker.running t) → t.handle = fut.handle →
          ((w1.run bs).workerStep i).shared[fut.handle]? = some (some (Outcome.failure e))) ∧
        (∀ bs (g : Callable σ ε α) (v : α), (∀ m, (g m).2 = Outcome.value v) →
          (w1.run bs).pool.stopping = false →
          ∃ (w2 : World σ ε α) (fut2 : Future),
            (w1.run bs).submit g = Except.ok (w2, fut2) ∧
            ∀ ds, ∃ cs : List Nat,
              (fut2.get ((w2.run ds).run (cs.map Action.worker))).1 = GetResult.returned v ∧
              (fut.get ((w2.run ds).run (cs.map Action.worker))).1 = GetResult.raised e)) := by
  have hw := inv_run (inv_init N m0 : (World.init N m0 : World σ ε α).Inv) as
  obtain ⟨w1, hsub, hw1, ht⟩ := tracked_submit f hs
  have hinv1 : w1.Inv := hw1 ▸ inv_step hw _
  have hpend : w1.shared[((World.init N m0).run as).shared.length]? = some none :=
    hw1 ▸ submit_pending f hs
  have hlen : w1.pool.workers.length = (ThreadPool.new N : ThreadPool σ ε α).size :=
    hw1 ▸ workers_length_reachable N m0 as _
  have hstep : ∀ bs (i : Nat) (t : Task σ ε α),
      (w1.run bs).pool.workers[i]? = some (Worker.running t) →
      t.handle = ((World.init N m0).run as).shared.length →
      ((w1.run bs).workerStep i).pool.workers[i]? = some Worker.waiting ∧
      ((w1.run bs).workerStep i).shared[((World.init N m0).run as).shared.length]?
        = some (some (f (w1.run bs).memory).2) ∧
      ∀ h, h ≠ ((World.init N m0).run as).shared.length →
        ((w1.run bs).workerStep i).shared[h]? = (w1.run bs).shared[h]? := by
    intro bs i t hi hh
    have hinv := inv_run hinv1 bs
    obtain ⟨hdeq, hu⟩ := hinv.running_dequeued i t hi
    have hcall : t.callable = f := running_callable hinv (tracked_run hinv1 bs ht) hi hh
    rw [workerStep_running hi hu]
    refine ⟨by simp [getElem?_set_of_some hi], ?_, ?_⟩
    · rw [← hh, hcall]
      simp [getElem?_set_of_some hu]
    · intro h hne
      rw [← hh] at hne
      simp only [getElem?_set_of_some hu, if_neg (Ne.symm hne)]
  have hlater : ∀ bs (g : Callable σ ε α), (w1.run bs).pool.stopping = false →
      ∃ (w2 : World σ ε α) (fut2 : Future),
        (w1.run bs).submit g = Except.ok (w2, fut2) ∧
        ∀ ds, ∃ (cs : List Nat) (m2 m1 : σ),
          ((w2.run ds).run (cs.map Action.worker)).shared[fut2.handle]?
            = some (some (g m2).2) ∧
          ((w2.run ds).run (cs.map Action.worker)).shared[
            ((World.init N m0).run as).shared.length]? = some (some (f m1).2) := by
    intro bs g hs2
    have hinvb := inv_run hinv1 bs
    obtain ⟨w2, hsub2, hw2, ht2⟩ := tracked_submit g hs2
    have hinv2 : w2.Inv := hw2 ▸ inv_step hinvb _
    have htf : w2.Tracked ((World.init N m0).run as).shared.length f :=
      hw2 ▸ tracked_step hinvb _ (tracked_run hinv1 bs ht)
    refine ⟨w2, _, hsub2, ?_⟩
    intro ds
    have hinvd := inv_run hinv2 ds
    obtain ⟨cs1, m1, hd1⟩ := tracked_completes hinvd (tracked_run hinv2 ds ht2)
    have hinv3 := inv_run hinvd (cs1.map Action.worker)
    obtain ⟨cs2, m2, hd2⟩ :=
      tracked_completes hinv3 (tracked_run hinvd _ (tracked_run hinv2 ds htf))
    have hd1' := shared_stable_run hinv3 (cs2.map Action.worker) _ _ hd1
    refine ⟨cs1 ++ cs2, m1, m2, ?_, ?_⟩
    · rw [map_worker_append, run_append]
      exact hd1'
    · rw [map_worker_append, run_append]
      exact hd2
  refine ⟨w1, _, hsub, rfl, ?_, ?_, ?_, ?_, hstep, ?_, ?_⟩
  · intro bs
    rcases origin_run bs hinv1 ht hpend with hu | ⟨bs1, i, bs2, t, e, hi, hh, hc, hd⟩
    · exact Or.inl (get_valid_unset hu)
    · exact Or.inr ⟨bs1, i, bs2, t, e, hi, hh, hc, get_valid_outcome hd⟩
  · intro bs
    obtain ⟨cs, m, hd⟩ := tracked_completes (inv_run hinv1 bs) (tracked_run hinv1 bs ht)
    exact ⟨cs, m, get_valid_outcome hd⟩
  · intro sched hfair
    obtain ⟨T, m, hd⟩ := fair_completes hinv1 (hlen ▸ hfair) ht
    rcases origin_runN hinv1 ht hpend sched T with hu | ⟨T', i, t, hlt, hsc, hi, hh, hc, hd'⟩
    · rw [hu] at hd
      cases hd
    · exact ⟨T, T', i, t, hlt, hsc, hi, hh, hc, get_valid_outcome hd'⟩
  · intro bs i
    exact (inv_run hinv1 bs).not_aborted i
  · intro bs g hs2
    obtain ⟨w2, fut2, hsub2, hall⟩ := hlater bs g hs2
    refine ⟨w2, fut2, hsub2, ?_⟩
    intro ds
    obtain ⟨cs, m2, m1, h2, h1⟩ := hall ds
    have e2 : fut2 = { handle := fut2.handle, valid := true } := by
      have := tracked_submit g hs2
      obtain ⟨w2', hsub2', _, _⟩ := this
      rw [hsub2] at hsub2'
      injection hsub2' with hsub2'
      injection hsub2' with _ hfut
      rw [hfut]
    refine ⟨cs, m2, m1, ?_, get_valid_outcome h1⟩
    rw [e2]
    exact get_valid_outcome h2
  · intro e hf
    refine ⟨?_, ?_, ?_, ?_, ?_⟩
    · intro bs
      rcases tracked_pending_or_done (inv_run hinv1 bs) (tracked_run hinv1 bs ht)
        with hu | ⟨m, hd⟩
      · exact Or.inl (get_valid_unset hu)
      · rw [hf] at hd
        exact Or.inr (by rw [get_valid_failure hd])
    · intro bs
      obtain ⟨cs, m, hd⟩ := tracked_completes (inv_run hinv1 bs) (tracked_run hinv1 bs ht)
      rw [hf] at hd
      exact ⟨cs, by rw [get_valid_failure hd]⟩
    · intro sched hfair
      obtain ⟨T, m, hd⟩ := fair_completes hinv1 (hlen ▸ hfair) ht
      rw [hf] at hd
      exact ⟨T, by rw [get_valid_failure hd]⟩
    · intro bs i t hi hh
      rw [← hf (w1.run bs).memory]
      exact (hstep bs i t hi hh).2.1
    · intro bs g v hg hs2
      obtain ⟨w2, fut2, hsub2, hall⟩ := hlater bs g hs2
      refine ⟨w2, fut2, hsub2, ?_⟩
      intro ds
      obtain ⟨cs, m2, m1, h2, h1⟩ := hall ds
      have e2 : fut2 = { handle := fut2.handle, valid := true } := by
        have := tracked_submit g hs2
        obtain ⟨w2', hsub2', _, _⟩ := this
        rw [hsub2] at hsub2'
        injection hsub2' with hsub2'
        injection hsub2' with _ hfut
        rw [hfut]
      rw [hg] at h2
      rw [hf] at h1
      refine ⟨cs, ?_, by rw [get_valid_failure h1]⟩
      rw [e2, get_valid_value h2]

/-- Witness of C6: a task raising `std::runtime_error` followed by a task returning 7, on one
worker; the first future rethrows the error, the second returns 7. -/
theorem failure_captured_in_handle_witness :
    ((World.init 1 () : World Unit Exception Int).run []).pool.stopping = false ∧
    (Future.get { handle := 0, valid := true }
      ((World.init 1 () : World Unit Exception Int).run
        [Action.submit throwsError, Action.submit (fun m => (m, Outcome.value 7)),
          Action.worker 0, Action.worker 0, Action.worker 0, Action.worker 0])).1
      = GetResult.raised Exception.runtime_error ∧
    (Future.get { handle := 1, valid := true }
      ((World.init 1 () : World Unit Exception Int).run
        [Action.submit throwsError, Action.submit (fun m => (m, Outcome.value 7)),
          Action.worker 0, Action.worker 0, Action.worker 0, Action.worker 0])).1
      = GetResult.returned 7 ∧
    ∃ (w1 : World Unit Exception Int) (fut : Future),
      ((World.init 1 ()).run []).submit throwsError = Except.ok (w1, fut) ∧
      (∀ bs, ∃ cs : List Nat,
        (fut.get ((w1.run bs).run (cs.map Action.worker))).1
          = GetResult.raised Exception.runtime_error) ∧
      ∀ bs (i : Nat), (w1.run bs).pool.workers[i]? ≠ some Worker.aborted :=
  ⟨rfl, by decide, by decide,
    match failure_captured_in_handle 1 () [] throwsError rfl with
    | ⟨w1, fut, h1, _, _, _, _, h6, _, _, h9⟩ =>
      ⟨w1, fut, h1, (h9 Exception.runtime_error (fun _ => rfl)).2.1, h6⟩⟩

/-- C9, counterexample: in test ExecutesSubmittedTasks the future returned by `submit` is
`std::future` number 0; once the task has completed the first `get` returns 42, and a second `get`
on the same future finds no shared state, so it does not return what the first call returned. -/
theorem get_twice_loses_outcome :
    ((World.init 2 () : World Unit Unit Int).submit returns42).toOption.map Prod.snd
      = some { handle := 0, valid := true } ∧
    (Future.get { handle := 0, valid := true } completedWorld).1 = GetResult.returned 42 ∧
    ((Future.get { handle := 0, valid := true } completedWorld).2.get completedWorld).1
      = GetResult.no_state ∧
    ((Future.get { handle := 0, valid := true } completedWorld).2.get completedWorld).1
      ≠ (Future.get { handle := 0, valid := true } completedWorld).1 := by
  refine ⟨rfl, rfl, rfl, ?_⟩
  decide

/-- C9, amended: once the shared state of a handle holds an outcome it holds the same outcome in
every later state; the first `get` on the valid future of that handle returns exactly this outcome
whenever it is called, and leaves the future invalid, so that any further `get` on it finds no
shared state. -/
theorem outcome_written_once (N : Nat) (m0 : σ) (as bs : List (Action σ ε α)) (h : Nat)
    (o : Outcome ε α) (ho : ((World.init N m0).run as).shared[h]? = some (some o)) :
    (((World.init N m0).run as).run bs).shared[h]? = some (some o) ∧
    (Future.get { handle := h, valid := true } (((World.init N m0).run as).run bs)).1
      = GetResult.ofOutcome o ∧
    (Future.get { handle := h, valid := true } (((World.init N m0).run as).run bs)).2.valid
      = false ∧
    ∀ w : World σ ε α,
      ((Future.get { handle := h, valid := true } (((World.init N m0).run as).run bs)).2.get w).1
        = GetResult.no_state := by
  have hw := inv_run (inv_init N m0 : (World.init N m0 : World σ ε α).Inv) as
  have hst := shared_stable_run hw bs h o ho
  cases o with
  | value a =>
    rw [get_valid_value hst]
    exact ⟨hst, rfl, rfl, fun w => by simp [Future.get]⟩
  | failure e =>
    rw [get_valid_failure hst]
    exact ⟨hst, rfl, rfl, fun w => by simp [Future.get]⟩

/-- Witness of C9 as amended: the outcome 42 of test ExecutesSubmittedTasks is still what the
first `get` returns after further submissions, worker steps and `shutdown`. -/
theorem outcome_written_once_witness :
    ((World.init 2 () : World Unit Unit Int).run
      [Action.submit returns42, Action.worker 0, Action.worker 0]).shared[0]?
      = some (some (Outcome.value 42)) ∧
    (Future.get { handle := 0, valid := true }
      (((World.init 2 () : World Unit Unit Int).run
        [Action.submit returns42, Action.worker 0, Action.worker 0]).run
        [Action.submit boundAdd, Action.worker 1, Action.shutdown, Action.worker 1])).1
      = GetResult.ofOutcome (Outcome.value 42) :=
  ⟨rfl,
    (outcome_written_once 2 () [Action.submit returns42, Action.worker 0, Action.worker 0]
      [Action.submit boundAdd, Action.worker 1, Action.shutdown, Action.worker 1] 0
      (Outcome.value 42) rfl).2.1⟩

end ThreadPoolTheorems

/-! ## Theorems: matrix inverse -/

section MatrixTheorems

open Numerics

variable {K : Type}

theorem foldl_range_invariant {S : Type} (P : Nat → S → Prop) (f : S → Nat → S) (s0 : S)
    (k : Nat) (h0 : P 0 s0) (hstep : ∀ j s, j < k → P j s → P (j + 1) (f s j)) :
    P k ((List.range k).foldl f s0) := by
  induction k with
  | zero => simpa using h0
  | succ k ih =>
    rw [List.range_succ, List.foldl_append]
    exact hstep k _ (Nat.lt_succ_self k)
      (ih (fun j s hj hP => hstep j s (Nat.lt_succ_of_lt hj) hP))

theorem foldl_preserves {A B : Type} (P : A → Prop) (f : A → B → A)
    (hf : ∀ a b, P a → P (f a b)) (l : List B) (a : A) (ha : P a) : P (l.foldl f a) := by
  induction l generalizing a with
  | nil => exact ha
  | cons b l ih => exact ih (f a b) (hf a b ha)

theorem foldl_pair {A B : Type} (f : A → Nat → A) (g : B → Nat → B) (l : List Nat) (a : A) (b : B) :
    l.foldl (fun (s : A × B) j => (f s.1 j, g s.2 j)) (a, b) = (l.foldl f a, l.foldl g b) := by
  induction l generalizing a b with
  | nil => rfl
  | cons x l ih => exact ih _ _

theorem index_inj {n r c r' c' : Nat} (hc : c < n) (hc' : c' < n)
    (h : r * n + c = r' * n + c') : r = r' ∧ c = c' := by
  have h1 : (r * n + c) / n = r := by
    rw [Nat.mul_comm, Nat.mul_add_div (by omega), Nat.div_eq_of_lt hc, Nat.add_zero]
  have h2 : (r' * n + c') / n = r' := by
    rw [Nat.mul_comm, Nat.mul_add_div (by omega), Nat.div_eq_of_lt hc', Nat.add_zero]
  have hr : r = r' := by rw [← h1, h, h2]
  subst hr
  exact ⟨rfl, by omega⟩

theorem index_lt {n r c : Nat} (hr : r < n) (hc : c < n) : r * n + c < n * n := by
  have : r * n + n ≤ n * n := by
    calc r * n + n = (r + 1) * n := by ring
      _ ≤ n * n := Nat.mul_le_mul_right n hr
  omega

theorem isSquare_set {n : Nat} {m : Matrix K} (hm : m.IsSquare n) (r c : Nat) (v : K) :
    (m.set r c v).IsSquare n := by
  obtain ⟨h1, h2, h3⟩ := hm
  exact ⟨h1, h2, by simp [Matrix.set, h3]⟩

theorem get_set [Zero K] {n : Nat} {m : Matrix K} (hm : m.IsSquare n) {r c r' c' : Nat}
    (hr : r < n) (hc : c < n) (hc' : c' < n) (v : K) :
    (m.set r c v).get r' c' = if r = r' ∧ c = c' then v else m.get r' c' := by
  obtain ⟨h1, h2, h3, _⟩ := hm
  have hlt : r * n + c < m.data_.length := h3 ▸ index_lt hr hc
  simp only [Matrix.get, Matrix.set, Matrix.index, h2, List.getD_eq_getElem?_getD,
    List.getElem?_set, if_pos hlt]
  by_cases h : r * n + c = r' * n + c'
  · rw [if_pos h, if_pos (index_inj hc hc' h)]
    rfl
  · rw [if_neg h, if_neg]
    rintro ⟨rfl, rfl⟩
    exact h rfl

theorem rowLoop_spec [Zero K] {n : Nat} (φ : K → K → K) {m : Matrix K} (hm : m.IsSquare n)
    {r : Nat} (i : Nat) (hr : r < n) (k : Nat) (hk : k ≤ n) :
    ((List.range k).foldl (fun a col => a.set r col (φ (a.get r col) (a.get i col))) m).IsSquare n ∧
    ∀ r' c', c' < n →
      ((List.range k).foldl (fun a col => a.set r col (φ (a.get r col) (a.get i col))) m).get r' c'
        = if r' = r ∧ c' < k then φ (m.get r c') (m.get i c') else m.get r' c' := by
  refine foldl_range_invariant
    (fun j (a : Matrix K) => a.IsSquare n ∧ ∀ r' c', c' < n →
      a.get r' c' = if r' = r ∧ c' < j then φ (m.get r c') (m.get i c') else m.get r' c')
    _ m k ⟨hm, fun r' c' _ => by simp⟩ ?_
  rintro j a hj ⟨ha, hent⟩
  have hjn : j < n := by omega
  refine ⟨isSquare_set ha _ _ _, ?_⟩
  intro r' c' hc'
  rw [get_set ha hr hjn hc', hent r j hjn, hent i j hjn, hent r' c' hc']
  have e1 : ¬ (r = r ∧ j < j) := by omega
  have e2 : ¬ (i = r ∧ j < j) := by omega
  rw [if_neg e1, if_neg e2]
  by_cases h1 : r = r' ∧ j = c'
  · obtain ⟨rfl, rfl⟩ := h1
    simp
  · rw [if_neg h1]
    by_cases h2 : r' = r ∧ c' < j
    · rw [if_pos h2, if_pos ⟨h2.1, by omega⟩]
    · rw [if_neg h2, if_neg]
      rintro ⟨rfl, h3⟩
      have : c' ≠ j := fun h => h1 ⟨rfl, h.symm⟩
      exact h2 ⟨rfl, by omega⟩

theorem normalizeRow_spec [Zero K] [Div K] {n i : Nat} (pivot : K) {work inv : Matrix K}
    (hw : work.IsSquare n) (hv : inv.IsSquare n) (hi : i < n) :
    (Matrix.normalizeRow n i pivot work inv).1.IsSquare n ∧
    (Matrix.normalizeRow n i pivot work inv).2.IsSquare n ∧
    ∀ r c, c < n →
      (Matrix.normalizeRow n i pivot work inv).1.get r c
        = (if r = i then work.get i c / pivot else work.get r c) ∧
      (Matrix.normalizeRow n i pivot work inv).2.get r c
        = (if r = i then inv.get i c / pivot else inv.get r c) := by
  have e : Matrix.normalizeRow n i pivot work inv
      = ((List.range n).foldl (fun a col => a.set i col ((fun x _ => x / pivot) (a.get i col) (a.get i col))) work,
         (List.range n).foldl (fun a col => a.set i col ((fun x _ => x / pivot) (a.get i col) (a.get i col))) inv) := by
    unfold Matrix.normalizeRow
    exact foldl_pair (fun (a : Matrix K) col => a.set i col (a.get i col / pivot))
      (fun (a : Matrix K) col => a.set i col (a.get i col / pivot)) _ _ _
  rw [e]
  obtain ⟨h1, h2⟩ := rowLoop_spec (fun x _ => x / pivot) hw i hi n le_rfl
  obtain ⟨h3, h4⟩ := rowLoop_spec (fun x _ => x / pivot) hv i hi n le_rfl
  refine ⟨h1, h3, fun r c hc => ⟨?_, ?_⟩⟩
  · rw [h2 r c hc]
    simp [hc]
  · rw [h4 r c hc]
    simp [hc]

theorem eliminateRow_spec [Zero K] [Sub K] [Mul K] {n i row : Nat} (factor : K)
    {work inv : Matrix K} (hw : work.IsSquare n) (hv : inv.IsSquare n) (hrow : row < n) :
    (Matrix.eliminateRow n i row factor work inv).1.IsSquare n ∧
    (Matrix.eliminateRow n i row factor work inv).2.IsSquare n ∧
    ∀ r c, c < n →
      (Matrix.eliminateRow n i row factor work inv).1.get r c
        = (if r = row then work.get row c - factor * work.get i c else work.get r c) ∧
      (Matrix.eliminateRow n i row factor work inv).2.get r c
        = (if r = row then inv.get row c - factor * inv.get i c else inv.get r c) := by
  have e : Matrix.eliminateRow n i row factor work inv
      = ((List.range n).foldl (fun a col => a.set row col ((fun x y => x - factor * y) (a.get row col) (a.get i col))) work,
         (List.range n).foldl (fun a col => a.set row col ((fun x y => x - factor * y) (a.get row col) (a.get i col))) inv) := by
    unfold Matrix.eliminateRow
    exact foldl_pair (fun (a : Matrix K) col => a.set row col (a.get row col - factor * a.get i col))
      (fun (a : Matrix K) col => a.set row col (a.get row col - factor * a.get i col)) _ _ _
  rw [e]
  obtain ⟨h1, h2⟩ := rowLoop_spec (fun x y => x - factor * y) hw i hrow n le_rfl
  obtain ⟨h3, h4⟩ := rowLoop_spec (fun x y => x - factor * y) hv i hrow n le_rfl
  refine ⟨h1, h3, fun r c hc => ⟨?_, ?_⟩⟩
  · rw [h2 r c hc]
    simp [hc]
  · rw [h4 r c hc]
    simp [hc]

theorem swap_rows_spec [Zero K] {n : Nat} {m : Matrix K} (hm : m.IsSquare n) {left right : Nat}
    (hl : left < n) (hr : right < n) (hne : left ≠ right) :
    ∃ m', m.swap_rows left right = Except.ok m' ∧ m'.IsSquare n ∧
      ∀ r c, c < n → m'.get r c =
        if r = left then m.get right c else if r = right then m.get left c else m.get r c := by
  have hrows : m.rows_ = n := hm.1
  have hcols : m.cols_ = n := hm.2.1
  have hguard : ¬ (left ≥ m.rows_ ∨ right ≥ m.rows_) := by omega
  refine ⟨_, by rw [Matrix.swap_rows, if_neg hguard, if_neg hne], ?_⟩
  rw [hcols]
  have key := foldl_range_invariant
    (fun j (a : Matrix K) => a.IsSquare n ∧ ∀ r c, c < n →
      a.get r c = if c < j then
        (if r = left then m.get right c else if r = right then m.get left c else m.get r c)
        else m.get r c)
    (fun a col => (a.set left col (a.get right col)).set right col (a.get left col)) m n
    ⟨hm, fun r c _ => by simp⟩ ?_
  · refine ⟨key.1, fun r c hc => ?_⟩
    rw [key.2 r c hc, if_pos hc]
  · rintro j a hj ⟨ha, hent⟩
    refine ⟨isSquare_set (isSquare_set ha _ _ _) _ _ _, ?_⟩
    intro r c hc
    rw [get_set (isSquare_set ha _ _ _) hr hj hc, get_set ha hl hj hc,
      hent right j hj, hent left j hj, hent r c hc, if_neg (lt_irrefl j)]
    by_cases hcj : c = j
    · subst hcj
      by_cases h1 : r = left
      · subst h1
        simp [hne, hne.symm]
      · by_cases h2 : r = right
        · subst h2
          simp [h1]
        · simp [h1, h2, Ne.symm h1, Ne.symm h2]
    · have h3 : ¬ (right = r ∧ j = c) := fun h => hcj h.2.symm
      have h4 : ¬ (left = r ∧ j = c) := fun h => hcj h.2.symm
      rw [if_neg h3, if_neg h4]
      by_cases h5 : c < j
      · have h6 : c < j + 1 := by omega
        simp only [if_pos h5, if_pos h6]
      · have h6 : ¬ c < j + 1 := by omega
        simp only [if_neg h5, if_neg h6]

theorem identity_spec [Zero K] [One K] (n : Nat) (hn : n * n ≤ Matrix.SIZE_MAX) :
    (Matrix.identity n : Matrix K).IsSquare n ∧
    ∀ r c, c < n → (Matrix.identity n : Matrix K).get r c = if r = c then 1 else 0 := by
  have h0 : (Matrix.create n n (0 : K)).IsSquare n :=
    ⟨rfl, rfl, by
      simp only [Matrix.create, Matrix.resize, List.length_replicate]
      exact Nat.mod_eq_of_lt (Nat.lt_succ_of_le hn), hn⟩
  have hz : ∀ r c, (Matrix.create n n (0 : K)).get r c = 0 := by
    intro r c
    simp only [Matrix.get, Matrix.create, Matrix.resize, List.getD_eq_getElem?_getD,
      List.getElem?_replicate]
    split <;> rfl
  have key := foldl_range_invariant
    (fun j (a : Matrix K) => a.IsSquare n ∧ ∀ r c, c < n →
      a.get r c = if r = c ∧ r < j then 1 else 0)
    (fun a i => a.set i i 1) (Matrix.create n n (0 : K)) n
    ⟨h0, fun r c _ => by simp [hz]⟩ ?_
  · refine ⟨key.1, fun r c hc => ?_⟩
    rw [Matrix.identity, key.2 r c hc]
    by_cases h : r = c
    · subst h
      simp [hc]
    · simp [h]
  · rintro j a hj ⟨ha, hent⟩
    refine ⟨isSquare_set ha _ _ _, ?_⟩
    intro r c hc
    rw [get_set ha hj hj hc, hent r c hc]
    by_cases h1 : j = r ∧ j = c
    · obtain ⟨rfl, rfl⟩ := h1
      simp
    · rw [if_neg h1]
      by_cases h2 : r = c ∧ r < j
      · rw [if_pos h2, if_pos ⟨h2.1, by omega⟩]
      · rw [if_neg h2, if_neg]
        rintro ⟨rfl, h3⟩
        have : r ≠ j := fun h => h1 ⟨h.symm, h.symm⟩
        exact h2 ⟨rfl, by omega⟩

theorem findPivot_ge [Zero K] [DecidableEq K] (work : Matrix K) (n i fuel p0 : Nat) :
    p0 ≤ Matrix.findPivot work n i fuel p0 := by
  induction fuel generalizing p0 with
  | zero => exact le_rfl
  | succ fuel ih =>
    rw [Matrix.findPivot]
    split
    · exact le_trans (Nat.le_succ _) (ih _)
    · exact le_rfl

theorem findPivot_le [Zero K] [DecidableEq K] (work : Matrix K) (n i fuel p0 : Nat) (h : p0 ≤ n) :
    Matrix.findPivot work n i fuel p0 ≤ n := by
  induction fuel generalizing p0 with
  | zero => exact h
  | succ fuel ih =>
    rw [Matrix.findPivot]
    split
    · rename_i hc
      exact ih _ hc.1
    · exact h

theorem findPivot_nonzero [Zero K] [DecidableEq K] (work : Matrix K) (n i fuel p0 : Nat)
    (hfuel : n - p0 ≤ fuel) (hlt : Matrix.findPivot work n i fuel p0 < n) :
    work.get (Matrix.findPivot work n i fuel p0) i ≠ 0 := by
  induction fuel generalizing p0 with
  | zero =>
    rw [Matrix.findPivot] at hlt
    omega
  | succ fuel ih =>
    rw [Matrix.findPivot] at hlt ⊢
    split
    · rename_i hc
      rw [if_pos hc] at hlt
      exact ih _ (by omega) hlt
    · rename_i hc
      rw [if_neg hc] at hlt
      intro h0
      exact hc ⟨hlt, h0⟩

theorem findPivot_zero_before [Zero K] [DecidableEq K] (work : Matrix K) (n i fuel p0 : Nat) :
    ∀ r, p0 ≤ r → r < Matrix.findPivot work n i fuel p0 → work.get r i = 0 := by
  induction fuel generalizing p0 with
  | zero =>
    intro r h1 h2
    rw [Matrix.findPivot] at h2
    omega
  | succ fuel ih =>
    intro r h1 h2
    rw [Matrix.findPivot] at h2
    split at h2
    · rename_i hc
      rcases Nat.eq_or_lt_of_le h1 with rfl | h3
      · exact hc.2
      · exact ih _ r h3 h2
    · omega

theorem eliminateColumn_spec [Field K] [DecidableEq K] {n i : Nat} {work inv : Matrix K}
    (hw : work.IsSquare n) (hv : inv.IsSquare n) (hi : i < n) :
    (Matrix.eliminateColumn n i work inv).1.IsSquare n ∧
    (Matrix.eliminateColumn n i work inv).2.IsSquare n ∧
    ∀ r c, r < n → c < n →
      (Matrix.eliminateColumn n i work inv).1.get r c
        = (if r = i then work.get r c else work.get r c - work.get r i * work.get i c) ∧
      (Matrix.eliminateColumn n i work inv).2.get r c
        = (if r = i then inv.get r c else inv.get r c - work.get r i * inv.get i c) := by
  have key := foldl_range_invariant
    (fun j (s : Matrix K × Matrix K) => s.1.IsSquare n ∧ s.2.IsSquare n ∧ ∀ r c, c < n →
      s.1.get r c
        = (if r ≠ i ∧ r < j then work.get r c - work.get r i * work.get i c else work.get r c) ∧
      s.2.get r c
        = (if r ≠ i ∧ r < j then inv.get r c - work.get r i * inv.get i c else inv.get r c))
    (fun (s : Matrix K × Matrix K) row =>
      if row = i then s
      else
        let factor := s.1.get row i
        if factor = 0 then s
        else Matrix.eliminateRow n i row factor s.1 s.2)
    (work, inv) n ⟨hw, hv, fun r c _ => by simp⟩ ?_
  · refine ⟨key.1, key.2.1, fun r c hr hc => ?_⟩
    obtain ⟨h1, h2⟩ := key.2.2 r c hc
    rw [Matrix.eliminateColumn, h1, h2]
    by_cases h : r = i
    · simp [h]
    · simp [h, hr]
  · rintro j s hj ⟨hs1, hs2, hent⟩
    have hrow_i : ∀ c, c < n → s.1.get i c = work.get i c ∧ s.2.get i c = inv.get i c := by
      intro c hc
      obtain ⟨h1, h2⟩ := hent i c hc
      rw [h1, h2]
      simp
    have hrow_j : ∀ c, c < n → s.1.get j c = work.get j c ∧ s.2.get j c = inv.get j c := by
      intro c hc
      obtain ⟨h1, h2⟩ := hent j c hc
      rw [h1, h2]
      simp
    by_cases hji : j = i
    · simp only [if_pos hji]
      refine ⟨hs1, hs2, fun r c hc => ?_⟩
      obtain ⟨h1, h2⟩ := hent r c hc
      rw [h1, h2]
      have e : (r ≠ i ∧ r < j + 1) ↔ (r ≠ i ∧ r < j) := by
        constructor
        · rintro ⟨a, b⟩
          exact ⟨a, by omega⟩
        · rintro ⟨a, b⟩
          exact ⟨a, by omega⟩
      simp only [e]
      exact ⟨trivial, trivial⟩
    · simp only [if_neg hji]
      by_cases hf : s.1.get j i = 0
      · simp only [if_pos hf]
        refine ⟨hs1, hs2, fun r c hc => ?_⟩
        obtain ⟨h1, h2⟩ := hent r c hc
        rw [h1, h2]
        have hf' : work.get j i = 0 := by rw [← (hrow_j i hi).1]; exact hf
        by_cases hrj : r = j
        · subst hrj
          simp [hji, hf']
        · have e : (r ≠ i ∧ r < j + 1) ↔ (r ≠ i ∧ r < j) := by
            constructor
            · rintro ⟨a, b⟩
              exact ⟨a, by omega⟩
            · rintro ⟨a, b⟩
              exact ⟨a, by omega⟩
          simp only [e]
          exact ⟨trivial, trivial⟩
      · simp only [if_neg hf]
        obtain ⟨g1, g2, g3⟩ := eliminateRow_spec (i := i) (s.1.get j i) hs1 hs2 hj
        refine ⟨g1, g2, fun r c hc => ?_⟩
        obtain ⟨e1, e2⟩ := g3 r c hc
        rw [e1, e2]
        by_cases hrj : r = j
        · subst hrj
          rw [if_pos rfl, if_pos rfl, (hrow_j c hc).1, (hrow_j c hc).2, (hrow_j i hi).1,
            (hrow_i c hc).1, (hrow_i c hc).2]
          simp [hji]
        · rw [if_neg hrj, if_neg hrj]
          obtain ⟨h1, h2⟩ := hent r c hc
          rw [h1, h2]
          have e : (r ≠ i ∧ r < j + 1) ↔ (r ≠ i ∧ r < j) := by
            constructor
            · rintro ⟨a, b⟩
              exact ⟨a, by omega⟩
            · rintro ⟨a, b⟩
              exact ⟨a, by omega⟩
          simp only [e]
          exact ⟨trivial, trivial⟩

theorem inverseStep_spec [Field K] [DecidableEq K] {n i : Nat} {s s' : Matrix K × Matrix K}
    (hw : s.1.IsSquare n) (hv : s.2.IsSquare n) (hi : i < n)
    (h : Matrix.inverseStep n s i = Except.ok s') :
    s'.1.IsSquare n ∧ s'.2.IsSquare n ∧
    ∃ p, i ≤ p ∧ p < n ∧ s.1.get p i ≠ 0 ∧ (∀ r, i ≤ r → r < p → s.1.get r i = 0) ∧
      ∀ r c, r < n → c < n →
        s'.1.get r c =
          (if r = i then s.1.get p c / s.1.get p i
            else s.1.get (Equiv.swap p i r) c
              - s.1.get (Equiv.swap p i r) i * (s.1.get p c / s.1.get p i)) ∧
        s'.2.get r c =
          (if r = i then s.2.get p c / s.1.get p i
            else s.2.get (Equiv.swap p i r) c
              - s.1.get (Equiv.swap p i r) i * (s.2.get p c / s.1.get p i)) := by
  have hge := findPivot_ge s.1 n i (n - i) i
  have hle := findPivot_le s.1 n i (n - i) i (le_of_lt hi)
  have hzero := findPivot_zero_before s.1 n i (n - i) i
  generalize hp : Matrix.findPivot s.1 n i (n - i) i = p at hge hle hzero
  have hpn : p ≠ n := by
    intro hpn
    simp [Matrix.inverseStep, hp, hpn] at h
  have hlt : p < n := lt_of_le_of_ne hle hpn
  have hnz : s.1.get p i ≠ 0 := by
    have := findPivot_nonzero s.1 n i (n - i) i le_rfl (by rw [hp]; exact hlt)
    rwa [hp] at this
  -- the two matrices after the optional swap
  obtain ⟨W, V, hW, hV, hWe, hVe, hstep⟩ : ∃ W V : Matrix K, W.IsSquare n ∧ V.IsSquare n ∧
      (∀ r c, c < n → W.get r c = s.1.get (Equiv.swap p i r) c) ∧
      (∀ r c, c < n → V.get r c = s.2.get (Equiv.swap p i r) c) ∧
      (if W.get i i = 0 then Except.error Exception.invalid_argument
        else Except.ok (Matrix.eliminateColumn n i
          (Matrix.normalizeRow n i (W.get i i) W V).1
          (Matrix.normalizeRow n i (W.get i i) W V).2)) = Except.ok s' := by
    by_cases hpi : p = i
    · refine ⟨s.1, s.2, hw, hv, ?_, ?_, ?_⟩
      · intro r c _
        rw [hpi, Equiv.swap_self]
        rfl
      · intro r c _
        rw [hpi, Equiv.swap_self]
        rfl
      · have hin : i ≠ n := hpi ▸ hpn
        simpa [Matrix.inverseStep, hp, hpn, hpi, hin, bind, Except.bind, pure, Except.pure]
          using h
    · obtain ⟨W, hW1, hW2, hW3⟩ := swap_rows_spec hw hlt hi hpi
      obtain ⟨V, hV1, hV2, hV3⟩ := swap_rows_spec hv hlt hi hpi
      refine ⟨W, V, hW2, hV2, ?_, ?_, ?_⟩
      · intro r c hc
        rw [hW3 r c hc, Equiv.swap_apply_def]
        split_ifs <;> rfl
      · intro r c hc
        rw [hV3 r c hc, Equiv.swap_apply_def]
        split_ifs <;> rfl
      · simpa [Matrix.inverseStep, hp, hpn, hpi, hW1, hV1, bind, Except.bind, pure,
          Except.pure] using h
  have hpiv : W.get i i = s.1.get p i := by
    rw [hWe i i hi, Equiv.swap_apply_right]
  rw [if_neg (by rw [hpiv]; exact hnz)] at hstep
  injection hstep with hstep
  subst hstep
  obtain ⟨n1, n2, n3⟩ := normalizeRow_spec (W.get i i) hW hV hi
  obtain ⟨e1, e2, e3⟩ := eliminateColumn_spec n1 n2 hi
  refine ⟨e1, e2, p, hge, hlt, hnz, fun r hr1 hr2 => hzero r hr1 hr2, ?_⟩
  intro r c hr hc
  obtain ⟨g1, g2⟩ := e3 r c hr hc
  rw [g1, g2]
  have hWi : ∀ c, c < n → W.get i c = s.1.get p c := by
    intro c hc
    rw [hWe i c hc, Equiv.swap_apply_right]
  have hVi : ∀ c, c < n → V.get i c = s.2.get p c := by
    intro c hc
    rw [hVe i c hc, Equiv.swap_apply_right]
  by_cases hri : r = i
  · subst hri
    rw [if_pos rfl, if_pos rfl, if_pos rfl, if_pos rfl, (n3 r c hc).1, (n3 r c hc).2,
      if_pos rfl, if_pos rfl, hWi c hc, hVi c hc, hpiv]
    exact ⟨rfl, rfl⟩
  · rw [if_neg hri, if_neg hri, if_neg hri, if_neg hri, (n3 r c hc).1, (n3 r c hc).2,
      (n3 r i hi).1, (n3 i c hc).1, (n3 i c hc).2, if_neg hri, if_neg hri, if_neg hri,
      if_pos rfl, if_pos rfl, hWi c hc, hVi c hc, hpiv, hWe r c hc, hVe r c hc, hWe r i hi]
    exact ⟨rfl, rfl⟩

theorem foldlM_range_invariant {S E : Type} (P : Nat → S → Prop) (f : S → Nat → Except E S)
    (s0 : S) (k : Nat) (h0 : P 0 s0)
    (hstep : ∀ j s s', j < k → P j s → f s j = Except.ok s' → P (j + 1) s') :
    ∀ s, (List.range k).foldlM f s0 = Except.ok s → P k s := by
  induction k with
  | zero =>
    intro s hs
    simp only [List.range_zero, List.foldlM_nil, pure, Except.pure] at hs
    injection hs with hs
    exact hs ▸ h0
  | succ k ih =>
    intro s hs
    rw [List.range_succ, List.foldlM_append] at hs
    cases hmid : (List.range k).foldlM f s0 with
    | error e =>
      rw [hmid] at hs
      simp [bind, Except.bind] at hs
    | ok mid =>
      rw [hmid] at hs
      simp only [bind, Except.bind, List.foldlM_cons, List.foldlM_nil] at hs
      cases hlast : f mid k with
      | error e =>
        rw [hlast] at hs
        simp at hs
      | ok last =>
        rw [hlast] at hs
        simp only [pure, Except.pure] at hs
        injection hs with hs
        subst hs
        exact hstep k mid _ (Nat.lt_succ_self k)
          (ih (fun j s s' hj => hstep j s s' (Nat.lt_succ_of_lt hj)) mid hmid) hlast

theorem gaussJordan_init [Field K] {n : Nat} {m : Matrix K} (hm : m.IsSquare n) :
    Matrix.GaussJordan n m 0 (m, Matrix.identity n) := by
  obtain ⟨h1, h2⟩ := identity_spec (K := K) n hm.2.2.2
  refine ⟨hm, h1, ?_, fun r c _ hc => absurd hc (Nat.not_lt_zero c)⟩
  intro r c hr hc
  have : ∀ k ∈ Finset.range n,
      (Matrix.identity n : Matrix K).get r k * m.get k c = if r = k then m.get k c else 0 := by
    intro k hk
    rw [h2 r k (Finset.mem_range.mp hk)]
    split <;> simp
  rw [Finset.sum_congr rfl this, Finset.sum_ite_eq]
  simp [hr]

theorem gaussJordan_step [Field K] [DecidableEq K] {n j : Nat} {m : Matrix K}
    {s s' : Matrix K × Matrix K} (hj : j < n) (hs : Matrix.GaussJordan n m j s)
    (h : Matrix.inverseStep n s j = Except.ok s') : Matrix.GaussJordan n m (j + 1) s' := by
  obtain ⟨hw, hv, hprod, hcols⟩ := hs
  obtain ⟨hw', hv', p, hjp, hpn, hq, -, hent⟩ := inverseStep_spec hw hv hj h
  have hσ : ∀ r, r < n → Equiv.swap p j r < n := by
    intro r hr
    rw [Equiv.swap_apply_def]
    split_ifs <;> assumption
  refine ⟨hw', hv', ?_, ?_⟩
  · intro r c hr hc
    rw [(hent r c hr hc).1]
    by_cases hrj : r = j
    · rw [if_pos hrj, ← hprod p c hpn hc, Finset.sum_div]
      refine Finset.sum_congr rfl fun k hk => ?_
      rw [(hent r k hr (Finset.mem_range.mp hk)).2, if_pos hrj]
      ring
    · rw [if_neg hrj, ← hprod p c hpn hc, ← hprod _ c (hσ r hr) hc, Finset.sum_div,
        Finset.mul_sum, ← Finset.sum_sub_distrib]
      refine Finset.sum_congr rfl fun k hk => ?_
      rw [(hent r k hr (Finset.mem_range.mp hk)).2, if_neg hrj]
      ring
  · intro r c hr hc
    rw [(hent r c hr (by omega)).1]
    rcases Nat.lt_succ_iff_lt_or_eq.mp hc with hlt | rfl
    · have hpc : s.1.get p c = 0 := by
        rw [hcols p c hpn hlt, if_neg (by omega)]
      by_cases hrj : r = j
      · rw [if_pos hrj, hpc, zero_div, if_neg (by omega)]
      · rw [if_neg hrj, hpc, zero_div, mul_zero, sub_zero, hcols _ c (hσ r hr) hlt]
        have : (Equiv.swap p j r = c) ↔ (r = c) := by
          rw [Equiv.swap_apply_def]
          by_cases h1 : r = p
          · rw [if_pos h1]
            constructor <;> intro h3 <;> omega
          · rw [if_neg h1, if_neg hrj]
        simp only [this]
    · by_cases hrj : r = c
      · rw [if_pos hrj, if_pos hrj, div_self hq]
      · rw [if_neg hrj, if_neg hrj, div_self hq, mul_one, sub_self]

theorem inverse_loop [Field K] [DecidableEq K] {n : Nat} {M R : Matrix K} (hM : M.IsSquare n)
    (h : M.inverse = Except.ok R) :
    ∃ s : Matrix K × Matrix K,
      (List.range n).foldlM (Matrix.inverseStep n) (M, Matrix.identity n) = Except.ok s ∧
      s.2 = R := by
  have hrc : ¬ (M.rows_ ≠ M.cols_) := by
    rw [hM.1, hM.2.1]
    exact fun h => h rfl
  rw [Matrix.inverse, if_neg hrc] at h
  simp only [hM.1] at h
  cases hloop : (List.range n).foldlM (Matrix.inverseStep n) (M, Matrix.identity n) with
  | error e =>
    rw [hloop] at h
    cases h
  | ok s =>
    rw [hloop] at h
    injection h with h
    exact ⟨s, rfl, h⟩

/-- C10: over a field with exact arithmetic, when `inverse` returns `R` for a well-formed `n x n`
matrix `M`, then `R` is a well-formed `n x n` matrix and is the two-sided inverse of `M`. -/
theorem inverse_is_inverse [Field K] [DecidableEq K] (n : Nat) (M R : Numerics.Matrix K)
    (hM : M.IsSquare n) (h : M.inverse = Except.ok R) :
    R.rows_ = n ∧ R.cols_ = n ∧ R.data_.length = n * n ∧
    toSquare n M * toSquare n R = 1 ∧ toSquare n R * toSquare n M = 1 := by
  obtain ⟨s, hloop, rfl⟩ := inverse_loop hM h
  obtain ⟨hw, hv, hprod, hcols⟩ :=
    foldlM_range_invariant (Matrix.GaussJordan n M) (Matrix.inverseStep n) (M, Matrix.identity n) n
      (gaussJordan_init hM) (fun j s s' hj hs hstep => gaussJordan_step hj hs hstep) s hloop
  have hleft : toSquare n s.2 * toSquare n M = 1 := by
    ext r c
    rw [Matrix.mul_apply, Matrix.one_apply]
    have := hprod r.val c.val r.isLt c.isLt
    rw [hcols r.val c.val r.isLt c.isLt] at this
    rw [← Fin.sum_univ_eq_sum_range (fun k => s.2.get r.val k * M.get k c.val) n] at this
    simp only [toSquare, Matrix.of_apply]
    rw [this]
    simp only [Fin.ext_iff]
  exact ⟨hv.1, hv.2.1, hv.2.2.1, Matrix.mul_eq_one_comm.mp hleft, hleft⟩

/-- Witness of C10 on the matrices of test InverseHandlesValidAndInvalidMatrices, over the
rationals. -/
theorem inverse_is_inverse_witness :
    (Numerics.Matrix.mk 2 2 [(4 : ℚ), 7, 2, 6]).IsSquare 2 ∧
    (Numerics.Matrix.mk 2 2 [(4 : ℚ), 7, 2, 6]).inverse
      = Except.ok (Numerics.Matrix.mk 2 2 [3 / 5, -7 / 10, -1 / 5, 2 / 5]) ∧
    (toSquare 2 (Numerics.Matrix.mk 2 2 [(4 : ℚ), 7, 2, 6])
        * toSquare 2 (Numerics.Matrix.mk 2 2 [3 / 5, -7 / 10, -1 / 5, 2 / 5]) = 1 ∧
      toSquare 2 (Numerics.Matrix.mk 2 2 [3 / 5, -7 / 10, -1 / 5, 2 / 5])
        * toSquare 2 (Numerics.Matrix.mk 2 2 [(4 : ℚ), 7, 2, 6]) = 1) ∧
    (Numerics.Matrix.mk 2 2 [(0 : ℚ), 1, 2, 3]).inverse
      = Except.ok (Numerics.Matrix.mk 2 2 [-3 / 2, 1 / 2, 1, 0]) ∧
    (Numerics.Matrix.mk 2 2 [(1 : ℚ), 0, 0, 1]).inverse
      = Except.ok (Numerics.Matrix.mk 2 2 [1, 0, 0, 1]) :=
  ⟨⟨rfl, rfl, rfl, by decide⟩, by with_unfolding_all rfl,
    (inverse_is_inverse 2 (Numerics.Matrix.mk 2 2 [(4 : ℚ), 7, 2, 6])
      (Numerics.Matrix.mk 2 2 [3 / 5, -7 / 10, -1 / 5, 2 / 5]) ⟨rfl, rfl, rfl, by decide⟩
      (by with_unfolding_all rfl)).2.2.2,
    by with_unfolding_all rfl, by with_unfolding_all rfl⟩

end MatrixTheorems

/-! ## Theorems: failure of the matrix inverse -/

section InverseFailureTheorems

open Numerics

variable {K : Type}

theorem inverseStep_error [Field K] [DecidableEq K] {n i : Nat} {s : Matrix K × Matrix K}
    {e : Exception} (hw : s.1.IsSquare n) (hv : s.2.IsSquare n) (hi : i < n)
    (h : Matrix.inverseStep n s i = Except.error e) :
    e = Exception.invalid_argument ∧ ∀ r, i ≤ r → r < n → s.1.get r i = 0 := by
  have hle := findPivot_le s.1 n i (n - i) i (le_of_lt hi)
  have hzero := findPivot_zero_before s.1 n i (n - i) i
  have hnz := findPivot_nonzero s.1 n i (n - i) i le_rfl
  generalize hp : Matrix.findPivot s.1 n i (n - i) i = p at hle hzero hnz
  by_cases hpn : p = n
  · subst hpn
    refine ⟨?_, fun r h1 h2 => hzero r h1 h2⟩
    simp only [Matrix.inverseStep, hp, if_pos] at h
    injection h with h
    exact h.symm
  · exfalso
    have hlt : p < n := lt_of_le_of_ne hle hpn
    have hq := hnz hlt
    by_cases hpi : p = i
    · have hin : i ≠ n := hpi ▸ hpn
      rw [hpi] at hq
      simp [Matrix.inverseStep, hp, hpi, hin, hq, bind, Except.bind, pure, Except.pure] at h
    · obtain ⟨W, hW1, hW2, hW3⟩ := swap_rows_spec hw hlt hi hpi
      obtain ⟨V, hV1, hV2, hV3⟩ := swap_rows_spec hv hlt hi hpi
      have hpiv : W.get i i ≠ 0 := by
        rw [hW3 i i hi, if_neg (Ne.symm hpi), if_pos rfl]
        exact hq
      simp [Matrix.inverseStep, hp, hpn, hpi, hW1, hV1, hpiv, bind, Except.bind, pure,
        Except.pure] at h

theorem foldlM_range_error {S E : Type} (f : S → Nat → Except E S) (s0 : S) (k : Nat) (e : E)
    (h : (List.range k).foldlM f s0 = Except.error e) :
    ∃ j s, j < k ∧ (List.range j).foldlM f s0 = Except.ok s ∧ f s j = Except.error e := by
  induction k with
  | zero =>
    simp only [List.range_zero, List.foldlM_nil, pure, Except.pure] at h
    cases h
  | succ k ih =>
    rw [List.range_succ, List.foldlM_append] at h
    cases hmid : (List.range k).foldlM f s0 with
    | error e' =>
      rw [hmid] at h
      simp only [bind, Except.bind] at h
      injection h with h
      subst h
      obtain ⟨j, s, hj, h1, h2⟩ := ih hmid
      exact ⟨j, s, Nat.lt_succ_of_lt hj, h1, h2⟩
    | ok mid =>
      rw [hmid] at h
      simp only [bind, Except.bind, List.foldlM_cons, List.foldlM_nil] at h
      cases hlast : f mid k with
      | error e' =>
        rw [hlast] at h
        simp only at h
        injection h with h
        subst h
        exact ⟨k, mid, Nat.lt_succ_self k, hmid, hlast⟩
      | ok last =>
        rw [hlast] at h
        simp only [pure, Except.pure] at h
        cases h

theorem kernelIn_step [Field K] [DecidableEq K] {n j : Nat} {m : Matrix K}
    {s s' : Matrix K × Matrix K} (hj : j < n) (hs : Matrix.GaussJordan n m j s)
    (hk : Matrix.KernelIn n m s) (h : Matrix.inverseStep n s j = Except.ok s') :
    Matrix.KernelIn n m s' := by
  obtain ⟨hw, hv, -, -⟩ := hs
  obtain ⟨-, -, p, hjp, hpn, hq, -, hent⟩ := inverseStep_spec hw hv hj h
  intro v hv' r hr
  refine hk v ?_ r hr
  have hσ : ∀ r, r < n → Equiv.swap p j r < n := by
    intro r hr
    rw [Equiv.swap_apply_def]
    split_ifs <;> assumption
  have hrow_j : (∑ c in Finset.range n, s'.1.get j c * v c)
      = (∑ c in Finset.range n, s.1.get p c * v c) / s.1.get p j := by
    rw [Finset.sum_div]
    refine Finset.sum_congr rfl fun c hc => ?_
    rw [(hent j c hj (Finset.mem_range.mp hc)).1, if_pos rfl]
    ring
  have hp0 : (∑ c in Finset.range n, s.1.get p c * v c) = 0 := by
    have := hv' j hj
    rw [hrow_j, div_eq_zero_iff] at this
    exact this.resolve_right hq
  have hrow : ∀ r, r < n → r ≠ j → (∑ c in Finset.range n, s'.1.get r c * v c)
      = (∑ c in Finset.range n, s.1.get (Equiv.swap p j r) c * v c) := by
    intro r hr hrj
    have e : ∀ c ∈ Finset.range n, s'.1.get r c * v c
        = s.1.get (Equiv.swap p j r) c * v c
          - s.1.get (Equiv.swap p j r) j / s.1.get p j * (s.1.get p c * v c) := by
      intro c hc
      rw [(hent r c hr (Finset.mem_range.mp hc)).1, if_neg hrj]
      ring
    rw [Finset.sum_congr rfl e, Finset.sum_sub_distrib, ← Finset.mul_sum, hp0, mul_zero,
      sub_zero]
  intro r0 hr0
  by_cases h0 : r0 = p
  · rw [h0]
    exact hp0
  · have hne : Equiv.swap p j r0 ≠ j := by
      intro hc
      apply h0
      have := congrArg (Equiv.swap p j) hc
      rwa [Equiv.swap_apply_self, Equiv.swap_apply_right] at this
    have := hrow _ (hσ r0 hr0) hne
    rw [Equiv.swap_apply_self] at this
    rw [← this]
    exact hv' _ (hσ r0 hr0)

/-- The vector sent to zero by a working matrix whose column `j` has no pivot. -/
theorem kernel_vector [Field K] {n j : Nat} (hj : j < n) (work : Matrix K)
    (hcols : ∀ r c, r < n → c < j → work.get r c = if r = c then 1 else 0)
    (hzero : ∀ r, j ≤ r → r < n → work.get r j = 0) :
    ∀ r, r < n → (∑ c in Finset.range n,
      work.get r c * (if c < j then - work.get c j else if c = j then 1 else 0)) = 0 := by
  intro r hr
  have e : ∀ c ∈ Finset.range n,
      work.get r c * (if c < j then - work.get c j else if c = j then 1 else 0)
        = (if r = c then (if r < j then - work.get r j else 0) else 0)
          + (if j = c then work.get r j else 0) := by
    intro c hc
    by_cases h1 : c < j
    · rw [if_pos h1, hcols r c hr h1, if_neg (by omega : ¬ j = c), add_zero]
      by_cases h2 : r = c
      · subst h2
        rw [if_pos rfl, if_pos rfl, if_pos h1, one_mul]
      · rw [if_neg h2, if_neg h2, zero_mul]
    · rw [if_neg h1]
      by_cases h2 : c = j
      · subst h2
        rw [if_pos rfl, if_pos rfl, mul_one]
        by_cases h3 : r = c
        · subst h3
          rw [if_pos rfl, if_neg h1, zero_add]
        · rw [if_neg h3, zero_add]
      · rw [if_neg h2, if_neg (Ne.symm h2), mul_zero, add_zero]
        by_cases h3 : r = c
        · subst h3
          rw [if_pos rfl, if_neg h1]
        · rw [if_neg h3]
  rw [Finset.sum_congr rfl e, Finset.sum_add_distrib, Finset.sum_ite_eq, Finset.sum_ite_eq,
    if_pos (Finset.mem_range.mpr hr), if_pos (Finset.mem_range.mpr hj)]
  by_cases h1 : r < j
  · rw [if_pos h1, neg_add_cancel]
  · rw [if_neg h1, zero_add]
    exact hzero r (by omega) hr

theorem inverse_left_inverse [Field K] [DecidableEq K] {n : Nat} {M R : Matrix K}
    (hM : M.IsSquare n) (h : M.inverse = Except.ok R) : toSquare n R * toSquare n M = 1 := by
  obtain ⟨s, hloop, rfl⟩ := inverse_loop hM h
  obtain ⟨hw, hv, hprod, hcols⟩ :=
    foldlM_range_invariant (Matrix.GaussJordan n M) (Matrix.inverseStep n) (M, Matrix.identity n) n
      (gaussJordan_init hM) (fun j s s' hj hs hstep => gaussJordan_step hj hs hstep) s hloop
  ext r c
  rw [Matrix.mul_apply, Matrix.one_apply]
  have := hprod r.val c.val r.isLt c.isLt
  rw [hcols r.val c.val r.isLt c.isLt] at this
  rw [← Fin.sum_univ_eq_sum_range (fun k => s.2.get r.val k * M.get k c.val) n] at this
  simp only [toSquare, Matrix.of_apply]
  rw [this]
  simp only [Fin.ext_iff]

theorem inverse_error_singular [Field K] [DecidableEq K] {n : Nat} {M : Matrix K}
    {e : Exception} (hM : M.IsSquare n) (h : M.inverse = Except.error e) :
    e = Exception.invalid_argument ∧ (toSquare n M).det = 0 := by
  have hrc : ¬ (M.rows_ ≠ M.cols_) := by
    rw [hM.1, hM.2.1]
    exact fun h => h rfl
  rw [Matrix.inverse, if_neg hrc] at h
  simp only [hM.1] at h
  cases hloop : (List.range n).foldlM (Matrix.inverseStep n) (M, Matrix.identity n) with
  | ok s =>
    rw [hloop] at h
    cases h
  | error e' =>
    rw [hloop] at h
    injection h with h
    subst h
    obtain ⟨j, s, hj, hpre, hfail⟩ := foldlM_range_error _ _ _ _ hloop
    obtain ⟨hgj, hker⟩ :=
      foldlM_range_invariant
        (fun i s => Matrix.GaussJordan n M i s ∧ Matrix.KernelIn n M s)
        (Matrix.inverseStep n) (M, Matrix.identity n) j
        ⟨gaussJordan_init hM, fun v hv => hv⟩
        (fun i s s' hi hs hstep =>
          ⟨gaussJordan_step (lt_trans hi hj) hs.1 hstep,
            kernelIn_step (lt_trans hi hj) hs.1 hs.2 hstep⟩) s hpre
    obtain ⟨hw, hv, -, hcols⟩ := hgj
    obtain ⟨he, hzero⟩ := inverseStep_error hw hv hj hfail
    refine ⟨he, ?_⟩
    have hv0 := hker _ (kernel_vector hj s.1 hcols hzero)
    apply Matrix.exists_mulVec_eq_zero_iff.mp
    refine ⟨fun c : Fin n =>
      if c.val < j then - s.1.get c.val j else if c.val = j then 1 else 0, ?_, ?_⟩
    · intro hzero'
      have := congrFun hzero' ⟨j, hj⟩
      simp at this
    · ext r
      simp only [Matrix.mulVec, Matrix.dotProduct, toSquare, Matrix.of_apply, Pi.zero_apply]
      rw [Fin.sum_univ_eq_sum_range
        (fun c => M.get r.val c *
          (if c < j then - s.1.get c j else if c = j then 1 else 0)) n]
      exact hv0 r.val r.isLt

end InverseFailureTheorems

theorem det_eq_zero_iff_no_inverse {K : Type} [Field K] {n : Nat}
    (A : Matrix (Fin n) (Fin n) K) :
    A.det = 0 ↔ ¬ ∃ B : Matrix (Fin n) (Fin n) K, A * B = 1 := by
  constructor
  · rintro h0 ⟨B, hB⟩
    have := congrArg Matrix.det hB
    rw [Matrix.det_mul, h0, zero_mul, Matrix.det_one] at this
    exact zero_ne_one this
  · intro h
    by_contra hdet
    exact h ⟨A⁻¹, Matrix.mul_nonsing_inv A (isUnit_iff_ne_zero.mpr hdet)⟩

/-- C11: `inverse()` fails with `invalid_argument` for every matrix that is not square; for
an `n x n` matrix over a field it fails with `invalid_argument` exactly when the determinant is
zero, that is exactly when the matrix has no inverse, and it returns a result exactly when the
matrix has an inverse. -/
theorem inverse_fails_iff_singular {K : Type} [Field K] [DecidableEq K] (n : Nat)
    (M : Numerics.Matrix K) :
    (M.rows_ ≠ M.cols_ → M.inverse = Except.error Exception.invalid_argument) ∧
    (M.IsSquare n →
      (M.inverse = Except.error Exception.invalid_argument ↔ (toSquare n M).det = 0) ∧
      (M.inverse = Except.error Exception.invalid_argument ↔
        ¬ ∃ B : Matrix (Fin n) (Fin n) K, toSquare n M * B = 1) ∧
      ((∃ R, M.inverse = Except.ok R) ↔
        ∃ B : Matrix (Fin n) (Fin n) K, toSquare n M * B = 1)) := by
  refine ⟨?_, ?_⟩
  · intro h
    rw [Numerics.Matrix.inverse, if_pos h]
  · intro hM
    have hiff : M.inverse = Except.error Exception.invalid_argument ↔ (toSquare n M).det = 0 := by
      constructor
      · intro h
        exact (inverse_error_singular hM h).2
      · intro hdet
        cases h : M.inverse with
        | error e => rw [(inverse_error_singular hM h).1]
        | ok R =>
          exfalso
          have := congrArg Matrix.det (inverse_left_inverse hM h)
          rw [Matrix.det_mul, hdet, mul_zero, Matrix.det_one] at this
          exact zero_ne_one this
    refine ⟨hiff, hiff.trans (det_eq_zero_iff_no_inverse _), ?_⟩
    constructor
    · rintro ⟨R, hR⟩
      exact ⟨toSquare n R, Matrix.mul_eq_one_comm.mp (inverse_left_inverse hM hR)⟩
    · intro hB
      cases h : M.inverse with
      | ok R => exact ⟨R, rfl⟩
      | error e =>
        exfalso
        exact (det_eq_zero_iff_no_inverse _).mp (inverse_error_singular hM h).2 hB

/-- Witness of C11 on the rejected matrices of test InverseHandlesValidAndInvalidMatrices, over
the rationals: a `2 x 3` matrix, `[[1,2],[2,4]]` and `[[0,1],[0,2]]`. -/
theorem inverse_fails_iff_singular_witness :
    (Numerics.Matrix.mk 2 3 [(1 : ℚ), 1, 1, 1, 1, 1]).inverse
      = Except.error Exception.invalid_argument ∧
    (Numerics.Matrix.mk 2 2 [(1 : ℚ), 2, 2, 4]).inverse
      = Except.error Exception.invalid_argument ∧
    (toSquare 2 (Numerics.Matrix.mk 2 2 [(1 : ℚ), 2, 2, 4])).det = 0 ∧
    (Numerics.Matrix.mk 2 2 [(0 : ℚ), 1, 0, 2]).inverse
      = Except.error Exception.invalid_argument ∧
    (toSquare 2 (Numerics.Matrix.mk 2 2 [(0 : ℚ), 1, 0, 2])).det = 0 ∧
    (∃ B : Matrix (Fin 2) (Fin 2) ℚ,
      toSquare 2 (Numerics.Matrix.mk 2 2 [(4 : ℚ), 7, 2, 6]) * B = 1) :=
  ⟨(inverse_fails_iff_singular 2 (Numerics.Matrix.mk 2 3 [(1 : ℚ), 1, 1, 1, 1, 1])).1
      (by decide),
    by with_unfolding_all rfl,
    ((inverse_fails_iff_singular 2 (Numerics.Matrix.mk 2 2 [(1 : ℚ), 2, 2, 4])).2
      ⟨rfl, rfl, rfl, by decide⟩).1.mp (by with_unfolding_all rfl),
    by with_unfolding_all rfl,
    ((inverse_fails_iff_singular 2 (Numerics.Matrix.mk 2 2 [(0 : ℚ), 1, 0, 2])).2
      ⟨rfl, rfl, rfl, by decide⟩).1.mp (by with_unfolding_all rfl),
    ((inverse_fails_iff_singular 2 (Numerics.Matrix.mk 2 2 [(4 : ℚ), 7, 2, 6])).2
      ⟨rfl, rfl, rfl, by decide⟩).2.2.mp
      ⟨Numerics.Matrix.mk 2 2 [3 / 5, -7 / 10, -1 / 5, 2 / 5], by with_unfolding_all rfl⟩⟩


/-! ## Theorems: fractions -/

section FractionTheorems
open Numerics

theorem checkedInt_of_range {x : Int} (h1 : INT_MIN ≤ x) (h2 : x ≤ INT_MAX) :
    checkedInt x = some x := by
  simp [checkedInt, h1, h2]

theorem checkedInt_eq_some {x y : Int} (h : checkedInt x = some y) :
    y = x ∧ INT_MIN ≤ x ∧ x ≤ INT_MAX := by
  unfold checkedInt at h
  split at h
  · rename_i hr
    injection h with h
    exact ⟨h.symm, hr⟩
  · cases h

theorem gcdLoop_spec (fuel : Nat) : ∀ x y : Nat, y ≤ fuel →
    Fraction.gcdLoop fuel (x : Int) (y : Int) = (Nat.gcd x y : Int) := by
  induction fuel with
  | zero =>
    intro x y hy
    have : y = 0 := by omega
    subst this
    simp [Fraction.gcdLoop]
  | succ fuel ih =>
    intro x y hy
    rw [Fraction.gcdLoop]
    by_cases h0 : y = 0
    · subst h0
      simp
    · have hne : (y : Int) ≠ 0 := by exact_mod_cast h0
      rw [if_pos hne]
      have hmod : (x : Int).tmod (y : Int) = ((x % y : Nat) : Int) := by
        rw [Int.tmod_eq_emod (Int.natCast_nonneg x) (Int.natCast_nonneg y)]
        norm_cast
      have hlt : x % y < y := Nat.mod_lt _ (Nat.pos_of_ne_zero h0)
      rw [hmod, ih y (x % y) (by omega), Nat.gcd_comm y (x % y), ← Nat.gcd_rec, Nat.gcd_comm]

theorem normalize_pos (n d : Int) (hd : 0 < d) (hn1 : INT_MIN < n) (hn2 : n ≤ INT_MAX)
    (hd2 : d ≤ INT_MAX) :
    (do
      let a ← checkedInt |n|
      let b ← checkedInt |d|
      let a := Fraction.gcdLoop b.toNat a b
      if a = 0 then none
      else do
        let num ← checkedInt (n.tdiv a)
        let denom ← checkedInt (d.tdiv a)
        pure ({ num := num, denom := denom } : Fraction))
      = some { num := n / (Int.gcd n d : Int), denom := d / (Int.gcd n d : Int) } := by
  have hmin : INT_MIN = -2147483648 := rfl
  have hmax : INT_MAX = 2147483647 := rfl
  have habs_n : checkedInt |n| = some |n| :=
    checkedInt_of_range (by rw [hmin]; have := abs_nonneg n; omega)
      (by rw [hmax]; rw [hmin] at hn1; rw [hmax] at hn2; exact abs_le.mpr ⟨by omega, hn2⟩)
  have habs_d : checkedInt |d| = some d := by
    rw [abs_of_pos hd]
    exact checkedInt_of_range (by rw [hmin]; omega) hd2
  have hloop : Fraction.gcdLoop d.toNat |n| d = (Int.gcd n d : Int) := by
    have e1 : |n| = ((n.natAbs : Nat) : Int) := (Int.natCast_natAbs n).symm
    have e2 : d = ((d.toNat : Nat) : Int) := (Int.toNat_of_nonneg (le_of_lt hd)).symm
    have e3 : d.natAbs = d.toNat := by omega
    rw [e1]
    conv_lhs => rw [e2]
    rw [Int.toNat_ofNat, gcdLoop_spec _ _ _ le_rfl, Int.gcd, e3]
  have hgpos : 0 < (Int.gcd n d : Int) := by
    have : 0 < Int.gcd n d := Int.gcd_pos_of_ne_zero_right n (ne_of_gt hd)
    exact_mod_cast this
  have hgn : (Int.gcd n d : Int) ∣ n := Int.gcd_dvd_left
  have hgd : (Int.gcd n d : Int) ∣ d := Int.gcd_dvd_right
  have hqn : INT_MIN ≤ n / (Int.gcd n d : Int) ∧ n / (Int.gcd n d : Int) ≤ INT_MAX := by
    obtain ⟨k, hk⟩ := hgn
    have hkq : n / (Int.gcd n d : Int) = k :=
      Int.ediv_eq_of_eq_mul_right (ne_of_gt hgpos) hk
    rw [hkq, hmin, hmax]
    rw [hmin] at hn1
    rw [hmax] at hn2
    constructor <;> nlinarith
  have hqd : INT_MIN ≤ d / (Int.gcd n d : Int) ∧ d / (Int.gcd n d : Int) ≤ INT_MAX := by
    obtain ⟨k, hk⟩ := hgd
    have hkq : d / (Int.gcd n d : Int) = k :=
      Int.ediv_eq_of_eq_mul_right (ne_of_gt hgpos) hk
    rw [hkq, hmin, hmax]
    rw [hmax] at hd2
    constructor <;> nlinarith
  simp only [habs_n, habs_d, Option.bind_eq_bind, Option.some_bind, hloop,
    if_neg (ne_of_gt hgpos), Int.tdiv_eq_ediv_of_dvd hgn, Int.tdiv_eq_ediv_of_dvd hgd,
    checkedInt_of_range hqn.1 hqn.2, checkedInt_of_range hqd.1 hqd.2]
  rfl

theorem reduced_facts (n d : Int) (hd : 0 < d) :
    0 < d / (Int.gcd n d : Int) ∧
    Int.gcd (n / (Int.gcd n d : Int)) (d / (Int.gcd n d : Int)) = 1 ∧
    ((n / (Int.gcd n d : Int) : Int) : ℚ) / ((d / (Int.gcd n d : Int) : Int) : ℚ)
      = (n : ℚ) / (d : ℚ) := by
  have hg : 0 < Int.gcd n d := Int.gcd_pos_of_ne_zero_right n (ne_of_gt hd)
  have hgpos : 0 < (Int.gcd n d : Int) := by exact_mod_cast hg
  have hgq : ((Int.gcd n d : Int) : ℚ) ≠ 0 := by exact_mod_cast (ne_of_gt hgpos)
  have hdq : (d : ℚ) ≠ 0 := by exact_mod_cast (ne_of_gt hd)
  refine ⟨Int.ediv_pos_of_pos_of_dvd hd (le_of_lt hgpos) Int.gcd_dvd_right,
    Int.gcd_div_gcd_div_gcd hg, ?_⟩
  rw [Int.cast_div Int.gcd_dvd_left hgq, Int.cast_div Int.gcd_dvd_right hgq]
  field_simp

/-- C12: `normalize` on a fraction `num/denom` with `denom != 0`, neither member being the
least `int` (whose negation and absolute value overflow), returns, and it leaves a fraction in
reduced form: the denominator is strictly positive, the greatest common divisor of the absolute
value of the numerator and the denominator is 1, and the rational value is the one before. -/
theorem normalize_reduces (f : Fraction) (hd : f.denom ≠ 0)
    (hn : INT_MIN < f.num ∧ f.num ≤ INT_MAX) (hden : INT_MIN < f.denom ∧ f.denom ≤ INT_MAX) :
    ∃ g : Fraction, f.normalize = some g ∧ 0 < g.denom ∧ Int.gcd g.num g.denom = 1 ∧
      g.toRat = f.toRat := by
  have hmin : INT_MIN = -2147483648 := rfl
  have hmax : INT_MAX = 2147483647 := rfl
  rcases lt_or_gt_of_ne hd with hneg | hpos
  · have h1 : checkedInt (-f.num) = some (-f.num) :=
      checkedInt_of_range (by rw [hmin]; rw [hmax] at hn; omega)
        (by rw [hmax]; rw [hmin] at hn; omega)
    have h2 : checkedInt (-f.denom) = some (-f.denom) :=
      checkedInt_of_range (by rw [hmin]; omega) (by rw [hmax]; rw [hmin] at hden; omega)
    have hcore := normalize_pos (-f.num) (-f.denom) (by omega)
      (by rw [hmin]; rw [hmax] at hn; omega) (by rw [hmax]; rw [hmin] at hn; omega)
      (by rw [hmax]; rw [hmin] at hden; omega)
    obtain ⟨r1, r2, r3⟩ := reduced_facts (-f.num) (-f.denom) (by omega)
    refine ⟨{ num := -f.num / (Int.gcd (-f.num) (-f.denom) : Int),
              denom := -f.denom / (Int.gcd (-f.num) (-f.denom) : Int) }, ?_, r1, r2, ?_⟩
    · simp only [Fraction.normalize, if_pos hneg, h1, h2, Option.bind_eq_bind, Option.some_bind,
        Option.pure_def]
      exact hcore
    · simp only [Fraction.toRat]
      rw [r3]
      push_cast
      rw [neg_div_neg_eq]
  · have hcore := normalize_pos f.num f.denom hpos hn.1 hn.2 hden.2
    obtain ⟨r1, r2, r3⟩ := reduced_facts f.num f.denom hpos
    refine ⟨{ num := f.num / (Int.gcd f.num f.denom : Int),
              denom := f.denom / (Int.gcd f.num f.denom : Int) }, ?_, r1, r2, ?_⟩
    · simp only [Fraction.normalize, if_neg (not_lt.mpr (le_of_lt hpos)), Option.bind_eq_bind,
        Option.some_bind, Option.pure_def]
      exact hcore
    · simp only [Fraction.toRat]
      rw [r3]

/-- When a member is the least `int`, `normalize` overflows: `-num`, `-denom` or `std::abs`
has no value. -/
theorem normalize_overflow (f : Fraction) (h : f.num = INT_MIN ∨ f.denom = INT_MIN) :
    f.normalize = none := by
  have hmin : INT_MIN = -2147483648 := rfl
  have hmax : INT_MAX = 2147483647 := rfl
  have hbig : ∀ x : Int, INT_MAX < x → checkedInt x = none := by
    intro x hx
    simp only [checkedInt]
    rw [if_neg]
    intro hc
    omega
  rcases h with h | h
  · by_cases hneg : f.denom < 0
    · simp [Fraction.normalize, hneg, h, hbig (-INT_MIN) (by rw [hmin, hmax]; decide)]
    · simp [Fraction.normalize, hneg, h, hbig |INT_MIN| (by rw [hmin, hmax]; decide)]
  · have hneg : f.denom < 0 := by rw [h, hmin]; decide
    simp only [Fraction.normalize, if_pos hneg, h, hbig (-INT_MIN) (by rw [hmin, hmax]; decide)]
    cases checkedInt (-f.num) <;> rfl

theorem add_eq_some {a b c : Fraction} (h : a.add b = some c) :
    c.num = a.num * b.denom + b.num * a.denom ∧ c.denom = a.denom * b.denom := by
  simp only [Fraction.add, Option.bind_eq_bind, Option.bind_eq_some, Option.pure_def,
    Option.some.injEq] at h
  obtain ⟨x, hx, y, hy, n, hn, d, hd, rfl⟩ := h
  rw [(checkedInt_eq_some hn).1, (checkedInt_eq_some hx).1, (checkedInt_eq_some hy).1,
    (checkedInt_eq_some hd).1]
  exact ⟨rfl, rfl⟩

theorem sub_eq_some {a b c : Fraction} (h : a.sub b = some c) :
    c.num = a.num * b.denom - b.num * a.denom ∧ c.denom = a.denom * b.denom := by
  simp only [Fraction.sub, Option.bind_eq_bind, Option.bind_eq_some, Option.pure_def,
    Option.some.injEq] at h
  obtain ⟨x, hx, y, hy, n, hn, d, hd, rfl⟩ := h
  rw [(checkedInt_eq_some hn).1, (checkedInt_eq_some hx).1, (checkedInt_eq_some hy).1,
    (checkedInt_eq_some hd).1]
  exact ⟨rfl, rfl⟩

theorem mul_eq_some {a b c : Fraction} (h : a.mul b = some c) :
    c.num = a.num * b.num ∧ c.denom = a.denom * b.denom := by
  simp only [Fraction.mul, Option.bind_eq_bind, Option.bind_eq_some, Option.pure_def,
    Option.some.injEq] at h
  obtain ⟨n, hn, d, hd, rfl⟩ := h
  rw [(checkedInt_eq_some hn).1, (checkedInt_eq_some hd).1]
  exact ⟨rfl, rfl⟩

theorem div_eq_some {a b c : Fraction} (h : a.div b = some c) :
    c.num = a.num * b.denom ∧ c.denom = a.denom * b.num := by
  simp only [Fraction.div, Option.bind_eq_bind, Option.bind_eq_some, Option.pure_def,
    Option.some.injEq] at h
  obtain ⟨n, hn, d, hd, rfl⟩ := h
  rw [(checkedInt_eq_some hn).1, (checkedInt_eq_some hd).1]
  exact ⟨rfl, rfl⟩

/-- C13: for fractions `a` and `b` with non-zero denominators (and `b` with a non-zero
numerator for the quotient), whenever `a + b`, `a - b`, `a * b`, `a / b` is computed without
overflow the result has a non-zero denominator and its rational value is the exact sum,
difference, product, quotient of the values of `a` and `b`; and each operator returns its result
as soon as none of its `int` operations overflows. -/
theorem arithmetic_exact (a b : Fraction) (ha : a.denom ≠ 0) (hb : b.denom ≠ 0) :
    (∀ c, a.add b = some c → c.denom ≠ 0 ∧ c.toRat = a.toRat + b.toRat) ∧
    (∀ c, a.sub b = some c → c.denom ≠ 0 ∧ c.toRat = a.toRat - b.toRat) ∧
    (∀ c, a.mul b = some c → c.denom ≠ 0 ∧ c.toRat = a.toRat * b.toRat) ∧
    (∀ c, b.num ≠ 0 → a.div b = some c → c.denom ≠ 0 ∧ c.toRat = a.toRat / b.toRat) ∧
    (checkedInt (a.num * b.denom) = some (a.num * b.denom) →
      checkedInt (b.num * a.denom) = some (b.num * a.denom) →
      checkedInt (a.denom * b.denom) = some (a.denom * b.denom) →
      (checkedInt (a.num * b.denom + b.num * a.denom)
          = some (a.num * b.denom + b.num * a.denom) →
        a.add b = some
          { num := a.num * b.denom + b.num * a.denom, denom := a.denom * b.denom }) ∧
      (checkedInt (a.num * b.denom - b.num * a.denom)
          = some (a.num * b.denom - b.num * a.denom) →
        a.sub b = some
          { num := a.num * b.denom - b.num * a.denom, denom := a.denom * b.denom })) ∧
    (checkedInt (a.num * b.num) = some (a.num * b.num) →
      checkedInt (a.denom * b.denom) = some (a.denom * b.denom) →
      a.mul b = some { num := a.num * b.num, denom := a.denom * b.denom }) ∧
    (checkedInt (a.num * b.denom) = some (a.num * b.denom) →
      checkedInt (a.denom * b.num) = some (a.denom * b.num) →
      a.div b = some { num := a.num * b.denom, denom := a.denom * b.num }) := by
  have haq : (a.denom : ℚ) ≠ 0 := by exact_mod_cast ha
  have hbq : (b.denom : ℚ) ≠ 0 := by exact_mod_cast hb
  refine ⟨?_, ?_, ?_, ?_, ?_, ?_, ?_⟩
  rotate_right 3
  · intro h1 h2 h3
    constructor
    · intro h4
      simp [Fraction.add, h1, h2, h3, h4]
    · intro h4
      simp [Fraction.sub, h1, h2, h3, h4]
  · intro h1 h2
    simp [Fraction.mul, h1, h2]
  · intro h1 h2
    simp [Fraction.div, h1, h2]
  · intro c h
    obtain ⟨h1, h2⟩ := add_eq_some h
    refine ⟨by rw [h2]; exact mul_ne_zero ha hb, ?_⟩
    simp only [Fraction.toRat, h1, h2]
    push_cast
    field_simp
  · intro c h
    obtain ⟨h1, h2⟩ := sub_eq_some h
    refine ⟨by rw [h2]; exact mul_ne_zero ha hb, ?_⟩
    simp only [Fraction.toRat, h1, h2]
    push_cast
    field_simp
    ring
  · intro c h
    obtain ⟨h1, h2⟩ := mul_eq_some h
    refine ⟨by rw [h2]; exact mul_ne_zero ha hb, ?_⟩
    simp only [Fraction.toRat, h1, h2]
    push_cast
    field_simp
  · intro c hn h
    have hnq : (b.num : ℚ) ≠ 0 := by exact_mod_cast hn
    obtain ⟨h1, h2⟩ := div_eq_some h
    refine ⟨by rw [h2]; exact mul_ne_zero ha hn, ?_⟩
    simp only [Fraction.toRat, h1, h2]
    push_cast
    field_simp

theorem cross_eq_some {a b : Fraction} {r : Bool} (h : a.eq b = some r) :
    r = decide (a.num * b.denom = b.num * a.denom) := by
  simp only [Fraction.eq, Option.bind_eq_bind, Option.bind_eq_some, Option.pure_def,
    Option.some.injEq] at h
  obtain ⟨x, hx, y, hy, rfl⟩ := h
  rw [(checkedInt_eq_some hx).1, (checkedInt_eq_some hy).1]

theorem cross_lt_some {a b : Fraction} {r : Bool} (h : a.lt b = some r) :
    r = decide (a.num * b.denom < b.num * a.denom) := by
  simp only [Fraction.lt, Option.bind_eq_bind, Option.bind_eq_some, Option.pure_def,
    Option.some.injEq] at h
  obtain ⟨x, hx, y, hy, rfl⟩ := h
  rw [(checkedInt_eq_some hx).1, (checkedInt_eq_some hy).1]

theorem toRat_eq_iff {a b : Fraction} (ha : a.denom ≠ 0) (hb : b.denom ≠ 0) :
    a.toRat = b.toRat ↔ a.num * b.denom = b.num * a.denom := by
  have haq : (a.denom : ℚ) ≠ 0 := by exact_mod_cast ha
  have hbq : (b.denom : ℚ) ≠ 0 := by exact_mod_cast hb
  simp only [Fraction.toRat]
  rw [div_eq_div_iff haq hbq]
  exact_mod_cast Iff.rfl

/-- C15: for fractions `a` and `b` with non-zero denominators, `a == b`, computed without
overflow, holds exactly when `a` and `b` have the same rational value, normalized or not;
`a != b` holds exactly when the values differ and is the negation of `a == b`; and both operators
return as soon as the two cross products do not overflow. -/
theorem equality_compares_values (a b : Fraction) (ha : a.denom ≠ 0) (hb : b.denom ≠ 0) :
    (∀ r, a.eq b = some r → (r = true ↔ a.toRat = b.toRat)) ∧
    (∀ r, a.ne b = some r → (r = true ↔ a.toRat ≠ b.toRat)) ∧
    (∀ r, a.ne b = some r → a.eq b = some (!r)) ∧
    (checkedInt (a.num * b.denom) = some (a.num * b.denom) →
      checkedInt (b.num * a.denom) = some (b.num * a.denom) →
      a.eq b = some (decide (a.num * b.denom = b.num * a.denom)) ∧
      a.ne b = some (!decide (a.num * b.denom = b.num * a.denom))) := by
  refine ⟨?_, ?_, ?_, ?_⟩
  rotate_right 1
  · intro h1 h2
    simp [Fraction.ne, Fraction.eq, h1, h2]
  · intro r h
    rw [cross_eq_some h, toRat_eq_iff ha hb]
    simp
  · intro r h
    simp only [Fraction.ne, Option.bind_eq_bind, Option.bind_eq_some, Option.pure_def,
      Option.some.injEq] at h
    obtain ⟨e, he, rfl⟩ := h
    rw [cross_eq_some he, Ne, toRat_eq_iff ha hb]
    simp
  · intro r h
    simp only [Fraction.ne, Option.bind_eq_bind, Option.bind_eq_some, Option.pure_def,
      Option.some.injEq] at h
    obtain ⟨e, he, rfl⟩ := h
    simpa using he

theorem toRat_lt_iff {a b : Fraction} (ha : 0 < a.denom) (hb : 0 < b.denom) :
    a.toRat < b.toRat ↔ a.num * b.denom < b.num * a.denom := by
  have haq : (0 : ℚ) < (a.denom : ℚ) := by exact_mod_cast ha
  have hbq : (0 : ℚ) < (b.denom : ℚ) := by exact_mod_cast hb
  simp only [Fraction.toRat]
  rw [div_lt_div_iff₀ haq hbq]
  exact_mod_cast Iff.rfl

/-- The ordering operators agree with the order of the rational values when both denominators
are positive. -/
theorem order_compares_values_of_pos (a b : Fraction) (ha : 0 < a.denom) (hb : 0 < b.denom) :
    (∀ r, a.lt b = some r → (r = true ↔ a.toRat < b.toRat)) ∧
    (∀ r, a.le b = some r → (r = true ↔ a.toRat ≤ b.toRat)) ∧
    (∀ r, a.gt b = some r → (r = true ↔ a.toRat > b.toRat)) ∧
    (∀ r, a.ge b = some r → (r = true ↔ a.toRat ≥ b.toRat)) := by
  have hlt : ∀ r, a.lt b = some r → (r = true ↔ a.toRat < b.toRat) := by
    intro r h
    rw [cross_lt_some h, toRat_lt_iff ha hb]
    simp
  have hle : ∀ r, a.le b = some r → (r = true ↔ a.toRat ≤ b.toRat) := by
    intro r h
    simp only [Fraction.le, Option.bind_eq_bind, Option.bind_eq_some] at h
    obtain ⟨l, hl, h⟩ := h
    have h1 := hlt l hl
    cases l with
    | true =>
      simp only [if_true, Option.pure_def, Option.some.injEq] at h
      subst h
      simp only [true_iff]
      exact le_of_lt (h1.mp rfl)
    | false =>
      simp only [Bool.false_eq_true, if_false] at h
      have h2 : ¬ a.toRat < b.toRat := fun hc => Bool.noConfusion (h1.mpr hc)
      have h3 := toRat_eq_iff (ne_of_gt ha) (ne_of_gt hb)
      rw [cross_eq_some h, decide_eq_true_eq, ← h3]
      constructor
      · exact fun he => le_of_eq he
      · exact fun hle => (lt_or_eq_of_le hle).resolve_left h2
  refine ⟨hlt, hle, ?_, ?_⟩
  · intro r h
    simp only [Fraction.gt, Option.bind_eq_bind, Option.bind_eq_some, Option.pure_def,
      Option.some.injEq] at h
    obtain ⟨l, hl, rfl⟩ := h
    have := hle l hl
    rw [gt_iff_lt, ← not_le, ← this]
    simp
  · intro r h
    simp only [Fraction.ge, Option.bind_eq_bind, Option.bind_eq_some, Option.pure_def,
      Option.some.injEq] at h
    obtain ⟨l, hl, rfl⟩ := h
    have := hlt l hl
    rw [ge_iff_le, ← not_lt, ← this]
    simp

/-- C14, failing input: the quotient of `1/2` by `-1/3` is the fraction `3/(-2)`, of value
`-3/2`; compared with `0/1` the operator `<` answers false and `>=` true (and so `<=` false and
`>` true), although `-3/2 < 0`. -/
theorem order_wrong_for_negative_denominator :
    Fraction.div { num := 1, denom := 2 } { num := -1, denom := 3 }
      = some { num := 3, denom := -2 } ∧
    Fraction.lt { num := 3, denom := -2 } { num := 0, denom := 1 } = some false ∧
    Fraction.le { num := 3, denom := -2 } { num := 0, denom := 1 } = some false ∧
    Fraction.gt { num := 3, denom := -2 } { num := 0, denom := 1 } = some true ∧
    Fraction.ge { num := 3, denom := -2 } { num := 0, denom := 1 } = some true ∧
    Fraction.toRat { num := 3, denom := -2 } < Fraction.toRat { num := 0, denom := 1 } := by
  refine ⟨by decide, by decide, by decide, by decide, by decide, ?_⟩
  norm_num [Fraction.toRat]

/-- Witness of C12 on the fractions of test NormalizesValues: `2/4` becomes `1/2` and `1/(-3)`
becomes `-1/3`. -/
theorem normalize_reduces_witness :
    Fraction.normalize { num := 2, denom := 4 } = some { num := 1, denom := 2 } ∧
    Fraction.normalize { num := 1, denom := -3 } = some { num := -1, denom := 3 } ∧
    (∃ g : Fraction, Fraction.normalize { num := 2, denom := 4 } = some g ∧ 0 < g.denom ∧
      Int.gcd g.num g.denom = 1 ∧ g.toRat = Fraction.toRat { num := 2, denom := 4 }) ∧
    (∃ g : Fraction, Fraction.normalize { num := 1, denom := -3 } = some g ∧ 0 < g.denom ∧
      Int.gcd g.num g.denom = 1 ∧ g.toRat = Fraction.toRat { num := 1, denom := -3 }) :=
  ⟨by decide, by decide,
    normalize_reduces { num := 2, denom := 4 } (by decide) (by decide) (by decide),
    normalize_reduces { num := 1, denom := -3 } (by decide) (by decide) (by decide)⟩

/-- Witness of C13 on the fractions of test ArithmeticOperations: `1/2` and `1/3` give `5/6`,
`1/6`, `1/6` and `3/2`. -/
theorem arithmetic_exact_witness :
    Fraction.add { num := 1, denom := 2 } { num := 1, denom := 3 }
      = some { num := 5, denom := 6 } ∧
    Fraction.toRat { num := 5, denom := 6 }
      = Fraction.toRat { num := 1, denom := 2 } + Fraction.toRat { num := 1, denom := 3 } ∧
    Fraction.sub { num := 1, denom := 2 } { num := 1, denom := 3 }
      = some { num := 1, denom := 6 } ∧
    (Fraction.mul { num := 1, denom := 2 } { num := 1, denom := 3 }).bind Fraction.normalize
      = some { num := 1, denom := 6 } ∧
    (Fraction.div { num := 1, denom := 2 } { num := 1, denom := 3 }).bind Fraction.normalize
      = some { num := 3, denom := 2 } ∧
    Fraction.toRat { num := 3, denom := 2 }
      = Fraction.toRat { num := 1, denom := 2 } / Fraction.toRat { num := 1, denom := 3 } :=
  ⟨by decide,
    ((arithmetic_exact { num := 1, denom := 2 } { num := 1, denom := 3 } (by decide)
      (by decide)).1 { num := 5, denom := 6 } (by decide)).2,
    by decide, by decide, by decide,
    ((arithmetic_exact { num := 1, denom := 2 } { num := 1, denom := 3 } (by decide)
      (by decide)).2.2.2.1 { num := 3, denom := 2 } (by decide) (by decide)).2⟩

/-- Witness of C15 on the fractions of test ComparisonOperations: `1/2 == 2/4` and
`1/2 != 1/3`. -/
theorem equality_compares_values_witness :
    Fraction.eq { num := 1, denom := 2 } { num := 2, denom := 4 } = some true ∧
    Fraction.toRat { num := 1, denom := 2 } = Fraction.toRat { num := 2, denom := 4 } ∧
    Fraction.ne { num := 1, denom := 2 } { num := 1, denom := 3 } = some true ∧
    Fraction.toRat { num := 1, denom := 2 } ≠ Fraction.toRat { num := 1, denom := 3 } ∧
    Fraction.eq { num := 1, denom := 2 } { num := 1, denom := 3 } = some false :=
  ⟨by decide,
    ((equality_compares_values { num := 1, denom := 2 } { num := 2, denom := 4 } (by decide)
      (by decide)).1 true (by decide)).mp rfl,
    by decide,
    ((equality_compares_values { num := 1, denom := 2 } { num := 1, denom := 3 } (by decide)
      (by decide)).2.1 true (by decide)).mp rfl,
    (equality_compares_values { num := 1, denom := 2 } { num := 1, denom := 3 } (by decide)
      (by decide)).2.2.1 true (by decide)⟩

end FractionTheorems


/-! ## Theorems: matrix operations -/

section MatrixOperationTheorems

variable {K : Type}

theorem index_lt_shape {r c i j : Nat} (hi : i < r) (hj : j < c) : i * c + j < r * c := by
  have : i * c + c ≤ r * c := by
    calc i * c + c = (i + 1) * c := by ring
      _ ≤ r * c := Nat.mul_le_mul_right c hi
  omega

theorem isShape_set {r c : Nat} {m : Numerics.Matrix K} (hm : m.IsShape r c) (i j : Nat) (v : K) :
    (m.set i j v).IsShape r c := by
  obtain ⟨h1, h2, h3⟩ := hm
  exact ⟨h1, h2, by simp [Numerics.Matrix.set, h3]⟩

theorem get_set_shape [Zero K] {r c : Nat} {m : Numerics.Matrix K} (hm : m.IsShape r c)
    {i j i' j' : Nat} (hi : i < r) (hj : j < c) (hj' : j' < c) (v : K) :
    (m.set i j v).get i' j' = if i = i' ∧ j = j' then v else m.get i' j' := by
  obtain ⟨h1, h2, h3, _⟩ := hm
  have hlt : i * c + j < m.data_.length := h3 ▸ index_lt_shape hi hj
  simp only [Numerics.Matrix.get, Numerics.Matrix.set, Numerics.Matrix.index, h2,
    List.getD_eq_getElem?_getD, List.getElem?_set, if_pos hlt]
  by_cases h : i * c + j = i' * c + j'
  · rw [if_pos h, if_pos (index_inj hj hj' h)]
    rfl
  · rw [if_neg h, if_neg]
    rintro ⟨rfl, rfl⟩
    exact h rfl

theorem isShape_create [Zero K] (r c : Nat) (v : K) (h : r * c ≤ Numerics.Matrix.SIZE_MAX) :
    (Numerics.Matrix.create r c v).IsShape r c :=
  ⟨rfl, rfl, by
    simp only [Numerics.Matrix.create, Numerics.Matrix.resize, List.length_replicate]
    exact Nat.mod_eq_of_lt (Nat.lt_succ_of_le h), h⟩

theorem get_create [Zero K] (r c i j : Nat) :
    (Numerics.Matrix.create r c (0 : K)).get i j = 0 := by
  simp only [Numerics.Matrix.get, Numerics.Matrix.create, Numerics.Matrix.resize,
    List.getD_eq_getElem?_getD, List.getElem?_replicate]
  split <;> rfl

theorem get_eq_getElem [Zero K] {r c : Nat} {m : Numerics.Matrix K} (hm : m.IsShape r c)
    {i j : Nat} (hi : i < r) (hj : j < c) :
    m.data_[i * c + j]? = some (m.get i j) := by
  obtain ⟨h1, h2, h3, _⟩ := hm
  have hlt : i * c + j < m.data_.length := h3 ▸ index_lt_shape hi hj
  simp [Numerics.Matrix.get, Numerics.Matrix.index, h2, List.getD_eq_getElem?_getD,
    List.getElem?_eq_getElem hlt]

/-- One pass of the inner loop of `transpose`. -/
theorem transpose_row [Zero K] {r c : Nat} (m result : Numerics.Matrix K)
    (hres : result.IsShape c r) {i : Nat} (hi : i < r) (k : Nat) (hk : k ≤ c) :
    ((List.range k).foldl (fun a col => a.set col i (m.get i col)) result).IsShape c r ∧
    ∀ j' i', i' < r →
      ((List.range k).foldl (fun a col => a.set col i (m.get i col)) result).get j' i'
        = if i' = i ∧ j' < k then m.get i j' else result.get j' i' := by
  refine foldl_range_invariant
    (fun J (a : Numerics.Matrix K) => a.IsShape c r ∧ ∀ j' i', i' < r →
      a.get j' i' = if i' = i ∧ j' < J then m.get i j' else result.get j' i')
    _ result k ⟨hres, fun j' i' _ => by simp⟩ ?_
  rintro J a hJ ⟨ha, hent⟩
  refine ⟨isShape_set ha _ _ _, ?_⟩
  intro j' i' hi'
  rw [get_set_shape ha (by omega) hi hi', hent j' i' hi']
  by_cases h1 : J = j' ∧ i = i'
  · obtain ⟨rfl, rfl⟩ := h1
    simp
  · rw [if_neg h1]
    by_cases h2 : i' = i ∧ j' < J
    · rw [if_pos h2, if_pos ⟨h2.1, by omega⟩]
    · rw [if_neg h2, if_neg]
      rintro ⟨rfl, h3⟩
      have : j' ≠ J := fun h => h1 ⟨h.symm, rfl⟩
      exact h2 ⟨rfl, by omega⟩

/-- C17: for an `r x c` matrix `m`, `transpose()` returns a `c x r` matrix whose entry
`(j, i)` is the entry `(i, j)` of `m`, for every `i < r` and `j < c`. The method is `const` and
the model a function of `m`: `m` itself is not changed. -/
theorem transpose_entries [Zero K] (r c : Nat) (m : Numerics.Matrix K) (hm : m.IsShape r c) :
    m.transpose.rows_ = c ∧ m.transpose.cols_ = r ∧ m.transpose.data_.length = c * r ∧
    ∀ i j, i < r → j < c → m.transpose.get j i = m.get i j := by
  obtain ⟨h1, h2, h3, h4⟩ := hm
  have key := foldl_range_invariant
    (fun I (a : Numerics.Matrix K) => a.IsShape c r ∧ ∀ j' i', j' < c → i' < r →
      a.get j' i' = if i' < I then m.get i' j' else 0)
    (fun result rowIndex =>
      (List.range c).foldl
        (fun result colIndex => result.set colIndex rowIndex (m.get rowIndex colIndex)) result)
    (Numerics.Matrix.create c r 0) r
    ⟨isShape_create c r 0 (Nat.mul_comm r c ▸ h4), fun j' i' _ _ => by simp [get_create]⟩ ?_
  · have e : m.transpose = (List.range r).foldl
        (fun result rowIndex =>
          (List.range c).foldl
            (fun result colIndex => result.set colIndex rowIndex (m.get rowIndex colIndex))
            result)
        (Numerics.Matrix.create c r 0) := by
      simp only [Numerics.Matrix.transpose, h1, h2]
    rw [e]
    refine ⟨key.1.1, key.1.2.1, key.1.2.2.1, fun i j hi hj => ?_⟩
    rw [key.2 j i hj hi, if_pos hi]
  · rintro I a hI ⟨ha, hent⟩
    obtain ⟨g1, g2⟩ := transpose_row m a ha hI c le_rfl
    refine ⟨g1, fun j' i' hj' hi' => ?_⟩
    rw [g2 j' i' hi', hent j' i' hj' hi']
    by_cases h : i' = I
    · subst h
      simp [hj']
    · have h4 : ¬ (i' = I ∧ j' < c) := fun hc => h hc.1
      rw [if_neg h4]
      by_cases h5 : i' < I
      · rw [if_pos h5, if_pos (by omega)]
      · rw [if_neg h5, if_neg (by omega)]

/-- The loop of `operator+` and `operator-`: element by element over the storage. -/
theorem pointwise_loop [Zero K] (op : K → K → K) (x y : List K) (result : Numerics.Matrix K)
    (n : Nat) (hn : n ≤ result.data_.length) :
    ((List.range n).foldl
      (fun (a : Numerics.Matrix K) i =>
        { a with data_ := a.data_.set i (op (x.getD i 0) (y.getD i 0)) }) result).rows_
      = result.rows_ ∧
    ((List.range n).foldl
      (fun (a : Numerics.Matrix K) i =>
        { a with data_ := a.data_.set i (op (x.getD i 0) (y.getD i 0)) }) result).cols_
      = result.cols_ ∧
    ((List.range n).foldl
      (fun (a : Numerics.Matrix K) i =>
        { a with data_ := a.data_.set i (op (x.getD i 0) (y.getD i 0)) }) result).data_.length
      = result.data_.length ∧
    ∀ p, ((List.range n).foldl
      (fun (a : Numerics.Matrix K) i =>
        { a with data_ := a.data_.set i (op (x.getD i 0) (y.getD i 0)) }) result).data_.getD p 0
      = if p < n then op (x.getD p 0) (y.getD p 0) else result.data_.getD p 0 := by
  refine foldl_range_invariant
    (fun N (a : Numerics.Matrix K) => a.rows_ = result.rows_ ∧ a.cols_ = result.cols_ ∧
      a.data_.length = result.data_.length ∧
      ∀ p, a.data_.getD p 0
        = if p < N then op (x.getD p 0) (y.getD p 0) else result.data_.getD p 0)
    _ result n ⟨rfl, rfl, rfl, fun p => by simp⟩ ?_
  rintro N a hN ⟨h1, h2, h3, hent⟩
  refine ⟨h1, h2, by simp [h3], fun p => ?_⟩
  have hlt : N < a.data_.length := by omega
  simp only [List.getD_eq_getElem?_getD, List.getElem?_set, if_pos hlt]
  by_cases hp : N = p
  · subst hp
    simp
  · rw [if_neg hp]
    have := hent p
    simp only [List.getD_eq_getElem?_getD] at this
    rw [this]
    by_cases h5 : p < N
    · rw [if_pos h5, if_pos (by omega)]
    · rw [if_neg h5, if_neg (by omega)]

theorem pointwise_entries [Zero K] (op : K → K → K) {r c : Nat} (A B : Numerics.Matrix K)
    (hA : A.IsShape r c) (hB : B.IsShape r c) :
    ((List.range A.data_.length).foldl
      (fun (a : Numerics.Matrix K) i =>
        { a with data_ := a.data_.set i (op (A.data_.getD i 0) (B.data_.getD i 0)) })
      (Numerics.Matrix.create A.rows_ A.cols_ 0)).IsShape r c ∧
    ∀ i j, i < r → j < c →
      ((List.range A.data_.length).foldl
        (fun (a : Numerics.Matrix K) i =>
          { a with data_ := a.data_.set i (op (A.data_.getD i 0) (B.data_.getD i 0)) })
        (Numerics.Matrix.create A.rows_ A.cols_ 0)).get i j
        = op (A.get i j) (B.get i j) := by
  obtain ⟨a1, a2, a3, a4⟩ := hA
  obtain ⟨b1, b2, b3, _⟩ := hB
  rw [a1, a2]
  have hc := isShape_create (K := K) r c 0 a4
  obtain ⟨g1, g2, g3, g4⟩ := pointwise_loop op A.data_ B.data_
    (Numerics.Matrix.create r c 0) A.data_.length (by rw [hc.2.2.1, a3])
  refine ⟨⟨g1.trans hc.1, g2.trans hc.2.1, g3.trans hc.2.2.1, a4⟩, fun i j hi hj => ?_⟩
  have hidx : i * c + j < A.data_.length := a3 ▸ index_lt_shape hi hj
  simp only [Numerics.Matrix.get, Numerics.Matrix.index, g2, hc.2.1, a2, b2]
  rw [g4 (i * c + j), if_pos hidx]

/-- C18: for an `r x c` matrix `A` and an `r2 x c2` matrix `B`, `A + B` and `A - B` fail with
`invalid_argument` exactly when the row counts or the column counts differ; when the shapes are
equal the result has that shape and its entry `(i, j)` is `A(i, j) + B(i, j)`, respectively
`A(i, j) - B(i, j)`, for all `i < r` and `j < c`. -/
theorem add_sub_entries [Zero K] [Add K] [Sub K] (r c r2 c2 : Nat) (A B : Numerics.Matrix K)
    (hA : A.IsShape r c) (hB : B.IsShape r2 c2) :
    (A.add B = Except.error Exception.invalid_argument ↔ r ≠ r2 ∨ c ≠ c2) ∧
    (A.sub B = Except.error Exception.invalid_argument ↔ r ≠ r2 ∨ c ≠ c2) ∧
    (r = r2 → c = c2 →
      (∃ S : Numerics.Matrix K, A.add B = Except.ok S ∧
        S.rows_ = r ∧ S.cols_ = c ∧ S.data_.length = r * c ∧
        ∀ i j, i < r → j < c → S.get i j = A.get i j + B.get i j) ∧
      (∃ D : Numerics.Matrix K, A.sub B = Except.ok D ∧
        D.rows_ = r ∧ D.cols_ = c ∧ D.data_.length = r * c ∧
        ∀ i j, i < r → j < c → D.get i j = A.get i j - B.get i j)) := by
  have hsame : (r = r2 ∧ c = c2) → A.ensure_same_size B = Except.ok () := by
    rintro ⟨h1, h2⟩
    have : ¬ (A.rows_ ≠ B.rows_ ∨ A.cols_ ≠ B.cols_) := by
      rw [hA.1, hA.2.1, hB.1, hB.2.1]
      exact fun h => h.elim (fun h => h h1) (fun h => h h2)
    rw [Numerics.Matrix.ensure_same_size, if_neg this]
  have hdiff : (r ≠ r2 ∨ c ≠ c2) →
      A.ensure_same_size B = Except.error Exception.invalid_argument := by
    intro h
    have : A.rows_ ≠ B.rows_ ∨ A.cols_ ≠ B.cols_ := by
      rw [hA.1, hA.2.1, hB.1, hB.2.1]
      exact h
    rw [Numerics.Matrix.ensure_same_size, if_pos this]
  have hok : r = r2 → c = c2 →
      (∃ S : Numerics.Matrix K, A.add B = Except.ok S ∧
        S.rows_ = r ∧ S.cols_ = c ∧ S.data_.length = r * c ∧
        ∀ i j, i < r → j < c → S.get i j = A.get i j + B.get i j) ∧
      (∃ D : Numerics.Matrix K, A.sub B = Except.ok D ∧
        D.rows_ = r ∧ D.cols_ = c ∧ D.data_.length = r * c ∧
        ∀ i j, i < r → j < c → D.get i j = A.get i j - B.get i j) := by
    intro h1 h2
    subst h1 h2
    have hs := hsame ⟨rfl, rfl⟩
    obtain ⟨p1, p2⟩ := pointwise_entries (fun x y => x + y) A B hA hB
    obtain ⟨q1, q2⟩ := pointwise_entries (fun x y => x - y) A B hA hB
    refine ⟨⟨_, ?_, p1.1, p1.2.1, p1.2.2.1, p2⟩, ⟨_, ?_, q1.1, q1.2.1, q1.2.2.1, q2⟩⟩
    · simp only [Numerics.Matrix.add, hs, bind, Except.bind, pure, Except.pure]
    · simp only [Numerics.Matrix.sub, hs, bind, Except.bind, pure, Except.pure]
  refine ⟨⟨?_, ?_⟩, ⟨?_, ?_⟩, hok⟩
  · intro herr
    by_contra hne
    have h1 : r = r2 := by_contra fun h => hne (Or.inl h)
    have h2 : c = c2 := by_contra fun h => hne (Or.inr h)
    obtain ⟨⟨S, hS, _⟩, _⟩ := hok h1 h2
    rw [hS] at herr
    cases herr
  · intro h
    simp only [Numerics.Matrix.add, hdiff h, bind, Except.bind]
  · intro herr
    by_contra hne
    have h1 : r = r2 := by_contra fun h => hne (Or.inl h)
    have h2 : c = c2 := by_contra fun h => hne (Or.inr h)
    obtain ⟨_, ⟨D, hD, _⟩⟩ := hok h1 h2
    rw [hD] at herr
    cases herr
  · intro h
    simp only [Numerics.Matrix.sub, hdiff h, bind, Except.bind]

/-- C19: for a matrix of `r` rows and `c` columns, `at(row, col)` fails with `out_of_range`
exactly when `row >= r` or `col >= c`, and otherwise returns the element stored at the row-major
position `row * c + col`; `row(i)` fails with `out_of_range` exactly when `i >= r` and otherwise
returns the `c` elements from position `i * c` on. On a matrix without rows both fail for all
indices, and `at` fails for all indices on every matrix without elements. -/
theorem at_and_row_bounds [Zero K] (r c : Nat) (m : Numerics.Matrix K) (hm : m.IsShape r c)
    (row col : Nat) :
    (m.at_ row col = Except.error Exception.out_of_range ↔ row ≥ r ∨ col ≥ c) ∧
    (row < r → col < c →
      ∃ x, m.data_[row * c + col]? = some x ∧ m.at_ row col = Except.ok x) ∧
    (m.row row = Except.error Exception.out_of_range ↔ row ≥ r) ∧
    (row < r → ∃ xs : List K, m.row row = Except.ok xs ∧ xs.length = c ∧
      ∀ j, j < c → xs[j]? = m.data_[row * c + j]?) ∧
    (r = 0 → m.at_ row col = Except.error Exception.out_of_range ∧
      m.row row = Except.error Exception.out_of_range) ∧
    (m.empty = true → m.at_ row col = Except.error Exception.out_of_range) := by
  obtain ⟨h1, h2, h3, h4⟩ := hm
  have hat_err : (row ≥ r ∨ col ≥ c) → m.at_ row col = Except.error Exception.out_of_range := by
    intro h
    have : row ≥ m.rows_ ∨ col ≥ m.cols_ := by rw [h1, h2]; exact h
    simp only [Numerics.Matrix.at_, Numerics.Matrix.ensure_in_range, if_pos this, bind,
      Except.bind]
  have hat_ok : row < r → col < c → m.at_ row col = Except.ok (m.get row col) := by
    intro hr hc
    have : ¬ (row ≥ m.rows_ ∨ col ≥ m.cols_) := by rw [h1, h2]; omega
    simp only [Numerics.Matrix.at_, Numerics.Matrix.ensure_in_range, if_neg this, bind,
      Except.bind, pure, Except.pure]
  have hrow_err : row ≥ r → m.row row = Except.error Exception.out_of_range := by
    intro h
    have : row ≥ m.rows_ := by rw [h1]; exact h
    rw [Numerics.Matrix.row, if_pos this]
  have hrow_ok : row < r →
      m.row row = Except.ok ((m.data_.drop (row * c)).take c) := by
    intro h
    have : ¬ row ≥ m.rows_ := by rw [h1]; omega
    rw [Numerics.Matrix.row, if_neg this, h2]
  refine ⟨⟨?_, hat_err⟩, ?_, ⟨?_, hrow_err⟩, ?_, ?_, ?_⟩
  · intro herr
    by_contra hne
    rw [hat_ok (by omega) (by omega)] at herr
    cases herr
  · intro hr hc
    exact ⟨m.get row col, get_eq_getElem ⟨h1, h2, h3, h4⟩ hr hc, hat_ok hr hc⟩
  · intro herr
    by_contra hne
    rw [hrow_ok (by omega)] at herr
    cases herr
  · intro hr
    refine ⟨_, hrow_ok hr, ?_, ?_⟩
    · have := index_lt_shape hr (Nat.zero_lt_of_lt (show 0 < c + 1 by omega))
      rw [List.length_take, List.length_drop, h3]
      have hle : row * c + c ≤ r * c := by
        calc row * c + c = (row + 1) * c := by ring
          _ ≤ r * c := Nat.mul_le_mul_right c hr
      omega
    · intro j hj
      rw [List.getElem?_take_of_lt hj, List.getElem?_drop]
  · intro hr0
    exact ⟨hat_err (Or.inl (by omega)), hrow_err (by omega)⟩
  · intro he
    have hnil : m.data_ = [] := List.isEmpty_iff.mp he
    rw [hnil, List.length_nil] at h3
    rcases Nat.mul_eq_zero.mp h3.symm with h0 | h0
    · exact hat_err (Or.inl (by omega))
    · exact hat_err (Or.inr (by omega))

/-- Witness of C17 on the matrix of test TransposesMatrix. -/
theorem transpose_entries_witness :
    (Numerics.Matrix.mk 2 3 [(1 : Int), 2, 3, 4, 5, 6]).transpose
      = Numerics.Matrix.mk 3 2 [1, 4, 2, 5, 3, 6] ∧
    (Numerics.Matrix.mk 2 3 [(1 : Int), 2, 3, 4, 5, 6]).transpose.rows_ = 3 ∧
    (Numerics.Matrix.mk 2 3 [(1 : Int), 2, 3, 4, 5, 6]).transpose.get 2 1
      = (Numerics.Matrix.mk 2 3 [(1 : Int), 2, 3, 4, 5, 6]).get 1 2 :=
  ⟨rfl,
    (transpose_entries 2 3 (Numerics.Matrix.mk 2 3 [(1 : Int), 2, 3, 4, 5, 6])
      ⟨rfl, rfl, rfl, by decide⟩).1,
    (transpose_entries 2 3 (Numerics.Matrix.mk 2 3 [(1 : Int), 2, 3, 4, 5, 6])
      ⟨rfl, rfl, rfl, by decide⟩).2.2.2 1 2 (by decide) (by decide)⟩

/-- Witness of C18 on the matrices of test AddsAndSubtractsMatrices. -/
theorem add_sub_entries_witness :
    (Numerics.Matrix.mk 2 2 [(1 : Int), 2, 3, 4]).add (Numerics.Matrix.mk 2 2 [4, 3, 2, 1])
      = Except.ok (Numerics.Matrix.mk 2 2 [5, 5, 5, 5]) ∧
    (Numerics.Matrix.mk 2 2 [(1 : Int), 2, 3, 4]).sub (Numerics.Matrix.mk 2 2 [4, 3, 2, 1])
      = Except.ok (Numerics.Matrix.mk 2 2 [-3, -1, 1, 3]) ∧
    (∃ S : Numerics.Matrix Int,
      (Numerics.Matrix.mk 2 2 [(1 : Int), 2, 3, 4]).add (Numerics.Matrix.mk 2 2 [4, 3, 2, 1])
        = Except.ok S ∧
      S.rows_ = 2 ∧ S.cols_ = 2 ∧ S.data_.length = 2 * 2 ∧
      ∀ i j, i < 2 → j < 2 → S.get i j
        = (Numerics.Matrix.mk 2 2 [(1 : Int), 2, 3, 4]).get i j
          + (Numerics.Matrix.mk 2 2 [(4 : Int), 3, 2, 1]).get i j) ∧
    (Numerics.Matrix.mk 2 2 [(1 : Int), 2, 3, 4]).add
        (Numerics.Matrix.mk 2 3 [1, 1, 1, 1, 1, 1])
      = Except.error Exception.invalid_argument ∧
    (Numerics.Matrix.mk 2 2 [(1 : Int), 2, 3, 4]).sub
        (Numerics.Matrix.mk 2 3 [1, 1, 1, 1, 1, 1])
      = Except.error Exception.invalid_argument :=
  ⟨rfl, rfl,
    ((add_sub_entries 2 2 2 2 (Numerics.Matrix.mk 2 2 [(1 : Int), 2, 3, 4])
      (Numerics.Matrix.mk 2 2 [4, 3, 2, 1]) ⟨rfl, rfl, rfl, by decide⟩ ⟨rfl, rfl, rfl, by decide⟩).2.2 rfl rfl).1,
    (add_sub_entries 2 2 2 3 (Numerics.Matrix.mk 2 2 [(1 : Int), 2, 3, 4])
      (Numerics.Matrix.mk 2 3 [1, 1, 1, 1, 1, 1]) ⟨rfl, rfl, rfl, by decide⟩ ⟨rfl, rfl, rfl, by decide⟩).1.mpr
      (Or.inr (by decide)),
    (add_sub_entries 2 2 2 3 (Numerics.Matrix.mk 2 2 [(1 : Int), 2, 3, 4])
      (Numerics.Matrix.mk 2 3 [1, 1, 1, 1, 1, 1]) ⟨rfl, rfl, rfl, by decide⟩ ⟨rfl, rfl, rfl, by decide⟩).2.1.mpr
      (Or.inr (by decide))⟩

/-- Witness of C19 on the accesses of test ProvidesRowAccessAndBoundsChecks. -/
theorem at_and_row_bounds_witness :
    (Numerics.Matrix.mk 2 3 [(1 : Int), 2, 3, 4, 5, 6]).at_ 0 3
      = Except.error Exception.out_of_range ∧
    (Numerics.Matrix.mk 2 3 [(1 : Int), 2, 3, 4, 5, 6]).at_ 2 0
      = Except.error Exception.out_of_range ∧
    (Numerics.Matrix.mk 2 3 [(1 : Int), 2, 3, 4, 5, 6]).row 2
      = Except.error Exception.out_of_range ∧
    (Numerics.Matrix.mk 0 0 ([] : List Int)).row 0 = Except.error Exception.out_of_range ∧
    (Numerics.Matrix.mk 2 3 [(1 : Int), 2, 3, 4, 5, 6]).at_ 1 2 = Except.ok 6 ∧
    (∃ x, [(1 : Int), 2, 3, 4, 5, 6][1 * 3 + 2]? = some x ∧
      (Numerics.Matrix.mk 2 3 [(1 : Int), 2, 3, 4, 5, 6]).at_ 1 2 = Except.ok x) ∧
    (Numerics.Matrix.mk 2 3 [(1 : Int), 2, 3, 4, 5, 6]).row 1 = Except.ok [4, 5, 6] :=
  ⟨(at_and_row_bounds 2 3 (Numerics.Matrix.mk 2 3 [(1 : Int), 2, 3, 4, 5, 6]) ⟨rfl, rfl, rfl, by decide⟩
      0 3).1.mpr (Or.inr (by decide)),
    (at_and_row_bounds 2 3 (Numerics.Matrix.mk 2 3 [(1 : Int), 2, 3, 4, 5, 6]) ⟨rfl, rfl, rfl, by decide⟩
      2 0).1.mpr (Or.inl (by decide)),
    (at_and_row_bounds 2 3 (Numerics.Matrix.mk 2 3 [(1 : Int), 2, 3, 4, 5, 6]) ⟨rfl, rfl, rfl, by decide⟩
      2 0).2.2.1.mpr (by decide),
    ((at_and_row_bounds 0 0 (Numerics.Matrix.mk 0 0 ([] : List Int)) ⟨rfl, rfl, rfl, by decide⟩
      0 0).2.2.2.2.1 rfl).2,
    rfl,
    (at_and_row_bounds 2 3 (Numerics.Matrix.mk 2 3 [(1 : Int), 2, 3, 4, 5, 6]) ⟨rfl, rfl, rfl, by decide⟩
      1 2).2.1 (by decide) (by decide),
    rfl⟩

end MatrixOperationTheorems


/-! ## Theorems: lock discipline -/

section LockingTheorems
open Locking

theorem micro_sound {s : LockState} {pc : Pc} {m : Micro} (h : micro s pc = some m) :
    (m.mutex = MutexEffect.keep → holds m.next = holds pc) ∧
    (m.mutex = MutexEffect.acquire →
      s.owner = none ∧ holds pc = false ∧ holds m.next = true) ∧
    (m.mutex = MutexEffect.release → holds pc = true ∧ holds m.next = false) := by
  cases pc with
  | shutdownUnlock early =>
    simp only [micro, Option.some.injEq] at h
    subst h
    cases early <;> simp [holds]
  | enqueueUnlock thrown =>
    simp only [micro, Option.some.injEq] at h
    subst h
    cases thrown <;> simp [holds]
  | workerUnlock returning =>
    simp only [micro, Option.some.injEq] at h
    subst h
    cases returning <;> simp [holds]
  | _ =>
    simp only [micro] at h
    try split_ifs at h
    all_goals (cases h <;> simp_all [holds])

theorem touches_holds (pc : Pc) (h : touches pc = true) : holds pc = true := by
  cases pc <;> simp_all [touches, holds]

theorem disciplined_initial (workers callers : Nat) :
    (LockState.initial workers callers).Disciplined := by
  intro tid pc h
  have hmem : pc ∈ List.replicate workers Pc.workerLock ++ List.replicate callers Pc.idle :=
    List.getElem?_mem h
  have hpc : pc = Pc.workerLock ∨ pc = Pc.idle := by
    rcases List.mem_append.mp hmem with h1 | h1
    · exact Or.inl (List.eq_of_mem_replicate h1)
    · exact Or.inr (List.eq_of_mem_replicate h1)
  rcases hpc with rfl | rfl <;> simp [holds, LockState.initial]

theorem disciplined_call {s : LockState} (hs : s.Disciplined) (tid : Nat) (entry : Pc)
    (hentry : holds entry = false) : (s.call tid entry).Disciplined := by
  unfold LockState.call
  split
  · rename_i hidle
    intro tid' pc' h'
    simp only [List.getElem?_set] at h'
    by_cases ht : tid = tid'
    · subst ht
      rw [if_pos rfl] at h'
      split_ifs at h'
      cases h'
      have := hs tid Pc.idle hidle
      simp only [holds] at this
      simp only [hentry]
      constructor
      · intro h; cases h
      · intro h; exact absurd (this.mpr h) (by simp)
    · rw [if_neg ht] at h'
      exact hs tid' pc' h'
  · exact hs

theorem disciplined_move {s : LockState} (hs : s.Disciplined) (mv : Move) :
    (s.move mv).Disciplined := by
  cases mv with
  | callShutdown tid => exact disciplined_call hs tid Pc.shutdownLock rfl
  | callEnqueue tid => exact disciplined_call hs tid Pc.enqueueLock rfl
  | step tid =>
    simp only [LockState.move]
    split
    · rename_i pc hpc
      split
      · rename_i m hm
        obtain ⟨hk, ha, hr⟩ := micro_sound hm
        have hown := hs tid pc hpc
        intro tid' pc' h'
        simp only [List.getElem?_set] at h'
        by_cases ht : tid = tid'
        · subst ht
          rw [if_pos rfl] at h'
          split_ifs at h'
          cases h'
          cases hmx : m.mutex with
          | keep => simp only [MutexEffect.apply, hk hmx]; exact hown
          | acquire => simp [MutexEffect.apply, (ha hmx).2.2]
          | release => simp [MutexEffect.apply, (hr hmx).2]
        · rw [if_neg ht] at h'
          have hown' := hs tid' pc' h'
          cases hmx : m.mutex with
          | keep => simpa only [MutexEffect.apply] using hown'
          | acquire =>
            obtain ⟨h1, -, -⟩ := ha hmx
            simp only [MutexEffect.apply, Option.some.injEq]
            rw [h1] at hown'
            constructor
            · intro h; exact absurd (hown'.mp h) (by simp)
            · intro h; exact absurd h ht
          | release =>
            obtain ⟨h1, -⟩ := hr hmx
            have h2 := hown.mp h1
            simp only [MutexEffect.apply]
            rw [h2] at hown'
            constructor
            · intro h
              have := hown'.mp h
              simp only [Option.some.injEq] at this
              exact absurd this ht
            · intro h; cases h
      · exact hs
    · exact hs

theorem disciplined_run {s : LockState} (hs : s.Disciplined) (ms : List Move) :
    (s.run ms).Disciplined := by
  induction ms generalizing s with
  | nil => exact hs
  | cons mv ms ih => exact ih (disciplined_move hs mv)

/-- C20: in every state the pool reaches from its construction, under every interleaving of
the statements of `shutdown`, `enqueue` and `workerLoop` run by any number of worker and caller
threads, a thread that stands at a statement reading or writing `stopping` or `tasks` is the
owner of `mutex`; a thread that is not the owner stands at no such statement; at most one thread
stands at such a statement; and every other statement neither depends on the flag and the queue
nor changes them. -/
theorem accesses_under_lock (workers callers : Nat) (ms : List Move) :
    (∀ (tid : Nat) (pc : Pc), ((LockState.initial workers callers).run ms).pcs[tid]? = some pc →
      touches pc = true → ((LockState.initial workers callers).run ms).owner = some tid) ∧
    (∀ (tid : Nat) (pc : Pc), ((LockState.initial workers callers).run ms).pcs[tid]? = some pc →
      ((LockState.initial workers callers).run ms).owner ≠ some tid → touches pc = false) ∧
    (∀ (tid tid2 : Nat) (pc pc2 : Pc),
      ((LockState.initial workers callers).run ms).pcs[tid]? = some pc →
      ((LockState.initial workers callers).run ms).pcs[tid2]? = some pc2 →
      touches pc = true → touches pc2 = true → tid = tid2) ∧
    (∀ (t : LockState) (pc : Pc) (flag : Bool) (count : Nat), touches pc = false →
      micro { t with stopping := flag, queued := count } pc =
        (micro t pc).map (fun m => { m with stopping := flag, queued := count }) ∧
      ∀ m, micro t pc = some m → m.stopping = t.stopping ∧ m.queued = t.queued) := by
  have hd := disciplined_run (disciplined_initial workers callers) ms
  refine ⟨?_, ?_, ?_, ?_⟩
  · intro tid pc h ht
    exact (hd tid pc h).mp (touches_holds pc ht)
  · intro tid pc h ho
    by_contra ht
    simp only [Bool.not_eq_false] at ht
    exact ho ((hd tid pc h).mp (touches_holds pc ht))
  · intro tid tid2 pc pc2 h h2 ht ht2
    have h1 := (hd tid pc h).mp (touches_holds pc ht)
    have h3 := (hd tid2 pc2 h2).mp (touches_holds pc2 ht2)
    rw [h1] at h3
    exact Option.some.inj h3
  · intro t pc flag count ht
    cases pc <;> simp_all [touches, micro]
    split_ifs <;> simp

/-- Witness of C20 with one worker and one caller: the caller has called `enqueue` and stands
at `tasks.push`, holding the mutex, while the worker waits for the mutex; later the worker
stands at `tasks.pop`, holding the mutex. -/
theorem accesses_under_lock_witness :
    ((LockState.initial 1 1).run
      [Move.callEnqueue 1, Move.step 1, Move.step 1, Move.step 0]).pcs
        = [Pc.workerLock, Pc.enqueuePush] ∧
    ((LockState.initial 1 1).run
      [Move.callEnqueue 1, Move.step 1, Move.step 1, Move.step 0]).owner = some 1 ∧
    ((LockState.initial 1 1).run
      [Move.callEnqueue 1, Move.step 1, Move.step 1, Move.step 1, Move.step 1, Move.step 0,
        Move.step 0, Move.step 0]).pcs = [Pc.workerTake, Pc.enqueueNotify] ∧
    ((LockState.initial 1 1).run
      [Move.callEnqueue 1, Move.step 1, Move.step 1, Move.step 1, Move.step 1, Move.step 0,
        Move.step 0, Move.step 0]).owner = some 0 :=
  ⟨by decide,
    (accesses_under_lock 1 1 [Move.callEnqueue 1, Move.step 1, Move.step 1, Move.step 0]).1
      1 Pc.enqueuePush (by decide) (by decide),
    by decide,
    (accesses_under_lock 1 1
      [Move.callEnqueue 1, Move.step 1, Move.step 1, Move.step 1, Move.step 1, Move.step 0,
        Move.step 0, Move.step 0]).1 0 Pc.workerTake (by decide) (by decide)⟩

end LockingTheorems

/-! ## Theorems: row operations and the size of the storage -/

section RowOperationTheorems

variable {K : Type}

theorem list_set_getD_self {A : Type} (l : List A) (i : Nat) (d : A) :
    l.set i (l.getD i d) = l := by
  induction l generalizing i with
  | nil => rfl
  | cons x l ih =>
    cases i with
    | zero => rfl
    | succ i =>
      simp only [List.set_cons_succ, List.getD_cons_succ, List.cons.injEq, true_and]
      exact ih i

theorem set_get_self [Zero K] (m : Numerics.Matrix K) (i j : Nat) :
    m.set i j (m.get i j) = m := by
  obtain ⟨r, c, d⟩ := m
  simp only [Numerics.Matrix.set, Numerics.Matrix.get, Numerics.Matrix.index,
    Numerics.Matrix.mk.injEq, true_and]
  exact list_set_getD_self d (i * c + j) 0

theorem rowUpdate_spec [Zero K] {r c : Nat} (φ : K → K → K) {m : Numerics.Matrix K}
    (hm : m.IsShape r c) {t : Nat} (s : Nat) (ht : t < r) (k : Nat) (hk : k ≤ c) :
    ((List.range k).foldl (fun a col => a.set t col (φ (a.get t col) (a.get s col))) m).IsShape r c ∧
    ∀ i j, j < c →
      ((List.range k).foldl (fun a col => a.set t col (φ (a.get t col) (a.get s col))) m).get i j
        = if i = t ∧ j < k then φ (m.get t j) (m.get s j) else m.get i j := by
  refine foldl_range_invariant
    (fun q (a : Numerics.Matrix K) => a.IsShape r c ∧ ∀ i j, j < c →
      a.get i j = if i = t ∧ j < q then φ (m.get t j) (m.get s j) else m.get i j)
    _ m k ⟨hm, fun i j _ => by simp⟩ ?_
  rintro q a hq ⟨ha, hent⟩
  have hqc : q < c := by omega
  refine ⟨isShape_set ha _ _ _, ?_⟩
  intro i j hj
  rw [get_set_shape ha ht hqc hj, hent t q hqc, hent s q hqc, hent i j hj]
  have e1 : ¬ (t = t ∧ q < q) := by omega
  have e2 : ¬ (s = t ∧ q < q) := by omega
  rw [if_neg e1, if_neg e2]
  by_cases h1 : t = i ∧ q = j
  · obtain ⟨rfl, rfl⟩ := h1
    simp
  · rw [if_neg h1]
    by_cases h2 : i = t ∧ j < q
    · rw [if_pos h2, if_pos ⟨h2.1, by omega⟩]
    · rw [if_neg h2]
      by_cases h3 : i = t ∧ j < q + 1
      · exfalso
        obtain ⟨h4, h5⟩ := h3
        have : j = q := by
          by_contra hne
          exact h2 ⟨h4, by omega⟩
        exact h1 ⟨h4.symm, this.symm⟩
      · rw [if_neg h3]

/-- C21: for a well-formed matrix over an element type in which `x + y * 0 = x` (the integers
among them) and in-range rows `target` and `source`, `add_scaled_row(target, source, 0)` returns
with the matrix unchanged, and the general update without the early return gives that same
matrix. For every factor the function and the general update agree, and the general update
leaves `target(col) + source(col) * factor` in every column of row `target` and leaves the other
rows as they were. -/
theorem add_scaled_row_zero_factor [Zero K] [Add K] [Mul K] [DecidableEq K]
    (hlaw : ∀ x y : K, x + y * 0 = x) (r c : Nat) (m : Numerics.Matrix K) (hm : m.IsShape r c)
    (target source : Nat) (ht : target < r) (hs : source < r) :
    m.add_scaled_row target source 0 = Except.ok m ∧
    m.add_scaled_row_general target source 0 = Except.ok m ∧
    (∀ factor : K, m.add_scaled_row target source factor
      = m.add_scaled_row_general target source factor) ∧
    (∀ factor : K, ∃ result : Numerics.Matrix K,
      m.add_scaled_row_general target source factor = Except.ok result ∧
      result.IsShape r c ∧
      ∀ i j, i < r → j < c → result.get i j
        = if i = target then m.get target j + m.get source j * factor else m.get i j) := by
  have hguard : ¬ (target ≥ m.rows_ ∨ source ≥ m.rows_) := by
    rw [hm.1]
    omega
  have hzero : m.add_scaled_row target source 0 = Except.ok m := by
    rw [Numerics.Matrix.add_scaled_row, if_neg hguard, if_pos rfl]
  have hgeneral : m.add_scaled_row_general target source 0 = Except.ok m := by
    rw [Numerics.Matrix.add_scaled_row_general, if_neg hguard]
    congr 1
    refine foldl_preserves (fun a => a = m) _ ?_ _ m rfl
    intro a col ha
    rw [ha, hlaw]
    exact set_get_self m target col
  refine ⟨hzero, hgeneral, ?_, ?_⟩
  · intro factor
    by_cases hf : factor = 0
    · rw [hf, hzero, hgeneral]
    · rw [Numerics.Matrix.add_scaled_row, Numerics.Matrix.add_scaled_row_general,
        if_neg hguard, if_neg hguard, if_neg hf]
  · intro factor
    refine ⟨_, by rw [Numerics.Matrix.add_scaled_row_general, if_neg hguard], ?_⟩
    rw [hm.2.1]
    have key := rowUpdate_spec (fun x y => x + y * factor) hm source ht c (Nat.le_refl c)
    refine ⟨key.1, ?_⟩
    intro i j _ hj
    rw [key.2 i j hj]
    by_cases h : i = target
    · rw [if_pos ⟨h, hj⟩, if_pos h]
    · rw [if_neg (fun hc => h hc.1), if_neg h]

/-- Witness of C21 over the integers, on the matrix of test SwapsScalesAndAddsRows before its
call of `add_scaled_row`. -/
theorem add_scaled_row_zero_factor_witness :
    (Numerics.Matrix.mk 3 3 [(7 : Int), 8, 9, 8, 10, 12, 1, 2, 3]).IsShape 3 3 ∧
    (Numerics.Matrix.mk 3 3 [(7 : Int), 8, 9, 8, 10, 12, 1, 2, 3]).add_scaled_row 0 1 0
      = Except.ok (Numerics.Matrix.mk 3 3 [7, 8, 9, 8, 10, 12, 1, 2, 3]) ∧
    (Numerics.Matrix.mk 3 3 [(7 : Int), 8, 9, 8, 10, 12, 1, 2, 3]).add_scaled_row_general 0 1 0
      = Except.ok (Numerics.Matrix.mk 3 3 [7, 8, 9, 8, 10, 12, 1, 2, 3]) ∧
    (Numerics.Matrix.mk 3 3 [(7 : Int), 8, 9, 8, 10, 12, 1, 2, 3]).add_scaled_row 0 1 (-1)
      = (Numerics.Matrix.mk 3 3 [(7 : Int), 8, 9, 8, 10, 12, 1, 2, 3]).add_scaled_row_general
          0 1 (-1) ∧
    (Numerics.Matrix.mk 3 3 [(7 : Int), 8, 9, 8, 10, 12, 1, 2, 3]).add_scaled_row 0 1 (-1)
      = Except.ok (Numerics.Matrix.mk 3 3 [-1, -2, -3, 8, 10, 12, 1, 2, 3]) :=
  ⟨⟨rfl, rfl, rfl, by decide⟩,
    (add_scaled_row_zero_factor (fun (x y : Int) => by simp) 3 3
      (Numerics.Matrix.mk 3 3 [(7 : Int), 8, 9, 8, 10, 12, 1, 2, 3]) ⟨rfl, rfl, rfl, by decide⟩ 0 1
      (by decide) (by decide)).1,
    (add_scaled_row_zero_factor (fun (x y : Int) => by simp) 3 3
      (Numerics.Matrix.mk 3 3 [(7 : Int), 8, 9, 8, 10, 12, 1, 2, 3]) ⟨rfl, rfl, rfl, by decide⟩ 0 1
      (by decide) (by decide)).2.1,
    (add_scaled_row_zero_factor (fun (x y : Int) => by simp) 3 3
      (Numerics.Matrix.mk 3 3 [(7 : Int), 8, 9, 8, 10, 12, 1, 2, 3]) ⟨rfl, rfl, rfl, by decide⟩ 0 1
      (by decide) (by decide)).2.2.1 (-1),
    rfl⟩

end RowOperationTheorems

/-! ## Theorems: the head of the queue -/

section HeadAvailableTheorems
open Locking

variable {σ ε α : Type}

theorem holds_false_frame {s : LockState} {pc : Pc} {m : Micro} (hpc : holds pc = false)
    (h : micro s pc = some m) :
    m.stopping = s.stopping ∧ m.queued = s.queued ∧ m.next ≠ Pc.workerExitTest ∧
      m.next ≠ Pc.workerTake := by
  cases pc <;> simp [holds] at hpc <;> simp only [micro] at h <;> (try split_ifs at h) <;>
    cases h <;> simp

theorem micro_head {s : LockState} {pc : Pc} {m : Micro} (h : micro s pc = some m)
    (hexit : pc = Pc.workerExitTest → s.stopping = true ∨ 0 < s.queued) :
    (m.next = Pc.workerExitTest → m.stopping = true ∨ 0 < m.queued) ∧
    (m.next = Pc.workerTake → 0 < m.queued) := by
  cases pc <;> simp only [micro] at h <;> (try split_ifs at h) <;> cases h <;>
    simp_all
  · rename_i h
    exact h.imp id Nat.pos_of_ne_zero
  · rename_i h
    exact hexit.elim (fun hs => Nat.pos_of_ne_zero (h hs)) id

theorem headAvailable_initial (workers callers : Nat) :
    (LockState.initial workers callers).HeadAvailable := by
  intro tid
  have hpc : ∀ pc, (LockState.initial workers callers).pcs[tid]? = some pc →
      pc = Pc.workerLock ∨ pc = Pc.idle := by
    intro pc h
    rcases List.mem_append.mp (List.getElem?_mem h) with h1 | h1
    · exact Or.inl (List.eq_of_mem_replicate h1)
    · exact Or.inr (List.eq_of_mem_replicate h1)
  constructor
  · intro h
    rcases hpc _ h with h1 | h1 <;> cases h1
  · intro h
    rcases hpc _ h with h1 | h1 <;> cases h1

theorem headAvailable_call {s : LockState} (hs : s.HeadAvailable) (tid : Nat) (entry : Pc)
    (h1 : entry ≠ Pc.workerExitTest) (h2 : entry ≠ Pc.workerTake) :
    (s.call tid entry).HeadAvailable := by
  unfold LockState.call
  split
  · intro tid'
    simp only [List.getElem?_set]
    by_cases ht : tid = tid'
    · subst ht
      rw [if_pos rfl]
      constructor
      · intro h
        split_ifs at h
        cases h
        exact absurd rfl h1
      · intro h
        split_ifs at h
        cases h
        exact absurd rfl h2
    · rw [if_neg ht]
      exact hs tid'
  · exact hs

theorem headAvailable_move {s : LockState} (hd : s.Disciplined) (hs : s.HeadAvailable)
    (mv : Move) : (s.move mv).HeadAvailable := by
  cases mv with
  | callShutdown tid => exact headAvailable_call hs tid Pc.shutdownLock (by simp) (by simp)
  | callEnqueue tid => exact headAvailable_call hs tid Pc.enqueueLock (by simp) (by simp)
  | step tid =>
    simp only [LockState.move]
    split
    · rename_i pc hpc
      split
      · rename_i m hm
        have hown := hd tid pc hpc
        have hmine := micro_head hm (fun h => (hs tid).1 (h ▸ hpc))
        intro tid'
        simp only [List.getElem?_set]
        by_cases ht : tid = tid'
        · subst ht
          rw [if_pos rfl]
          constructor
          · intro h
            split_ifs at h
            exact hmine.1 (Option.some.inj h)
          · intro h
            split_ifs at h
            exact hmine.2 (Option.some.inj h)
        · rw [if_neg ht]
          have hother : ∀ pc2, s.pcs[tid']? = some pc2 → holds pc2 = true →
              m.stopping = s.stopping ∧ m.queued = s.queued := by
            intro pc2 h2 hh
            have ho : s.owner = some tid' := (hd tid' pc2 h2).mp hh
            have hnot : holds pc = false := by
              cases hpcs : holds pc with
              | false => rfl
              | true =>
                have := hown.mp hpcs
                rw [ho] at this
                exact absurd (Option.some.inj this).symm ht
            exact ⟨(holds_false_frame hnot hm).1, (holds_false_frame hnot hm).2.1⟩
          constructor
          · intro h
            obtain ⟨e1, e2⟩ := hother _ h rfl
            rw [e1, e2]
            exact (hs tid').1 h
          · intro h
            obtain ⟨e1, e2⟩ := hother _ h rfl
            rw [e2]
            exact (hs tid').2 h
      · exact hs
    · exact hs

theorem headAvailable_run {s : LockState} (hd : s.Disciplined) (hs : s.HeadAvailable)
    (ms : List Move) : (s.run ms).HeadAvailable := by
  induction ms generalizing s with
  | nil => exact hs
  | cons mv ms ih => exact ih (disciplined_move hd mv) (headAvailable_move hd hs mv)

/-- C23: the critical section of `workerLoop` never evaluates `tasks.front()` on an empty
queue: whenever it takes a task the wait condition `stopping || !tasks.empty()` holds, the exit
check `stopping && tasks.empty()` has failed, and the task is the head of a non-empty queue; no
state the pool reaches has a worker stopped by an error. Statement by statement, under every
interleaving with other workers and callers, a worker past `cv.wait` sees the wait condition true
and a worker at `tasks.front()` and `tasks.pop()` finds at least one task in the queue. -/
theorem head_taken_only_when_nonempty (p : ThreadPool σ ε α) (threadCount : Nat) (memory : σ)
    (as : List (Action σ ε α)) (workers callers : Nat) (ms : List Move) :
    p.workerLoopLocked ≠ Acquire.undefined ∧
    (∀ task p', p.workerLoopLocked = Acquire.took task p' →
      (p.stopping || !p.tasks.isEmpty) = true ∧ (p.stopping && p.tasks.isEmpty) = false ∧
      p.tasks = task :: p'.tasks) ∧
    (∀ i : Nat, ((World.init threadCount memory : World σ ε α).run as).pool.workers[i]?
      ≠ some (Worker.aborted : Worker σ ε α)) ∧
    (∀ tid : Nat, ((LockState.initial workers callers).run ms).pcs[tid]? = some Pc.workerExitTest →
      ((LockState.initial workers callers).run ms).stopping = true ∨
        0 < ((LockState.initial workers callers).run ms).queued) ∧
    (∀ tid : Nat, ((LockState.initial workers callers).run ms).pcs[tid]? = some Pc.workerTake →
      0 < ((LockState.initial workers callers).run ms).queued) := by
  have hh := headAvailable_run (disciplined_initial workers callers)
    (headAvailable_initial workers callers) ms
  refine ⟨workerLoopLocked_defined p, ?_, ?_, fun tid => (hh tid).1, fun tid => (hh tid).2⟩
  · intro task p' h
    have htasks := (workerLoopLocked_took h).1
    refine ⟨?_, ?_, htasks⟩
    · rw [htasks]
      simp
    · rw [htasks]
      simp
  · exact (inv_run (inv_init threadCount memory) as).not_aborted

/-- Witness of C23 with one worker and one caller: after an `enqueue` the worker stands at
`tasks.front()` with one task in the queue; and test ShutdownProcessesQueuedTasks run to its end
leaves the worker returned, not stopped by an error. -/
theorem head_taken_only_when_nonempty_witness :
    ((LockState.initial 1 1).run
      [Move.callEnqueue 1, Move.step 1, Move.step 1, Move.step 1, Move.step 1, Move.step 0,
        Move.step 0, Move.step 0]).pcs[0]? = some Pc.workerTake ∧
    0 < ((LockState.initial 1 1).run
      [Move.callEnqueue 1, Move.step 1, Move.step 1, Move.step 1, Move.step 1, Move.step 0,
        Move.step 0, Move.step 0]).queued ∧
    ((World.init 1 0 : World Int Unit Unit).run shutdownProcessesQueuedTasks).pool.workers[0]?
      ≠ some Worker.aborted :=
  ⟨by decide,
    (head_taken_only_when_nonempty (ThreadPool.new 1 : ThreadPool Int Unit Unit) 1 (0 : Int)
      shutdownProcessesQueuedTasks 1 1
      [Move.callEnqueue 1, Move.step 1, Move.step 1, Move.step 1, Move.step 1, Move.step 0,
        Move.step 0, Move.step 0]).2.2.2.2 0 (by decide),
    (head_taken_only_when_nonempty (ThreadPool.new 1 : ThreadPool Int Unit Unit) 1 (0 : Int)
      shutdownProcessesQueuedTasks 1 1 []).2.2.1 0⟩

end HeadAvailableTheorems

end Limo
